import Mathlib

/-!
Verification of the nested-structure utilities (`paderbox/utils/nested.py`),
the path accessors, and the Mel-filterbank error behaviour
(`paderbox/transform/module_fbank.py`, `nt/transform/fbank.py`) of the
paderbox repository, via a shallow embedding in Lean.

Python strings are modelled as their lists of characters (`Key`), Python
values occurring in nested structures as the inductive type `NV`
(opaque atoms, insertion-ordered `dict`s as association lists, and
`list`/`tuple`s), and Python exceptions as `Except` errors.
-/

namespace Paderbox

/-- A Python `str` (used as a dict key), modelled as its list of characters. -/
abbrev Key := List Char

/-- A Python value appearing in the nested structures of `nested.py`:
an opaque atomic leaf, a `dict` (an insertion-ordered association list with
unique keys), or a `list`/`tuple` of values. -/
inductive NV where
  | atom : Nat → NV
  | dict : List (Key × NV) → NV
  | lst : List NV → NV
deriving Repr

instance : Inhabited NV := ⟨NV.atom 0⟩

/-- Structural boolean equality on `NV`, modelling Python `==` on these
values (dicts in this development are compared entry-by-entry; all dicts
produced by the embedded functions preserve insertion order, so this is a
sound refinement of Python's order-insensitive dict equality). -/
def NV.beq : NV → NV → Bool
  | .atom a, .atom b => a == b
  | .dict [], .dict [] => true
  | .dict ((k, v) :: l), .dict ((k', v') :: m) =>
      k == k' && v.beq v' && (NV.dict l).beq (NV.dict m)
  | .lst [], .lst [] => true
  | .lst (v :: l), .lst (v' :: m) => v.beq v' && (NV.lst l).beq (NV.lst m)
  | _, _ => false
termination_by x _ => sizeOf x
decreasing_by all_goals (simp; try omega)

theorem NV.beq_iff : ∀ a b : NV, (NV.beq a b = true) ↔ a = b := by
  intro a b
  induction a, b using NV.beq.induct
  case case1 => simp [NV.beq]
  case case2 => simp [NV.beq]
  case case3 => simp_all [NV.beq]
  case case4 => simp [NV.beq]
  case case5 => simp_all [NV.beq]
  case case6 a b h1 h2 h3 h4 h5 =>
    cases a with
    | atom n =>
      cases b with
      | atom m => exact (h1 n m rfl rfl).elim
      | dict m => simp [NV.beq]
      | lst m => simp [NV.beq]
    | dict l =>
      cases b with
      | atom m => simp [NV.beq]
      | lst m => simp [NV.beq]
      | dict m =>
        cases l with
        | nil =>
          cases m with
          | nil => exact (h2 rfl rfl).elim
          | cons kw m' => simp [NV.beq]
        | cons kv l' =>
          cases m with
          | nil => simp [NV.beq]
          | cons kw m' =>
            obtain ⟨k, v⟩ := kv
            obtain ⟨k', v'⟩ := kw
            exact (h3 k v l' k' v' m' rfl rfl).elim
    | lst l =>
      cases b with
      | atom m => simp [NV.beq]
      | dict m => simp [NV.beq]
      | lst m =>
        cases l with
        | nil =>
          cases m with
          | nil => exact (h4 rfl rfl).elim
          | cons w m' => simp [NV.beq]
        | cons v l' =>
          cases m with
          | nil => simp [NV.beq]
          | cons w m' => exact (h5 v l' w m' rfl rfl).elim

instance : DecidableEq NV := fun a b => decidable_of_iff _ (NV.beq_iff a b)

/-! ### Python dict primitives

A Python `dict` is modelled as an association list with unique keys.
`alookup` models both `d[k]` (when it succeeds) and the `k in d` test,
`aset` models `d[k] = v` (an existing key keeps its position and gets the
new value, a new key is appended), `aupdate` models `d.update(e)`. -/

/-- `d[k]` as an `Option`: the value of the first entry with key `k`. -/
def alookup {K V : Type} [DecidableEq K] : List (K × V) → K → Option V
  | [], _ => none
  | (k', v) :: rest, k => if k' = k then some v else alookup rest k

/-- `d[k] = v`: replace the value at an existing key in place, or append. -/
def aset {K V : Type} [DecidableEq K] (d : List (K × V)) (k : K) (v : V) :
    List (K × V) :=
  if (alookup d k).isSome then
    d.map (fun p => if p.1 = k then (k, v) else p)
  else
    d ++ [(k, v)]

/-- `d.update(e)`: apply `d[k] = v` for every entry of `e` in order. -/
def aupdate {K V : Type} [DecidableEq K] (d e : List (K × V)) : List (K × V) :=
  e.foldl (fun acc p => aset acc p.1 p.2) d

/-! ### Python `str.split` and `str.join` -/

/-- Index of the first occurrence of `sep` as a contiguous subsequence. -/
def findSub (sep : Key) : Key → Option Nat
  | [] => if sep.isPrefixOf [] then some 0 else none
  | c :: rest =>
      if sep.isPrefixOf (c :: rest) then some 0
      else (findSub sep rest).map (· + 1)

theorem findSub_prefix {sep s : Key} {i : Nat} (h : findSub sep s = some i) :
    sep <+: s.drop i := by
  induction s generalizing i with
  | nil =>
    simp only [findSub] at h
    split at h
    · cases h
      rename_i hpre
      rw [List.isPrefixOf_iff_prefix] at hpre
      simpa using hpre
    · cases h
  | cons c rest ih =>
    simp only [findSub] at h
    split at h
    · cases h
      rename_i hpre
      rw [List.isPrefixOf_iff_prefix] at hpre
      simpa using hpre
    · rcases hx : findSub sep rest with _ | j
      · rw [hx] at h; cases h
      · rw [hx] at h
        injection h with h
        subst h
        simpa using ih hx

theorem findSub_bound {sep s : Key} {i : Nat} (h : findSub sep s = some i) :
    i ≤ s.length := by
  induction s generalizing i with
  | nil =>
    simp only [findSub] at h
    split at h
    · cases h; simp
    · cases h
  | cons c rest ih =>
    simp only [findSub] at h
    split at h
    · cases h; simp
    · rcases hx : findSub sep rest with _ | j
      · rw [hx] at h; cases h
      · rw [hx] at h
        injection h with h
        subst h
        have := ih hx
        simp only [List.length_cons]
        omega

theorem findSub_le {sep s : Key} {i : Nat} (h : findSub sep s = some i) :
    i + sep.length ≤ s.length := by
  have hp := findSub_prefix h
  have hlen := hp.length_le
  rw [List.length_drop] at hlen
  have hi := findSub_bound h
  omega

/-- Python `s.split(sep, maxsplit)` on character lists.  A negative
`maxsplit` means unlimited splitting.  (`str.split` with an empty separator
raises `ValueError` in Python; the embedded functions never call it with an
empty separator, and we return `[s]` there for totality.) -/
def pySplit (sep : Key) (maxsplit : Int) (s : Key) : List Key :=
  if maxsplit = 0 then [s]
  else if hsep : sep = [] then [s]
  else
    match hf : findSub sep s with
    | none => [s]
    | some i => s.take i :: pySplit sep (maxsplit - 1) (s.drop (i + sep.length))
termination_by s.length
decreasing_by
  have h1 := findSub_le hf
  have h2 : sep.length ≥ 1 := by
    cases sep with
    | nil => exact absurd rfl hsep
    | cons c cs => simp
  simp only [List.length_drop]
  omega

/-- Python `sep.join(parts)` on character lists. -/
def pyJoin (sep : Key) : List Key → Key
  | [] => []
  | [p] => p
  | p :: ps => p ++ sep ++ pyJoin sep ps

theorem pyJoin_cons_of_ne_nil (sep : Key) (p : Key) {ps : List Key}
    (h : ps ≠ []) : pyJoin sep (p :: ps) = p ++ sep ++ pyJoin sep ps := by
  cases ps with
  | nil => exact absurd rfl h
  | cons q qs => rfl

theorem pySplit_ne_nil (sep : Key) (maxsplit : Int) (s : Key) :
    pySplit sep maxsplit s ≠ [] := by
  unfold pySplit
  split
  · simp
  · split
    · simp
    · split <;> simp

/-- `sep.join(s.split(sep, m)) == s`: `pySplit` literally decomposes `s`.
In particular `pySplit sep m` is injective. -/
theorem pyJoin_pySplit (sep : Key) (maxsplit : Int) (s : Key) :
    pyJoin sep (pySplit sep maxsplit s) = s := by
  refine pySplit.induct sep (fun m t => pyJoin sep (pySplit sep m t) = t)
    ?_ ?_ ?_ ?_ maxsplit s
  case refine_1 =>
    intro s
    rw [pySplit, if_pos rfl]
    rfl
  case refine_2 =>
    intro maxsplit s h hsep
    rw [pySplit, if_neg h, dif_pos hsep]
    rfl
  case refine_3 =>
    intro maxsplit s h hsep hf
    rw [pySplit, if_neg h, dif_neg hsep]
    split
    · rfl
    · rename_i j hj
      rw [hf] at hj
      cases hj
  case refine_4 =>
    intro maxsplit s h hsep i hf ih
    rw [pySplit, if_neg h, dif_neg hsep]
    split
    · rename_i hj
      rw [hf] at hj
      cases hj
    · rename_i j hj
      rw [hf] at hj
      injection hj with hj
      subst hj
      obtain ⟨t, ht⟩ := findSub_prefix hf
      have hdrop : s.drop (i + sep.length) = t := by
        have h2 : (s.drop i).drop sep.length = t := by
          rw [← ht]; simp
        rw [← h2, List.drop_drop]
        try rw [Nat.add_comm i sep.length]
      rw [hdrop] at ih ⊢
      rw [pyJoin_cons_of_ne_nil _ _ (pySplit_ne_nil _ _ _), ih]
      calc s.take i ++ sep ++ t = s.take i ++ (sep ++ t) := by simp
      _ = s.take i ++ s.drop i := by rw [ht]
      _ = s := by simp

theorem pySplit_injective (sep : Key) (maxsplit : Int) {s t : Key}
    (h : pySplit sep maxsplit s = pySplit sep maxsplit t) : s = t := by
  have hs := pyJoin_pySplit sep maxsplit s
  have ht := pyJoin_pySplit sep maxsplit t
  rw [← hs, ← ht, h]

theorem findSub_cons (sep : Key) (a : Char) (s : Key) :
    findSub sep (a :: s) =
      if sep.isPrefixOf (a :: s) then some 0
      else (findSub sep s).map (· + 1) := rfl

theorem findSub_singleton_none {c : Char} {s : Key} (h : c ∉ s) :
    findSub [c] s = none := by
  induction s with
  | nil => simp [findSub]
  | cons a rest ih =>
    rw [findSub_cons, if_neg, ih (fun hm => h (List.mem_cons_of_mem _ hm))]
    · rfl
    · intro hpre
      rw [List.isPrefixOf_iff_prefix] at hpre
      obtain ⟨u, hu⟩ := hpre
      cases hu
      exact h (List.mem_cons_self _ _)

theorem findSub_singleton_append {c : Char} {p t : Key} (h : c ∉ p) :
    findSub [c] (p ++ c :: t) = some p.length := by
  induction p with
  | nil =>
    rw [List.nil_append, findSub_cons, if_pos]
    · rfl
    · rw [List.isPrefixOf_iff_prefix]
      exact ⟨t, rfl⟩
  | cons a rest ih =>
    have hta : c ∉ rest := fun hm => h (List.mem_cons_of_mem _ hm)
    have hca : ¬ ([c].isPrefixOf (a :: (rest ++ c :: t)) = true) := by
      intro hpre
      rw [List.isPrefixOf_iff_prefix] at hpre
      obtain ⟨u, hu⟩ := hpre
      cases hu
      exact h (List.mem_cons_self _ _)
    rw [List.cons_append, findSub_cons, if_neg hca, ih hta]
    rfl

/-- For a single-character separator occurring in no part,
splitting the joined string recovers the parts: the round-trip side of
`str.split` / `str.join`. -/
theorem pySplit_pyJoin_singleton (c : Char) :
    ∀ (parts : List Key) (maxsplit : Int), maxsplit < 0 → parts ≠ [] →
      (∀ p ∈ parts, c ∉ p) →
      pySplit [c] maxsplit (pyJoin [c] parts) = parts := by
  intro parts
  induction parts with
  | nil => intro _ _ h; exact absurd rfl h
  | cons p ps ih =>
    intro maxsplit hm _ hfree
    cases ps with
    | nil =>
      rw [pySplit, if_neg (by omega), dif_neg (by simp)]
      split
      · rfl
      · rename_i j hj
        rw [show pyJoin [c] [p] = p from rfl,
          findSub_singleton_none (hfree p (List.mem_cons_self _ _))] at hj
        cases hj
    | cons q qs =>
      have hfp : c ∉ p := hfree p (List.mem_cons_self _ _)
      have hkey : pyJoin [c] (p :: q :: qs) = p ++ c :: pyJoin [c] (q :: qs) := by
        rw [pyJoin_cons_of_ne_nil _ _ (by simp)]
        simp
      rw [pySplit, if_neg (by omega), dif_neg (by simp)]
      split
      · rename_i hj
        rw [hkey, findSub_singleton_append hfp] at hj
        cases hj
      · rename_i j hj
        rw [hkey, findSub_singleton_append hfp] at hj
        injection hj with hj
        subst hj
        have htake : (pyJoin [c] (p :: q :: qs)).take p.length = p := by
          rw [hkey, List.take_left']
          rfl
        have hdrop : (pyJoin [c] (p :: q :: qs)).drop (p.length + [c].length) =
            pyJoin [c] (q :: qs) := by
          rw [hkey]
          have h2 : p ++ c :: pyJoin [c] (q :: qs) =
              (p ++ [c]) ++ pyJoin [c] (q :: qs) := by simp
          have h1 : p.length + [c].length = (p ++ [c]).length := by simp
          rw [h1, h2, List.drop_left]
        rw [htake, hdrop]
        rw [ih (maxsplit - 1) (by omega) (by simp)
          (fun r hr => hfree r (List.mem_cons_of_mem _ hr))]

/-! ### Association-list lemmas -/

/-- The keys of a dict, in insertion order. -/
def keysOf {K V : Type} (d : List (K × V)) : List K := d.map Prod.fst

theorem alookup_nil {K V : Type} [DecidableEq K] (k : K) :
    alookup ([] : List (K × V)) k = none := rfl

theorem alookup_cons {K V : Type} [DecidableEq K] (k' : K) (v : V)
    (rest : List (K × V)) (k : K) :
    alookup ((k', v) :: rest) k = if k' = k then some v else alookup rest k :=
  rfl

theorem keysOf_nil {K V : Type} : keysOf ([] : List (K × V)) = [] := rfl

theorem keysOf_cons {K V : Type} (p : K × V) (rest : List (K × V)) :
    keysOf (p :: rest) = p.1 :: keysOf rest := rfl

theorem keysOf_append {K V : Type} (d e : List (K × V)) :
    keysOf (d ++ e) = keysOf d ++ keysOf e := by
  simp [keysOf]

theorem alookup_eq_none {K V : Type} [DecidableEq K] {d : List (K × V)}
    {k : K} : alookup d k = none ↔ k ∉ keysOf d := by
  induction d with
  | nil => simp [alookup_nil, keysOf_nil]
  | cons p rest ih =>
    obtain ⟨k', v⟩ := p
    rw [alookup_cons, keysOf_cons, List.mem_cons]
    by_cases hk : k' = k
    · rw [if_pos hk]
      constructor
      · intro h; cases h
      · intro h; exact absurd (Or.inl hk.symm) h
    · rw [if_neg hk, ih]
      constructor
      · intro h hmem
        rcases hmem with h1 | h2
        · exact hk h1.symm
        · exact h h2
      · intro h h2
        exact h (Or.inr h2)

theorem alookup_isSome {K V : Type} [DecidableEq K] {d : List (K × V)}
    {k : K} : (alookup d k).isSome = true ↔ k ∈ keysOf d := by
  rcases h : alookup d k with _ | v
  · rw [alookup_eq_none] at h
    simp [h]
  · have h2 : ¬ alookup d k = none := by rw [h]; simp
    rw [alookup_eq_none] at h2
    simp at h2
    simp [h2]

theorem aset_of_not_mem {K V : Type} [DecidableEq K] {d : List (K × V)}
    {k : K} (v : V) (h : k ∉ keysOf d) : aset d k v = d ++ [(k, v)] := by
  rw [aset, if_neg]
  rw [Option.isSome_iff_ne_none]
  simp only [ne_eq, not_not]
  rw [alookup_eq_none]
  exact h

theorem alookup_mem {K V : Type} [DecidableEq K] {d : List (K × V)}
    {k : K} {v : V} (h : alookup d k = some v) : (k, v) ∈ d := by
  induction d with
  | nil => cases h
  | cons p rest ih =>
    obtain ⟨k', w⟩ := p
    rw [alookup_cons] at h
    split at h
    · cases h
      subst ‹k' = k›
      exact List.mem_cons_self _ _
    · exact List.mem_cons_of_mem _ (ih h)

theorem alookup_append_right {K V : Type} [DecidableEq K] {d : List (K × V)}
    (e : List (K × V)) {k : K} (h : k ∉ keysOf d) :
    alookup (d ++ e) k = alookup e k := by
  induction d with
  | nil => rfl
  | cons p rest ih =>
    obtain ⟨k', w⟩ := p
    rw [keysOf_cons, List.mem_cons] at h
    push_neg at h
    rw [List.cons_append, alookup_cons, if_neg (fun hc => h.1 hc.symm)]
    exact ih h.2

/-- `alookup` after the in-place map used by `aset`, at the set key. -/
theorem alookup_mapset_self {K V : Type} [DecidableEq K]
    {d : List (K × V)} {k : K} (v : V) (h : k ∈ keysOf d) :
    alookup (d.map (fun p => if p.1 = k then (k, v) else p)) k = some v := by
  induction d with
  | nil => cases h
  | cons p rest ih =>
    obtain ⟨k', u⟩ := p
    rw [List.map_cons]
    by_cases hk : k' = k
    · rw [show (if ((k', u) : K × V).1 = k then (k, v) else (k', u)) =
        (k, v) from by simp [hk]]
      rw [alookup_cons, if_pos rfl]
    · rw [show (if ((k', u) : K × V).1 = k then (k, v) else (k', u)) =
        (k', u) from by simp [hk]]
      rw [alookup_cons, if_neg hk]
      rw [keysOf_cons, List.mem_cons] at h
      rcases h with h | h
      · exact absurd h.symm hk
      · exact ih h

/-- `alookup` after the in-place map used by `aset`, at another key. -/
theorem alookup_mapset_ne {K V : Type} [DecidableEq K]
    (d : List (K × V)) {k k' : K} (v : V) (h : k ≠ k') :
    alookup (d.map (fun p => if p.1 = k then (k, v) else p)) k' =
      alookup d k' := by
  induction d with
  | nil => rfl
  | cons p rest ih =>
    obtain ⟨k'', u⟩ := p
    rw [List.map_cons]
    by_cases hk : k'' = k
    · rw [show (if ((k'', u) : K × V).1 = k then (k, v) else (k'', u)) =
        (k, v) from by simp [hk]]
      rw [alookup_cons, alookup_cons, if_neg h, if_neg (hk ▸ h), ih]
    · rw [show (if ((k'', u) : K × V).1 = k then (k, v) else (k'', u)) =
        (k'', u) from by simp [hk]]
      rw [alookup_cons, alookup_cons, ih]

theorem alookup_aset_self {K V : Type} [DecidableEq K] (d : List (K × V))
    (k : K) (v : V) : alookup (aset d k v) k = some v := by
  rw [aset]
  split <;> rename_i hs
  · exact alookup_mapset_self v (alookup_isSome.mp hs)
  · have hnone : alookup d k = none := by
      rcases hx : alookup d k with _ | w
      · rfl
      · rw [hx] at hs; simp at hs
    rw [alookup_append_right _ (alookup_eq_none.mp hnone), alookup_cons,
      if_pos rfl]

theorem alookup_aset_ne {K V : Type} [DecidableEq K] (d : List (K × V))
    {k k' : K} (v : V) (h : k ≠ k') :
    alookup (aset d k v) k' = alookup d k' := by
  rw [aset]
  split
  · exact alookup_mapset_ne d v h
  · rename_i hs
    clear hs
    induction d with
    | nil =>
      rw [List.nil_append, alookup_cons, if_neg h, alookup_nil]
    | cons p rest ih =>
      obtain ⟨k'', u⟩ := p
      rw [List.cons_append, alookup_cons, alookup_cons]
      split
      · rfl
      · exact ih

theorem keysOf_aset_mem {K V : Type} [DecidableEq K] {d : List (K × V)}
    {k : K} (v : V) (h : k ∈ keysOf d) : keysOf (aset d k v) = keysOf d := by
  rw [aset, if_pos (alookup_isSome.mpr h)]
  simp only [keysOf, List.map_map]
  apply List.map_congr_left
  intro p _
  by_cases hp : p.1 = k
  · simp [hp]
  · simp [hp]

theorem keysOf_aset_not_mem {K V : Type} [DecidableEq K] {d : List (K × V)}
    {k : K} (v : V) (h : k ∉ keysOf d) :
    keysOf (aset d k v) = keysOf d ++ [k] := by
  rw [aset_of_not_mem v h]
  simp [keysOf]

theorem aset_aset {K V : Type} [DecidableEq K] (d : List (K × V)) (k : K)
    (v w : V) : aset (aset d k v) k w = aset d k w := by
  by_cases h : k ∈ keysOf d
  · have h1 := alookup_isSome.mpr h
    have h2 : k ∈ keysOf (aset d k v) := by rw [keysOf_aset_mem v h]; exact h
    rw [aset, if_pos (alookup_isSome.mpr h2), aset, if_pos h1, aset, if_pos h1]
    rw [List.map_map]
    apply List.map_congr_left
    intro p _
    by_cases hp : p.1 = k
    · simp [hp]
    · simp [hp]
  · rw [aset_of_not_mem v h]
    have h2 : alookup (d ++ [(k, v)]) k = some v := by
      rw [alookup_append_right _ h, alookup_cons, if_pos rfl]
    rw [aset, if_pos (by rw [h2]; rfl), aset_of_not_mem w h]
    rw [List.map_append]
    congr 1
    · have hid : d.map (fun p => if p.1 = k then (k, w) else p) = d.map id := by
        apply List.map_congr_left
        intro p hp
        rw [if_neg, id]
        intro hc
        exact h (hc ▸ List.mem_map_of_mem Prod.fst hp)
      rw [hid, List.map_id]
    · simp

theorem aset_eq_self {K V : Type} [DecidableEq K] {d : List (K × V)} {k : K}
    {v : V} (hnd : (keysOf d).Nodup) (h : alookup d k = some v) :
    aset d k v = d := by
  rw [aset, if_pos (by rw [h]; rfl)]
  induction d with
  | nil => rfl
  | cons p rest ih =>
    obtain ⟨k', u⟩ := p
    rw [keysOf_cons, List.nodup_cons] at hnd
    rw [alookup_cons] at h
    rw [List.map_cons]
    split at h <;> rename_i hk
    · cases h
      subst hk
      rw [show (if ((k', v) : K × V).1 = k' then (k', v) else (k', v)) =
        (k', v) from by simp]
      congr 1
      have hid : rest.map (fun p => if p.1 = k' then (k', v) else p) =
          rest.map id := by
        apply List.map_congr_left
        intro q hq
        rw [if_neg, id]
        intro hc
        refine hnd.1 ?_
        show k' ∈ keysOf rest
        rw [← hc]
        exact List.mem_map_of_mem Prod.fst hq
      rw [hid, List.map_id]
    · rw [show (if ((k', u) : K × V).1 = k then (k, v) else (k', u)) =
        (k', u) from by simp [hk]]
      rw [ih hnd.2 h]

theorem aupdate_nil {K V : Type} [DecidableEq K] (d : List (K × V)) :
    aupdate d [] = d := rfl

theorem aupdate_cons {K V : Type} [DecidableEq K] (d : List (K × V))
    (p : K × V) (e : List (K × V)) :
    aupdate d (p :: e) = aupdate (aset d p.1 p.2) e := rfl

theorem aupdate_eq_append {K V : Type} [DecidableEq K] :
    ∀ (e d : List (K × V)), (∀ k ∈ keysOf e, k ∉ keysOf d) →
    (keysOf e).Nodup → aupdate d e = d ++ e := by
  intro e
  induction e with
  | nil => intro d _ _; simp [aupdate_nil]
  | cons p rest ih =>
    intro d hdisj hnd
    obtain ⟨k, v⟩ := p
    rw [keysOf_cons, List.nodup_cons] at hnd
    have h1 : k ∉ keysOf d := hdisj k (by rw [keysOf_cons]; exact List.mem_cons_self _ _)
    rw [aupdate_cons]
    rw [show ((k, v) : K × V).1 = k from rfl, show ((k, v) : K × V).2 = v from rfl]
    rw [aset_of_not_mem v h1]
    rw [ih (d ++ [(k, v)]) ?disj hnd.2]
    · simp
    case disj =>
      intro k' hk'
      rw [keysOf_append]
      simp only [List.mem_append]
      push_neg
      refine ⟨?_, ?_⟩
      · exact hdisj k' (by rw [keysOf_cons]; exact List.mem_cons_of_mem _ hk')
      · show k' ∉ keysOf [(k, v)]
        rw [keysOf_cons, keysOf_nil]
        simp only [List.mem_singleton]
        intro hc
        exact hnd.1 (hc ▸ hk')

/-! ### `flatten` (nested.py, lines 8-58)

`flatten(d, sep)` recursively descends into non-empty dicts (the
`isinstance(v, flat_type) and v` test), accumulating tuple keys; with
`sep=None` the tuple-keyed dict is returned, otherwise each tuple key is
joined with `sep` (a dict comprehension). -/

/-- The recursive helper `inner` of `flatten`: `items` is the dict being
built (Python threads it through `items.update(...)` / `items[new_key] = v`
while iterating `d.items()` in order).  A value is descended into exactly
when `isinstance(v, flat_type) and v` holds, i.e. when it is a non-empty
dict; anything else (atoms, lists, the empty dict) is stored verbatim. -/
def flattenInner : List (Key × NV) → List Key → List (List Key × NV) →
    List (List Key × NV)
  | [], _, items => items
  | (k, NV.dict (e :: m)) :: rest, parent, items =>
      flattenInner rest parent
        (aupdate items (flattenInner (e :: m) (parent ++ [k]) []))
  | (k, NV.dict []) :: rest, parent, items =>
      flattenInner rest parent (aset items (parent ++ [k]) (NV.dict []))
  | (k, NV.atom n) :: rest, parent, items =>
      flattenInner rest parent (aset items (parent ++ [k]) (NV.atom n))
  | (k, NV.lst l) :: rest, parent, items =>
      flattenInner rest parent (aset items (parent ++ [k]) (NV.lst l))
termination_by d _ _ => sizeOf d
decreasing_by all_goals (simp; try omega)

/-- `flatten(d, sep=None)`: flat dict with tuple keys. -/
def flattenNone (d : List (Key × NV)) : List (List Key × NV) :=
  flattenInner d [] []

/-- `flatten(d, sep)` for a string separator: the dict comprehension
`{sep.join(k): v for k, v in items.items()}`. -/
def flattenSep (sep : Key) (d : List (Key × NV)) : List (Key × NV) :=
  (flattenNone d).foldl (fun acc p => aset acc (pyJoin sep p.1) p.2) []

/-! ### `deflatten` (nested.py, lines 61-123) -/

/-- An error raised by `deflatten`: the `AssertionError('Conflicting
keys!...')` of the source, or the `IndexError` that `keys[-1]` raises on an
empty tuple key. -/
inductive DeflErr where
  | conflict
  | indexError
deriving DecidableEq, Repr

/-- One iteration of `deflatten`'s outer loop: insert value `v` at the key
tuple `ks` into the partial result, creating intermediate dicts, and
failing where the source's `assert` statements fail. -/
def insertPath (ret : List (Key × NV)) : List Key → NV →
    Except DeflErr (List (Key × NV))
  | [], _ => .error .indexError
  | [k], v =>
      match alookup ret k with
      | some _ => .error .conflict
      | none => .ok (aset ret k v)
  | k :: k2 :: rest, v =>
      match alookup ret k with
      | none =>
          match insertPath [] (k2 :: rest) v with
          | .ok sub => .ok (aset ret k (NV.dict sub))
          | .error e => .error e
      | some (NV.dict sub) =>
          match insertPath sub (k2 :: rest) v with
          | .ok sub2 => .ok (aset ret k (NV.dict sub2))
          | .error e => .error e
      | some _ => .error .conflict

/-- `deflatten`'s outer loop over the flat dict's items, from a partial
result `ret` (the source starts from `ret = {}` and aborts at the first
failing `assert`). -/
def insertAll (ret : List (Key × NV)) : List (List Key × NV) →
    Except DeflErr (List (Key × NV))
  | [] => .ok ret
  | p :: rest =>
      match insertPath ret p.1 p.2 with
      | .ok ret2 => insertAll ret2 rest
      | .error e => .error e

/-- `deflatten(d, sep=None)`: the input keys are already tuples. -/
def deflattenNone (d : List (List Key × NV)) :
    Except DeflErr (List (Key × NV)) :=
  insertAll [] d

/-- `deflatten(d, sep, maxdepth)` for a string separator: first the dict
comprehension `{tuple(k.split(sep, maxdepth)): v for k, v in d.items()}`,
then the insertion loop. -/
def deflattenSep (sep : Key) (maxdepth : Int) (d : List (Key × NV)) :
    Except DeflErr (List (Key × NV)) :=
  deflattenNone (d.foldl (fun acc p => aset acc (pySplit sep maxdepth p.1) p.2) [])

/-! ### Well-formedness predicates on trees -/

/-- Every dict reachable through dict nesting has unique keys (true of any
value built of real Python dicts). -/
def nodeWF : NV → Prop
  | .dict l => (keysOf l).Nodup ∧ ∀ kv ∈ l, nodeWF kv.2
  | _ => True
termination_by x => sizeOf x
decreasing_by
  rename_i hmem
  have h1 := List.sizeOf_lt_of_mem hmem
  cases kv with
  | mk k v => simp at h1 ⊢; omega

/-- Well-formedness of a top-level dict. -/
def dictWF (d : List (Key × NV)) : Prop := nodeWF (NV.dict d)

theorem nodeWF_dict {l : List (Key × NV)} :
    nodeWF (NV.dict l) ↔ (keysOf l).Nodup ∧ ∀ kv ∈ l, nodeWF kv.2 := by
  rw [nodeWF]

/-- No empty dict occurs as a value anywhere in the tree ("no empty
internal mapping nodes, and no leaf values that are themselves
mappings" — under `flatten`, a dict value is a leaf exactly when it is
empty). -/
def noEmptyNode : NV → Prop
  | .dict l => l ≠ [] ∧ ∀ kv ∈ l, noEmptyNode kv.2
  | _ => True
termination_by x => sizeOf x
decreasing_by
  rename_i hmem
  have h1 := List.sizeOf_lt_of_mem hmem
  cases kv with
  | mk k v => simp at h1 ⊢; omega

/-- The character `c` occurs in no key of any dict reachable through dict
nesting. -/
def cFree (c : Char) : NV → Prop
  | .dict l => ∀ kv ∈ l, c ∉ kv.1 ∧ cFree c kv.2
  | _ => True
termination_by x => sizeOf x
decreasing_by
  rename_i hmem
  have h1 := List.sizeOf_lt_of_mem hmem
  cases kv with
  | mk k v => simp at h1 ⊢; omega

theorem cFree_dict {c : Char} {l : List (Key × NV)} :
    cFree c (NV.dict l) ↔ ∀ kv ∈ l, c ∉ kv.1 ∧ cFree c kv.2 := by
  rw [cFree]

/-! ### Characterisation of `flatten` as a simple path list -/

/-- The list of (path, leaf) pairs of a tree in depth-first order: what
`flatten`'s accumulation produces when all generated paths are distinct. -/
def flatList : List (Key × NV) → List (List Key × NV)
  | [] => []
  | (k, v) :: rest =>
      (match v with
       | NV.dict m =>
           if m = [] then [([k], v)]
           else (flatList m).map (fun p => (k :: p.1, p.2))
       | _ => [([k], v)]) ++ flatList rest
termination_by d => sizeOf d
decreasing_by all_goals (simp; try omega)

/-- Unfolding equations for `flatList`. -/
theorem flatList_nil : flatList [] = [] := by rw [flatList]

theorem flatList_cons_dict (k : Key) (m : List (Key × NV))
    (rest : List (Key × NV)) (hm : m ≠ []) :
    flatList ((k, NV.dict m) :: rest) =
      (flatList m).map (fun p => (k :: p.1, p.2)) ++ flatList rest := by
  rw [flatList, if_neg hm]

theorem flatList_cons_dict_nil (k : Key) (rest : List (Key × NV)) :
    flatList ((k, NV.dict []) :: rest) =
      ([k], NV.dict []) :: flatList rest := by
  rw [flatList.eq_def]
  rfl

theorem flatList_cons_atom (k : Key) (n : Nat) (rest : List (Key × NV)) :
    flatList ((k, NV.atom n) :: rest) = ([k], NV.atom n) :: flatList rest := by
  rw [flatList.eq_def]
  rfl

theorem flatList_cons_lst (k : Key) (l : List NV) (rest : List (Key × NV)) :
    flatList ((k, NV.lst l) :: rest) = ([k], NV.lst l) :: flatList rest := by
  rw [flatList.eq_def]
  rfl

/-- Induction over dict association lists that descends both into dict
values and along the list. -/
theorem dictList_induct (P : List (Key × NV) → Prop)
    (hnil : P [])
    (hcons : ∀ k v rest, (∀ m, v = NV.dict m → P m) → P rest →
      P ((k, v) :: rest)) : ∀ d, P d
  | [] => hnil
  | (k, v) :: rest => hcons k v rest
      (fun m _ => dictList_induct P hnil hcons m)
      (dictList_induct P hnil hcons rest)
termination_by d => sizeOf d
decreasing_by
  · rename_i hm
    subst hm
    simp
    try omega
  · simp
    try omega

theorem dictWF_cons {k : Key} {v : NV} {rest : List (Key × NV)}
    (h : dictWF ((k, v) :: rest)) :
    k ∉ keysOf rest ∧ nodeWF v ∧ dictWF rest := by
  rw [dictWF, nodeWF_dict, keysOf_cons, List.nodup_cons] at h
  obtain ⟨⟨h1, h2⟩, h3⟩ := h
  exact ⟨h1, h3 (k, v) (List.mem_cons_self _ _),
    by rw [dictWF, nodeWF_dict]
       exact ⟨h2, fun kv hkv => h3 kv (List.mem_cons_of_mem _ hkv)⟩⟩

theorem flatList_head (d : List (Key × NV)) : ∀ p ∈ flatList d,
    ∃ k t, k ∈ keysOf d ∧ p.1 = k :: t := by
  induction d using dictList_induct with
  | hnil => intro p hp; rw [flatList_nil] at hp; cases hp
  | hcons k v rest ihv ihrest =>
    intro p hp
    have hrest : p ∈ flatList rest →
        ∃ k' t, k' ∈ keysOf ((k, v) :: rest) ∧ p.1 = k' :: t := by
      intro h
      obtain ⟨k', t, hk', hpt⟩ := ihrest p h
      exact ⟨k', t, by rw [keysOf_cons]; exact List.mem_cons_of_mem _ hk', hpt⟩
    have hself : p = ([k], v) →
        ∃ k' t, k' ∈ keysOf ((k, v) :: rest) ∧ p.1 = k' :: t :=
      fun h => ⟨k, [], by rw [keysOf_cons]; exact List.mem_cons_self _ _,
        by rw [h]⟩
    cases v with
    | dict m =>
      rcases eq_or_ne m [] with hm | hm
      · subst hm
        rw [flatList_cons_dict_nil] at hp
        rcases List.mem_cons.mp hp with h | h
        · exact hself h
        · exact hrest h
      · rw [flatList_cons_dict _ _ _ hm] at hp
        rcases List.mem_append.mp hp with h | h
        · obtain ⟨q, _, hpq⟩ := List.mem_map.mp h
          exact ⟨k, q.1, by rw [keysOf_cons]; exact List.mem_cons_self _ _,
            by rw [← hpq]⟩
        · exact hrest h
    | atom n =>
      rw [flatList_cons_atom] at hp
      rcases List.mem_cons.mp hp with h | h
      · exact hself h
      · exact hrest h
    | lst l =>
      rw [flatList_cons_lst] at hp
      rcases List.mem_cons.mp hp with h | h
      · exact hself h
      · exact hrest h

theorem flatList_nonempty (d : List (Key × NV)) (hne : d ≠ []) :
    flatList d ≠ [] := by
  induction d using dictList_induct with
  | hnil => exact absurd rfl hne
  | hcons k v rest ihv ihrest =>
    cases v with
    | dict m =>
      rcases eq_or_ne m [] with hm | hm
      · subst hm
        rw [flatList_cons_dict_nil]
        simp
      · rw [flatList_cons_dict _ _ _ hm]
        intro hc
        rcases List.append_eq_nil.mp hc with ⟨h1, _⟩
        exact ihv m rfl hm (List.map_eq_nil.mp h1)
    | atom n =>
      rw [flatList_cons_atom]
      simp
    | lst l =>
      rw [flatList_cons_lst]
      simp

/-- Paths of the flat list of a well-formed dict are pairwise distinct. -/
theorem flatList_nodup (d : List (Key × NV)) (hwf : dictWF d) :
    ((flatList d).map Prod.fst).Nodup := by
  induction d using dictList_induct with
  | hnil => rw [flatList_nil]; simp
  | hcons k v rest ihv ihrest =>
    obtain ⟨hknotin, hvwf, hrestwf⟩ := dictWF_cons hwf
    have hdisj : ∀ (x : List Key), (∃ t, x = k :: t) →
        x ∉ (flatList rest).map Prod.fst := by
      rintro x ⟨t, rfl⟩ hx
      obtain ⟨p, hp, hpa⟩ := List.mem_map.mp hx
      obtain ⟨k', t', hk', hpt⟩ := flatList_head rest p hp
      rw [hpt] at hpa
      cases hpa
      exact hknotin hk'
    have hsingle : ∀ (w : NV),
        ((( [k], w) :: flatList rest).map Prod.fst).Nodup := by
      intro w
      rw [List.map_cons, List.nodup_cons]
      exact ⟨hdisj [k] ⟨[], rfl⟩, ihrest hrestwf⟩
    cases v with
    | dict m =>
      rcases eq_or_ne m [] with hm | hm
      · subst hm
        rw [flatList_cons_dict_nil]
        exact hsingle _
      · rw [flatList_cons_dict _ _ _ hm, List.map_append, List.nodup_append]
        have hmwf : dictWF m := by
          rw [dictWF]
          rw [show nodeWF (NV.dict m) ↔ _ from Iff.rfl]
          exact hvwf
        refine ⟨?_, ihrest hrestwf, ?_⟩
        · rw [List.map_map]
          have hsub := ihv m rfl hmwf
          rw [show (Prod.fst ∘ fun p : List Key × NV => (k :: p.1, p.2)) =
            ((k :: ·) ∘ Prod.fst) from rfl, ← List.map_map]
          exact List.Nodup.map (fun a b h => by injection h) hsub
        · intro a ha hb
          rw [List.map_map] at ha
          obtain ⟨q, _, hqa⟩ := List.mem_map.mp ha
          exact hdisj a ⟨q.1, by rw [← hqa]; rfl⟩ hb
    | atom n =>
      rw [flatList_cons_atom]
      exact hsingle _
    | lst l =>
      rw [flatList_cons_lst]
      exact hsingle _

/-! ### `flattenInner` computes `flatList` -/

theorem flattenInner_nil (parent : List Key) (items : List (List Key × NV)) :
    flattenInner [] parent items = items := by
  rw [flattenInner]

theorem flattenInner_cons_atom (k : Key) (n : Nat) (rest : List (Key × NV))
    (parent : List Key) (items : List (List Key × NV)) :
    flattenInner ((k, NV.atom n) :: rest) parent items =
      flattenInner rest parent (aset items (parent ++ [k]) (NV.atom n)) := by
  rw [flattenInner]

theorem flattenInner_cons_lst (k : Key) (l : List NV) (rest : List (Key × NV))
    (parent : List Key) (items : List (List Key × NV)) :
    flattenInner ((k, NV.lst l) :: rest) parent items =
      flattenInner rest parent (aset items (parent ++ [k]) (NV.lst l)) := by
  rw [flattenInner]

theorem flattenInner_cons_dict_nil (k : Key) (rest : List (Key × NV))
    (parent : List Key) (items : List (List Key × NV)) :
    flattenInner ((k, NV.dict []) :: rest) parent items =
      flattenInner rest parent (aset items (parent ++ [k]) (NV.dict [])) :=
  by
  rw [flattenInner]

theorem flattenInner_cons_dict (k : Key) {m : List (Key × NV)}
    (rest : List (Key × NV)) (parent : List Key)
    (items : List (List Key × NV)) (hm : m ≠ []) :
    flattenInner ((k, NV.dict m) :: rest) parent items =
      flattenInner rest parent
        (aupdate items (flattenInner m (parent ++ [k]) [])) := by
  cases m with
  | nil => exact absurd rfl hm
  | cons e m' => rw [flattenInner]

/-- `flatten`'s accumulation over a well-formed dict appends the flat path
list, with every path prefixed by `parent`. -/
theorem flattenInner_eq (d : List (Key × NV)) (hwf : dictWF d) :
    ∀ (parent : List Key) (items : List (List Key × NV)),
    (∀ q ∈ flatList d, (parent ++ q.1) ∉ items.map Prod.fst) →
    flattenInner d parent items =
      items ++ (flatList d).map (fun p => (parent ++ p.1, p.2)) := by
  induction d using dictList_induct with
  | hnil =>
    intro parent items _
    rw [flattenInner_nil, flatList_nil]
    simp
  | hcons k v rest ihv ihrest =>
    intro parent items hdisj
    obtain ⟨hknotin, hvwf, hrestwf⟩ := dictWF_cons hwf
    -- the new key `parent ++ [k]` never clashes with a path from `rest`
    have hne_rest : ∀ q ∈ flatList rest, parent ++ q.1 ≠ parent ++ [k] := by
      intro q hq hc
      obtain ⟨k', t, hk', hqt⟩ := flatList_head rest q hq
      rw [hqt] at hc
      have := List.append_cancel_left hc
      injection this with h1 _
      exact hknotin (h1 ▸ hk')
    -- shared argument for the three leaf-shaped cases
    have leafStep :
        flatList ((k, v) :: rest) = ([k], v) :: flatList rest →
        flattenInner rest parent (aset items (parent ++ [k]) v) =
          items ++ (flatList ((k, v) :: rest)).map
            (fun p => (parent ++ p.1, p.2)) := by
      intro hfl
      have hknew : (parent ++ [k]) ∉ items.map Prod.fst :=
        hdisj ([k], v) (by rw [hfl]; exact List.mem_cons_self _ _)
      rw [aset_of_not_mem _ (by exact hknew)]
      rw [ihrest hrestwf parent (items ++ [(parent ++ [k], v)]) ?hd]
      · rw [hfl, List.map_cons, List.append_assoc]
        rfl
      case hd =>
        intro q hq
        rw [List.map_append, List.mem_append]
        push_neg
        constructor
        · exact hdisj q (by rw [hfl]; exact List.mem_cons_of_mem _ hq)
        · simp only [List.map_cons, List.map_nil, List.mem_singleton]
          exact hne_rest q hq
    cases v with
    | atom n =>
      rw [flattenInner_cons_atom]
      exact leafStep (flatList_cons_atom k n rest)
    | lst l =>
      rw [flattenInner_cons_lst]
      exact leafStep (flatList_cons_lst k l rest)
    | dict m =>
      rcases eq_or_ne m [] with hm | hm
      · subst hm
        rw [flattenInner_cons_dict_nil]
        exact leafStep (flatList_cons_dict_nil k rest)
      · rw [flattenInner_cons_dict k rest parent items hm]
        have hmwf : dictWF m := hvwf
        -- the recursive flatten of `m`
        have hXeq : flattenInner m (parent ++ [k]) [] =
            (flatList m).map (fun p => (parent ++ k :: p.1, p.2)) := by
          rw [ihv m rfl hmwf (parent ++ [k]) [] (by intro q _; simp)]
          rw [List.nil_append]
          apply List.map_congr_left
          intro p _
          simp
        rw [hXeq]
        -- the update appends, because all the new paths are fresh
        have hupd : aupdate items
            ((flatList m).map (fun p => (parent ++ k :: p.1, p.2))) =
            items ++ (flatList m).map (fun p => (parent ++ k :: p.1, p.2)) := by
          apply aupdate_eq_append
          · intro x hx
            rw [show keysOf ((flatList m).map
                (fun p => (parent ++ k :: p.1, p.2))) =
              (flatList m).map (fun p => parent ++ k :: p.1) from by
              simp [keysOf]] at hx
            obtain ⟨q, hq, hqx⟩ := List.mem_map.mp hx
            have hmem : (k :: q.1, q.2) ∈ flatList ((k, NV.dict m) :: rest) := by
              rw [flatList_cons_dict _ _ _ hm, List.mem_append]
              exact Or.inl (List.mem_map.mpr ⟨q, hq, rfl⟩)
            have := hdisj (k :: q.1, q.2) hmem
            rw [← hqx]
            exact this
          · rw [show keysOf ((flatList m).map
                (fun p => (parent ++ k :: p.1, p.2))) =
              ((flatList m).map Prod.fst).map
                (fun t => parent ++ k :: t) from by simp [keysOf]]
            refine List.Nodup.map ?_ (flatList_nodup m hmwf)
            intro a b hab
            have := List.append_cancel_left hab
            injection this
        rw [hupd]
        rw [ihrest hrestwf parent _ ?hd2]
        · rw [flatList_cons_dict _ _ _ hm, List.map_append, List.map_map,
            List.append_assoc]
          simp [Function.comp]
        case hd2 =>
          intro q hq
          rw [List.map_append, List.mem_append]
          push_neg
          constructor
          · exact hdisj q
              (by rw [flatList_cons_dict _ _ _ hm, List.mem_append]
                  exact Or.inr hq)
          · rw [List.map_map]
            intro hc
            obtain ⟨p, _, hpq⟩ := List.mem_map.mp hc
            obtain ⟨k', t, hk', hqt⟩ := flatList_head rest q hq
            have : parent ++ k :: p.1 = parent ++ q.1 := hpq
            rw [hqt] at this
            have h2 := List.append_cancel_left this
            injection h2 with h3 _
            exact hknotin (h3 ▸ hk')

/-- `flatten(d, sep=None)` on a well-formed dict is exactly the flat path
list. -/
theorem flattenNone_eq (d : List (Key × NV)) (hwf : dictWF d) :
    flattenNone d = flatList d := by
  rw [flattenNone, flattenInner_eq d hwf [] [] (by intro q h; simp)]
  rw [List.nil_append]
  have : (flatList d).map (fun p => (([] : List Key) ++ p.1, p.2)) =
      (flatList d).map id := by
    apply List.map_congr_left
    intro p _
    rw [List.nil_append, id]
  rw [this, List.map_id]

/-! ### `deflatten` rebuilds the tree -/

theorem insertPath_nil (ret : List (Key × NV)) (v : NV) :
    insertPath ret [] v = .error .indexError := rfl

theorem insertPath_one_none {ret : List (Key × NV)} {k : Key} (v : NV)
    (h : alookup ret k = none) :
    insertPath ret [k] v = .ok (aset ret k v) := by
  rw [insertPath, h]

theorem insertPath_one_some {ret : List (Key × NV)} {k : Key} {w : NV}
    (v : NV) (h : alookup ret k = some w) :
    insertPath ret [k] v = .error .conflict := by
  rw [insertPath, h]

theorem insertPath_cons_none {ret : List (Key × NV)} {k : Key}
    (k2 : Key) (rest : List Key) (v : NV) (h : alookup ret k = none) :
    insertPath ret (k :: k2 :: rest) v =
      match insertPath [] (k2 :: rest) v with
      | .ok sub => .ok (aset ret k (NV.dict sub))
      | .error e => .error e := by
  rw [insertPath, h]

theorem insertPath_cons_dict {ret : List (Key × NV)} {k : Key}
    {sub : List (Key × NV)} (k2 : Key) (rest : List Key) (v : NV)
    (h : alookup ret k = some (NV.dict sub)) :
    insertPath ret (k :: k2 :: rest) v =
      match insertPath sub (k2 :: rest) v with
      | .ok sub2 => .ok (aset ret k (NV.dict sub2))
      | .error e => .error e := by
  rw [insertPath, h]

theorem insertPath_cons_atom {ret : List (Key × NV)} {k : Key} {n : Nat}
    (k2 : Key) (rest : List Key) (v : NV)
    (h : alookup ret k = some (NV.atom n)) :
    insertPath ret (k :: k2 :: rest) v = .error .conflict := by
  rw [insertPath, h]

theorem insertPath_cons_lst {ret : List (Key × NV)} {k : Key} {l : List NV}
    (k2 : Key) (rest : List Key) (v : NV)
    (h : alookup ret k = some (NV.lst l)) :
    insertPath ret (k :: k2 :: rest) v = .error .conflict := by
  rw [insertPath, h]

theorem insertAll_nil (ret : List (Key × NV)) : insertAll ret [] = .ok ret :=
  rfl

theorem insertAll_cons (ret : List (Key × NV)) (p : List Key × NV)
    (rest : List (List Key × NV)) :
    insertAll ret (p :: rest) =
      match insertPath ret p.1 p.2 with
      | .ok ret2 => insertAll ret2 rest
      | .error e => .error e := by
  rw [insertAll]

theorem insertAll_append (ret : List (Key × NV))
    (a b : List (List Key × NV)) :
    insertAll ret (a ++ b) =
      match insertAll ret a with
      | .ok r => insertAll r b
      | .error e => .error e := by
  induction a generalizing ret with
  | nil => rw [List.nil_append, insertAll_nil]
  | cons p a' ih =>
    rw [List.cons_append, insertAll_cons, insertAll_cons]
    cases insertPath ret p.1 p.2 with
    | ok r2 => exact ih r2
    | error e => rfl

/-- `aset` at the key of a freshly appended last entry. -/
theorem aset_append_single {ret : List (Key × NV)} {k : Key}
    (x w : NV) (h : k ∉ keysOf ret) :
    aset (ret ++ [(k, x)]) k w = ret ++ [(k, w)] := by
  have h2 : alookup (ret ++ [(k, x)]) k = some x := by
    rw [alookup_append_right _ h, alookup_cons, if_pos rfl]
  rw [aset, if_pos (by rw [h2]; rfl), List.map_append]
  congr 1
  · have hid : ret.map (fun p => if p.1 = k then (k, w) else p) =
        ret.map id := by
      apply List.map_congr_left
      intro p hp
      rw [if_neg, id]
      intro hc
      exact h (hc ▸ List.mem_map_of_mem Prod.fst hp)
    rw [hid, List.map_id]
  · simp

/-- `insertAll` on entries whose keys are `(ks, v)` pairs, stated with the
pair split. -/
theorem insertAll_cons2 (ret : List (Key × NV)) (ks : List Key) (v : NV)
    (rest : List (List Key × NV)) :
    insertAll ret ((ks, v) :: rest) =
      match insertPath ret ks v with
      | .ok r => insertAll r rest
      | .error e => .error e := by
  rw [insertAll]

/-- Inserting a batch of paths that all start with key `k`, when `ret[k]`
is already a dict, inserts the path tails into that sub-dict. -/
theorem insertAll_mapcons (flat : List (List Key × NV))
    (hne : ∀ p ∈ flat, p.1 ≠ []) :
    ∀ (ret sub : List (Key × NV)) (k : Key), (keysOf ret).Nodup →
    alookup ret k = some (NV.dict sub) →
    insertAll ret (flat.map (fun p => (k :: p.1, p.2))) =
      match insertAll sub flat with
      | .ok sub2 => .ok (aset ret k (NV.dict sub2))
      | .error e => .error e := by
  induction flat with
  | nil =>
    intro ret sub k hnd hk
    rw [List.map_nil, insertAll_nil, insertAll_nil]
    show Except.ok ret = Except.ok (aset ret k (NV.dict sub))
    rw [aset_eq_self hnd hk]
  | cons p flat' ih =>
    intro ret sub k hnd hk
    obtain ⟨p1, pv⟩ := p
    obtain ⟨q, qs, rfl⟩ : ∃ q qs, p1 = q :: qs := by
      cases hp1 : p1 with
      | nil => exact absurd hp1 (hne (p1, pv) (List.mem_cons_self _ _))
      | cons q qs => exact ⟨q, qs, rfl⟩
    rw [List.map_cons]
    rw [show ((k :: ((q :: qs, pv) : List Key × NV).1,
      ((q :: qs, pv) : List Key × NV).2) : List Key × NV) =
      (k :: q :: qs, pv) from rfl]
    rw [insertAll_cons2 ret (k :: q :: qs) pv,
      insertAll_cons2 sub (q :: qs) pv]
    rw [insertPath_cons_dict q qs pv hk]
    cases hins : insertPath sub (q :: qs) pv with
    | error e => rfl
    | ok sub2 =>
      show insertAll (aset ret k (NV.dict sub2))
          (flat'.map (fun p => (k :: p.1, p.2))) =
        match insertAll sub2 flat' with
        | .ok sub3 => .ok (aset ret k (NV.dict sub3))
        | .error e => .error e
      have hkmem : k ∈ keysOf ret :=
        alookup_isSome.mp (by rw [hk]; rfl)
      have hnd2 : (keysOf (aset ret k (NV.dict sub2))).Nodup := by
        rw [keysOf_aset_mem _ hkmem]
        exact hnd
      have hk2 : alookup (aset ret k (NV.dict sub2)) k =
          some (NV.dict sub2) := alookup_aset_self _ _ _
      rw [ih (fun r hr => hne r (List.mem_cons_of_mem _ hr)) _ sub2 k hnd2 hk2]
      cases insertAll sub2 flat' with
      | error e => rfl
      | ok s3 =>
        show Except.ok (aset (aset ret k (NV.dict sub2)) k (NV.dict s3)) =
          Except.ok (aset ret k (NV.dict s3))
        rw [aset_aset]

/-- Inserting a batch of paths that all start with a fresh key `k`
creates the sub-dict from scratch. -/
theorem insertAll_mapcons_fresh (flat : List (List Key × NV))
    (hne : ∀ p ∈ flat, p.1 ≠ []) (hflat : flat ≠ []) :
    ∀ (ret : List (Key × NV)) (k : Key), (keysOf ret).Nodup →
    k ∉ keysOf ret →
    insertAll ret (flat.map (fun p => (k :: p.1, p.2))) =
      match insertAll [] flat with
      | .ok sub2 => .ok (ret ++ [(k, NV.dict sub2)])
      | .error e => .error e := by
  cases flat with
  | nil => exact absurd rfl hflat
  | cons p flat' =>
    intro ret k hnd hk
    obtain ⟨p1, pv⟩ := p
    obtain ⟨q, qs, rfl⟩ : ∃ q qs, p1 = q :: qs := by
      cases hp1 : p1 with
      | nil => exact absurd hp1 (hne (p1, pv) (List.mem_cons_self _ _))
      | cons q qs => exact ⟨q, qs, rfl⟩
    rw [List.map_cons]
    rw [show ((k :: ((q :: qs, pv) : List Key × NV).1,
      ((q :: qs, pv) : List Key × NV).2) : List Key × NV) =
      (k :: q :: qs, pv) from rfl]
    rw [insertAll_cons2 ret (k :: q :: qs) pv,
      insertAll_cons2 [] (q :: qs) pv]
    rw [insertPath_cons_none q qs pv (alookup_eq_none.mpr hk)]
    cases hins : insertPath [] (q :: qs) pv with
    | error e => rfl
    | ok sub1 =>
      show insertAll (aset ret k (NV.dict sub1))
          (flat'.map (fun p => (k :: p.1, p.2))) =
        match insertAll sub1 flat' with
        | .ok sub3 => .ok (ret ++ [(k, NV.dict sub3)])
        | .error e => .error e
      rw [aset_of_not_mem _ hk]
      have hnd2 : (keysOf (ret ++ [(k, NV.dict sub1)])).Nodup := by
        rw [keysOf_append, List.nodup_append]
        refine ⟨hnd, by simp [keysOf], ?_⟩
        intro a ha hb
        rw [show keysOf [(k, NV.dict sub1)] = [k] from rfl] at hb
        rw [List.mem_singleton] at hb
        exact hk (hb ▸ ha)
      have hk2 : alookup (ret ++ [(k, NV.dict sub1)]) k =
          some (NV.dict sub1) := by
        rw [alookup_append_right _ hk, alookup_cons, if_pos rfl]
      rw [insertAll_mapcons flat'
        (fun r hr => hne r (List.mem_cons_of_mem _ hr)) _ sub1 k hnd2 hk2]
      cases insertAll sub1 flat' with
      | error e => rfl
      | ok s3 =>
        show Except.ok (aset (ret ++ [(k, NV.dict sub1)]) k (NV.dict s3)) =
          Except.ok (ret ++ [(k, NV.dict s3)])
        rw [aset_append_single _ _ hk]

/-- Inserting the flat path list of a well-formed dict `d` after `ret`
(whose keys avoid `d`'s) rebuilds `d` behind `ret` and never fails:
the success half of the `flatten`/`deflatten` round trip. -/
theorem insertAll_flatList (d : List (Key × NV)) (hwf : dictWF d) :
    ∀ ret, (keysOf ret).Nodup → (∀ k ∈ keysOf d, k ∉ keysOf ret) →
    insertAll ret (flatList d) = .ok (ret ++ d) := by
  induction d using dictList_induct with
  | hnil =>
    intro ret _ _
    rw [flatList_nil, insertAll_nil, List.append_nil]
  | hcons k v rest ihv ihrest =>
    intro ret hnd hdisj
    obtain ⟨hknotin, hvwf, hrestwf⟩ := dictWF_cons hwf
    have hkret : k ∉ keysOf ret :=
      hdisj k (by rw [keysOf_cons]; exact List.mem_cons_self _ _)
    have hnd2 : ∀ w : NV, (keysOf (ret ++ [(k, w)])).Nodup := by
      intro w
      rw [keysOf_append, List.nodup_append]
      refine ⟨hnd, by simp [keysOf], ?_⟩
      intro a ha hb
      rw [show keysOf [(k, w)] = [k] from rfl] at hb
      rw [List.mem_singleton] at hb
      exact hkret (hb ▸ ha)
    have hdisj2 : ∀ w : NV, ∀ k' ∈ keysOf rest,
        k' ∉ keysOf (ret ++ [(k, w)]) := by
      intro w k' hk'
      rw [keysOf_append, List.mem_append]
      push_neg
      refine ⟨hdisj k' (by rw [keysOf_cons]; exact List.mem_cons_of_mem _ hk'),
        ?_⟩
      rw [show keysOf [(k, w)] = [k] from rfl, List.mem_singleton]
      intro hc
      exact hknotin (hc ▸ hk')
    have leafCase :
        flatList ((k, v) :: rest) = ([k], v) :: flatList rest →
        insertAll ret (flatList ((k, v) :: rest)) =
          .ok (ret ++ (k, v) :: rest) := by
      intro hfl
      rw [hfl, insertAll_cons2 ret [k] v,
        insertPath_one_none v (alookup_eq_none.mpr hkret)]
      show insertAll (aset ret k v) (flatList rest) = _
      rw [aset_of_not_mem _ hkret,
        ihrest hrestwf (ret ++ [(k, v)]) (hnd2 v) (hdisj2 v),
        List.append_assoc]
      rfl
    cases v with
    | atom n => exact leafCase (flatList_cons_atom k n rest)
    | lst l => exact leafCase (flatList_cons_lst k l rest)
    | dict m =>
      rcases eq_or_ne m [] with hm | hm
      · subst hm
        exact leafCase (flatList_cons_dict_nil k rest)
      · rw [flatList_cons_dict _ _ _ hm, insertAll_append]
        have hpaths : ∀ p ∈ flatList m, p.1 ≠ [] := by
          intro p hp
          obtain ⟨k', t, _, hpt⟩ := flatList_head m p hp
          rw [hpt]
          simp
        rw [insertAll_mapcons_fresh (flatList m) hpaths
          (flatList_nonempty m hm) ret k hnd hkret]
        rw [ihv m rfl hvwf [] (by rw [keysOf_nil]; exact List.nodup_nil) (by intro k2 _ hc; rw [keysOf_nil] at hc; exact (List.not_mem_nil k2) hc)]
        show insertAll (ret ++ [(k, NV.dict ([] ++ m))]) (flatList rest) = _
        rw [List.nil_append]
        rw [ihrest hrestwf (ret ++ [(k, NV.dict m)]) (hnd2 _) (hdisj2 _),
          List.append_assoc]
        rfl

/-- The tuple-key round trip:
`deflatten(flatten(d, sep=None), sep=None) == d` for well-formed `d`. -/
theorem deflattenNone_flattenNone (d : List (Key × NV)) (hwf : dictWF d) :
    deflattenNone (flattenNone d) = .ok d := by
  rw [flattenNone_eq d hwf, deflattenNone]
  have h := insertAll_flatList d hwf [] (by rw [keysOf_nil]; exact List.nodup_nil) (by intro k2 _ hc; rw [keysOf_nil] at hc; exact (List.not_mem_nil k2) hc)
  rw [h, List.nil_append]

/-- All path components produced by `flatList` are keys of the tree, so a
character free of the tree's keys is free of every component. -/
theorem flatList_cFree (c : Char) (d : List (Key × NV))
    (hfree : cFree c (NV.dict d)) :
    ∀ p ∈ flatList d, ∀ comp ∈ p.1, c ∉ comp := by
  induction d using dictList_induct with
  | hnil => intro p hp; rw [flatList_nil] at hp; cases hp
  | hcons k v rest ihv ihrest =>
    rw [cFree_dict] at hfree
    have hk : c ∉ k := (hfree (k, v) (List.mem_cons_self _ _)).1
    have hv : cFree c v := (hfree (k, v) (List.mem_cons_self _ _)).2
    have hrest : ∀ p ∈ flatList rest, ∀ comp ∈ p.1, c ∉ comp := by
      refine ihrest ?_
      rw [cFree_dict]
      exact fun kv hkv => hfree kv (List.mem_cons_of_mem _ hkv)
    have hsingle : ∀ (w : NV) (p : List Key × NV), p = ([k], w) →
        ∀ comp ∈ p.1, c ∉ comp := by
      rintro w p rfl comp hcomp
      rw [List.mem_singleton] at hcomp
      exact hcomp ▸ hk
    intro p hp
    cases v with
    | atom n =>
      rw [flatList_cons_atom] at hp
      rcases List.mem_cons.mp hp with h | h
      · exact hsingle _ p h
      · exact hrest p h
    | lst l =>
      rw [flatList_cons_lst] at hp
      rcases List.mem_cons.mp hp with h | h
      · exact hsingle _ p h
      · exact hrest p h
    | dict m =>
      rcases eq_or_ne m [] with hm | hm
      · subst hm
        rw [flatList_cons_dict_nil] at hp
        rcases List.mem_cons.mp hp with h | h
        · exact hsingle _ p h
        · exact hrest p h
      · rw [flatList_cons_dict _ _ _ hm] at hp
        rcases List.mem_append.mp hp with h | h
        · obtain ⟨q, hq, hpq⟩ := List.mem_map.mp h
          intro comp hcomp
          rw [← hpq] at hcomp
          rcases List.mem_cons.mp hcomp with h2 | h2
          · exact h2 ▸ hk
          · exact ihv m rfl hv q hq comp h2
        · exact hrest p h

/-- The string-keyed round trip for a single-character separator `c` that
occurs in no key:
`deflatten(flatten(d, sep=c), sep=c) == d` for well-formed `d`. -/
theorem deflattenSep_flattenSep (c : Char) (d : List (Key × NV))
    (hwf : dictWF d) (hfree : cFree c (NV.dict d)) :
    deflattenSep [c] (-1) (flattenSep [c] d) = .ok d := by
  have hcomp := flatList_cFree c d hfree
  have hnodup := flatList_nodup d hwf
  have hpne : ∀ p ∈ flatList d, p.1 ≠ [] := by
    intro p hp
    obtain ⟨k', t, _, hpt⟩ := flatList_head d p hp
    rw [hpt]
    simp
  -- splitting the joined key of any flat path recovers the path
  have hsj : ∀ p ∈ flatList d, pySplit [c] (-1) (pyJoin [c] p.1) = p.1 := by
    intro p hp
    exact pySplit_pyJoin_singleton c p.1 (-1) (by omega) (hpne p hp)
      (hcomp p hp)
  -- the joined keys are pairwise distinct
  have hjnodup : (((flatList d).map Prod.fst).map (pyJoin [c])).Nodup := by
    refine List.Nodup.map_on ?_ hnodup
    intro x hx y hy hxy
    obtain ⟨p, hp, rfl⟩ := List.mem_map.mp hx
    obtain ⟨q, hq, rfl⟩ := List.mem_map.mp hy
    rw [← hsj p hp, ← hsj q hq, hxy]
  -- Step A: `flatten(d, sep=c)` is the flat list with joined keys
  have hA : flattenSep [c] d =
      (flatList d).map (fun p => (pyJoin [c] p.1, p.2)) := by
    rw [flattenSep, flattenNone_eq d hwf]
    rw [show ((flatList d).foldl
        (fun acc p => aset acc (pyJoin [c] p.1) p.2) []) =
      (((flatList d).map (fun p => (pyJoin [c] p.1, p.2))).foldl
        (fun acc p => aset acc p.1 p.2) []) from by
      rw [List.foldl_map]]
    rw [show (((flatList d).map (fun p => (pyJoin [c] p.1, p.2))).foldl
        (fun acc p => aset acc p.1 p.2) []) =
      aupdate [] ((flatList d).map (fun p => (pyJoin [c] p.1, p.2))) from rfl]
    rw [aupdate_eq_append _ _ ?hdisj ?hnd]
    · rw [List.nil_append]
    case hdisj =>
      intro k _ hc
      rw [keysOf_nil] at hc
      exact (List.not_mem_nil k) hc
    case hnd =>
      rw [show keysOf ((flatList d).map (fun p => (pyJoin [c] p.1, p.2))) =
        ((flatList d).map Prod.fst).map (pyJoin [c]) from by
        simp [keysOf]]
      exact hjnodup
  -- Step B: splitting the joined keys recovers the original flat list
  have hB : ((flatList d).map (fun p => (pyJoin [c] p.1, p.2))).foldl
      (fun acc p => aset acc (pySplit [c] (-1) p.1) p.2) [] = flatList d := by
    rw [List.foldl_map]
    rw [show (((flatList d)).foldl (fun acc p =>
        aset acc (pySplit [c] (-1) (pyJoin [c] p.1)) p.2) []) =
      (((flatList d).map (fun p =>
        (pySplit [c] (-1) (pyJoin [c] p.1), p.2))).foldl
        (fun acc p => aset acc p.1 p.2) []) from by
      rw [List.foldl_map]]
    have hmap : (flatList d).map
        (fun p => (pySplit [c] (-1) (pyJoin [c] p.1), p.2)) = flatList d := by
      have h1 : (flatList d).map
          (fun p => (pySplit [c] (-1) (pyJoin [c] p.1), p.2)) =
          (flatList d).map id := by
        apply List.map_congr_left
        intro p hp
        rw [hsj p hp, id]
      rw [h1, List.map_id]
    rw [hmap]
    rw [show ((flatList d).foldl (fun acc p => aset acc p.1 p.2) []) =
      aupdate [] (flatList d) from rfl]
    rw [aupdate_eq_append _ _ ?hdisj2 ?hnd2]
    · rw [List.nil_append]
    case hdisj2 =>
      intro k _ hc
      rw [keysOf_nil] at hc
      exact (List.not_mem_nil k) hc
    case hnd2 =>
      exact hnodup
  rw [hA, deflattenSep, hB, deflattenNone]
  have h := insertAll_flatList d hwf [] (by rw [keysOf_nil]; exact List.nodup_nil)
    (by intro k2 _ hc; rw [keysOf_nil] at hc; exact (List.not_mem_nil k2) hc)
  rw [h, List.nil_append]

/-! ### Claim C1 -/

/-- **C1 (amended)**: for every nested tree (dict) with unique keys, no
empty internal mapping nodes (and hence no mapping-valued leaves), the
round trip `deflatten(flatten(x, sep=s), sep=s) == x` holds when `s` is
`None` (tuple keys), and when `s` is a single-character separator that
occurs in no key.  (The original claim, quantified over arbitrary
separators occurring in no key, fails for multi-character separators; see
the counterexample.) -/
theorem claim_C1_roundtrip :
    (∀ d : List (Key × NV), dictWF d → (∀ kv ∈ d, noEmptyNode kv.2) →
      deflattenNone (flattenNone d) = .ok d) ∧
    (∀ (c : Char) (d : List (Key × NV)), dictWF d →
      (∀ kv ∈ d, noEmptyNode kv.2) → cFree c (NV.dict d) →
      deflattenSep [c] (-1) (flattenSep [c] d) = .ok d) :=
  ⟨fun d hwf _ => deflattenNone_flattenNone d hwf,
   fun c d hwf _ hfree => deflattenSep_flattenSep c d hwf hfree⟩

theorem claim_C1_roundtrip_witness :
    (dictWF [(['a'], NV.atom 1),
        (['c'], NV.dict [(['a'], NV.atom 2), (['b'], NV.atom 3)])] ∧
      deflattenNone (flattenNone [(['a'], NV.atom 1),
        (['c'], NV.dict [(['a'], NV.atom 2), (['b'], NV.atom 3)])]) =
        .ok [(['a'], NV.atom 1),
        (['c'], NV.dict [(['a'], NV.atom 2), (['b'], NV.atom 3)])]) ∧
    deflattenSep ['.'] (-1) (flattenSep ['.'] [(['a'], NV.atom 1),
        (['c'], NV.dict [(['a'], NV.atom 2), (['b'], NV.atom 3)])]) =
      .ok [(['a'], NV.atom 1),
        (['c'], NV.dict [(['a'], NV.atom 2), (['b'], NV.atom 3)])] := by
  have hwf : dictWF [(['a'], NV.atom 1),
      (['c'], NV.dict [(['a'], NV.atom 2), (['b'], NV.atom 3)])] := by
    simp [dictWF, nodeWF, keysOf]
  have hnoe : ∀ kv ∈ [((['a'] : Key), NV.atom 1),
      (['c'], NV.dict [(['a'], NV.atom 2), (['b'], NV.atom 3)])],
      noEmptyNode kv.2 := by
    simp [noEmptyNode]
  have hfree : cFree '.' (NV.dict [(['a'], NV.atom 1),
      (['c'], NV.dict [(['a'], NV.atom 2), (['b'], NV.atom 3)])]) := by
    simp [cFree]
  exact ⟨⟨hwf, claim_C1_roundtrip.1 _ hwf hnoe⟩,
    claim_C1_roundtrip.2 '.' _ hwf hnoe hfree⟩

/-- **C1 (counterexample)**: with the multi-character separator `"aa"`,
which occurs in no key of `{'ba': {'ab': 1}}`, the round trip fails:
`flatten` produces the single key `"baaaab"`, which `"baaaab".split("aa")`
cuts into `['b', '', 'b']`, so `deflatten` rebuilds a different tree. -/
theorem claim_C1_counterexample :
    dictWF [(['b','a'], NV.dict [(['a','b'], NV.atom 1)])] ∧
    (∀ kv ∈ [((['b','a'] : Key), NV.dict [(['a','b'], NV.atom 1)])],
      noEmptyNode kv.2) ∧
    ¬ (['a','a'] : Key) <:+: ['b','a'] ∧
    ¬ (['a','a'] : Key) <:+: ['a','b'] ∧
    deflattenSep ['a','a'] (-1)
        (flattenSep ['a','a'] [(['b','a'], NV.dict [(['a','b'], NV.atom 1)])]) =
      .ok [(['b'], NV.dict [([], NV.dict [(['b'], NV.atom 1)])])] ∧
    (NV.dict [(['b'], NV.dict [([], NV.dict [(['b'], NV.atom 1)])])] ≠
      NV.dict [(['b','a'], NV.dict [(['a','b'], NV.atom 1)])]) := by
  refine ⟨?_, ?_, ?_, ?_, ?_, ?_⟩
  · simp [dictWF, nodeWF, keysOf]
  · simp [noEmptyNode]
  · decide
  · decide
  · have h1 : flattenSep ['a','a']
        [(['b','a'], NV.dict [(['a','b'], NV.atom 1)])] =
        [(['b','a','a','a','a','b'], NV.atom 1)] := by
      simp [flattenSep, flattenNone, flattenInner, aupdate, aset, alookup,
        pyJoin, keysOf]
    have h2 : pySplit ['a','a'] (-1) ['b','a','a','a','a','b'] =
        [['b'], [], ['b']] := by
      simp [pySplit, findSub, List.isPrefixOf]
    rw [h1, deflattenSep]
    show deflattenNone
        (aset [] (pySplit ['a','a'] (-1) ['b','a','a','a','a','b'])
          (NV.atom 1)) = _
    rw [h2]
    rfl
  · simp

/-! ### Claim C3: when `deflatten` raises the conflicting-keys error

`insOk ret p` says that inserting a value at path `p` into the partial
result `ret` passes all of `deflatten`'s asserts; `lookupPath` walks a
chain of keys through nested dicts. -/

/-- The walk `deflatten` performs: would inserting at this path succeed? -/
def insOk (ret : List (Key × NV)) : List Key → Prop
  | [] => False
  | [k] => alookup ret k = none
  | k :: k2 :: rest =>
      match alookup ret k with
      | none => True
      | some (NV.dict sub) => insOk sub (k2 :: rest)
      | some _ => False

/-- Walking a nonempty chain of keys through nested dicts. -/
def lookupPath (ret : List (Key × NV)) : List Key → Option NV
  | [] => some (NV.dict ret)
  | [k] => alookup ret k
  | k :: k2 :: rest =>
      match alookup ret k with
      | some (NV.dict sub) => lookupPath sub (k2 :: rest)
      | _ => none

/-- Two paths are unrelated when neither is a prefix of the other. -/
def pathUnrel (p q : List Key) : Prop := ¬ p <+: q ∧ ¬ q <+: p

theorem insOk_nil (ret : List (Key × NV)) : ¬ insOk ret [] := by
  rw [insOk]
  exact id

theorem insOk_one {ret : List (Key × NV)} {k : Key} :
    insOk ret [k] ↔ alookup ret k = none := by
  rw [insOk]

theorem insOk_cons {ret : List (Key × NV)} {k k2 : Key} {rest : List Key} :
    insOk ret (k :: k2 :: rest) ↔
      match alookup ret k with
      | none => True
      | some (NV.dict sub) => insOk sub (k2 :: rest)
      | some _ => False := by
  rw [insOk]

theorem lookupPath_one {ret : List (Key × NV)} {k : Key} :
    lookupPath ret [k] = alookup ret k := by
  rw [lookupPath]

theorem lookupPath_cons {ret : List (Key × NV)} {k k2 : Key}
    {rest : List Key} :
    lookupPath ret (k :: k2 :: rest) =
      match alookup ret k with
      | some (NV.dict sub) => lookupPath sub (k2 :: rest)
      | _ => none := by
  rw [lookupPath]

/-- A nonempty path never triggers the `IndexError` branch. -/
theorem insertPath_no_indexError (p : List Key) (hp : p ≠ []) :
    ∀ (ret : List (Key × NV)) (v : NV),
    insertPath ret p v ≠ .error .indexError := by
  induction p with
  | nil => exact absurd rfl hp
  | cons k rest ih =>
    intro ret v
    cases rest with
    | nil =>
      rcases hk : alookup ret k with _ | w
      · rw [insertPath_one_none v hk]
        exact fun h => Except.noConfusion h
      · rw [insertPath_one_some v hk]
        intro h
        injection h with h
        cases h
    | cons k2 rest2 =>
      rcases hk : alookup ret k with _ | w
      · rw [insertPath_cons_none k2 rest2 v hk]
        cases hrec : insertPath [] (k2 :: rest2) v with
        | ok sub => exact fun h => Except.noConfusion h
        | error e =>
          have := ih (by simp) [] v
          rw [hrec] at this
          intro h
          injection h with h
          cases h
          exact this rfl
      · cases w with
        | dict sub =>
          rw [insertPath_cons_dict k2 rest2 v hk]
          cases hrec : insertPath sub (k2 :: rest2) v with
          | ok sub2 => exact fun h => Except.noConfusion h
          | error e =>
            have := ih (by simp) sub v
            rw [hrec] at this
            intro h
            injection h with h
            cases h
            exact this rfl
        | atom n =>
          rw [insertPath_cons_atom k2 rest2 v hk]
          intro h
          injection h with h
          cases h
        | lst l =>
          rw [insertPath_cons_lst k2 rest2 v hk]
          intro h
          injection h with h
          cases h

/-- `insertPath` succeeds exactly when `insOk` holds. -/
theorem insertPath_ok_iff (p : List Key) (hp : p ≠ []) :
    ∀ (ret : List (Key × NV)) (v : NV),
    (∃ r, insertPath ret p v = .ok r) ↔ insOk ret p := by
  induction p with
  | nil => exact absurd rfl hp
  | cons k rest ih =>
    intro ret v
    cases rest with
    | nil =>
      rw [insOk_one]
      rcases hk : alookup ret k with _ | w
      · rw [insertPath_one_none v hk]
        exact ⟨fun _ => rfl, fun _ => ⟨_, rfl⟩⟩
      · rw [insertPath_one_some v hk]
        constructor
        · rintro ⟨r, hr⟩
          cases hr
        · intro h
          exact Option.noConfusion h
    | cons k2 rest2 =>
      rw [insOk_cons]
      rcases hk : alookup ret k with _ | w
      · rw [insertPath_cons_none k2 rest2 v hk]
        constructor
        · intro _
          trivial
        · intro _
          have h2 := (ih (by simp) [] v).mpr ?ok
          case ok =>
            cases rest2 with
            | nil =>
              rw [insOk_one, alookup_nil]
            | cons k3 r3 =>
              rw [insOk_cons, alookup_nil]
              trivial
          obtain ⟨r, hr⟩ := h2
          rw [hr]
          exact ⟨_, rfl⟩
      · cases w with
        | dict sub =>
          rw [insertPath_cons_dict k2 rest2 v hk]
          constructor
          · rintro ⟨r, hr⟩
            cases hrec : insertPath sub (k2 :: rest2) v with
            | error e =>
              rw [hrec] at hr
              cases hr
            | ok sub2 =>
              exact (ih (by simp) sub v).mp ⟨sub2, hrec⟩
          · intro h
            obtain ⟨sub2, hs⟩ := (ih (by simp) sub v).mpr h
            rw [hs]
            exact ⟨_, rfl⟩
        | atom n =>
          rw [insertPath_cons_atom k2 rest2 v hk]
          constructor
          · rintro ⟨r, hr⟩
            cases hr
          · intro h
            cases h
        | lst l =>
          rw [insertPath_cons_lst k2 rest2 v hk]
          constructor
          · rintro ⟨r, hr⟩
            cases hr
          · intro h
            cases h

theorem pathUnrel_cons {k : Key} {p q : List Key} :
    pathUnrel (k :: p) (k :: q) ↔ pathUnrel p q := by
  rw [pathUnrel, pathUnrel, List.cons_prefix_cons, List.cons_prefix_cons]
  constructor
  · rintro ⟨h1, h2⟩
    exact ⟨fun hc => h1 ⟨rfl, hc⟩, fun hc => h2 ⟨rfl, hc⟩⟩
  · rintro ⟨h1, h2⟩
    exact ⟨fun hc => h1 hc.2, fun hc => h2 hc.2⟩

/-- Inserting a path into the empty dict builds a fresh chain; any
unrelated path can still be inserted afterwards. -/
theorem insOk_fresh (q : List Key) (hq : q ≠ []) :
    ∀ (p : List Key), p ≠ [] → pathUnrel p q →
    ∀ (v : NV) (r : List (Key × NV)), insertPath [] q v = .ok r →
    insOk r p := by
  induction q with
  | nil => exact absurd rfl hq
  | cons kq qtail ih =>
    intro p hp hunrel v r hins
    obtain ⟨p1, ptail, rfl⟩ : ∃ p1 ptail, p = p1 :: ptail := by
      cases p with
      | nil => exact absurd rfl hp
      | cons p1 ptail => exact ⟨p1, ptail, rfl⟩
    have hself : ∀ (w : NV), r = [(kq, w)] → p1 ≠ kq → insOk r (p1 :: ptail) := by
      rintro w rfl hne
      have hlk : alookup [(kq, w)] p1 = none := by
        rw [alookup_cons, if_neg (fun hc => hne hc.symm), alookup_nil]
      cases ptail with
      | nil => rw [insOk_one]; exact hlk
      | cons p2 pt2 =>
        rw [insOk_cons, hlk]
        trivial
    cases qtail with
    | nil =>
      rw [insertPath_one_none v (alookup_nil kq)] at hins
      injection hins with hins
      have hr : r = [(kq, v)] := by
        rw [← hins, aset_of_not_mem _ (by rw [keysOf_nil]; exact List.not_mem_nil _),
          List.nil_append]
      by_cases hne : p1 = kq
      · subst hne
        exfalso
        cases ptail with
        | nil => exact hunrel.1 (List.prefix_refl _)
        | cons p2 pt2 => exact hunrel.2 ⟨p2 :: pt2, rfl⟩
      · exact hself v hr hne
    | cons kq2 qt2 =>
      rw [insertPath_cons_none kq2 qt2 v (alookup_nil kq)] at hins
      cases hrec : insertPath [] (kq2 :: qt2) v with
      | error e => rw [hrec] at hins; cases hins
      | ok sub =>
        rw [hrec] at hins
        injection hins with hins
        have hr : r = [(kq, NV.dict sub)] := by
          rw [← hins, aset_of_not_mem _ (by rw [keysOf_nil]; exact List.not_mem_nil _),
            List.nil_append]
        by_cases hne : p1 = kq
        · subst hne
          cases ptail with
          | nil =>
            exfalso
            exact hunrel.1 ⟨kq2 :: qt2, rfl⟩
          | cons p2 pt2 =>
            subst hr
            rw [insOk_cons, alookup_cons, if_pos rfl]
            exact ih (by simp) (p2 :: pt2) (by simp)
              (pathUnrel_cons.mp hunrel) v sub hrec
        · exact hself _ hr hne

/-- A successful insertion at `q` does not disturb insertability at any
unrelated path `p`. -/
theorem insOk_preserved (q : List Key) (hq : q ≠ []) :
    ∀ (p : List Key), p ≠ [] → pathUnrel p q →
    ∀ (ret ret' : List (Key × NV)) (v : NV),
    insertPath ret q v = .ok ret' → insOk ret p → insOk ret' p := by
  induction q with
  | nil => exact absurd rfl hq
  | cons kq qtail ih =>
    intro p hp hunrel ret ret' v hins hok
    obtain ⟨p1, ptail, rfl⟩ : ∃ p1 ptail, p = p1 :: ptail := by
      cases p with
      | nil => exact absurd rfl hp
      | cons p1 ptail => exact ⟨p1, ptail, rfl⟩
    -- `insOk` only looks at the value stored at `p1` and deeper
    have hother : ∀ (X : NV), p1 ≠ kq → ret' = aset ret kq X →
        insOk ret' (p1 :: ptail) := by
      rintro X hne rfl
      have hsame : alookup (aset ret kq X) p1 = alookup ret p1 :=
        alookup_aset_ne ret X (fun hc => hne hc.symm)
      cases ptail with
      | nil =>
        rw [insOk_one] at hok ⊢
        rw [hsame]
        exact hok
      | cons p2 pt2 =>
        rw [insOk_cons] at hok ⊢
        rw [hsame]
        exact hok
    cases qtail with
    | nil =>
      rcases hk : alookup ret kq with _ | w
      · rw [insertPath_one_none v hk] at hins
        injection hins with hins
        by_cases hne : p1 = kq
        · subst hne
          exfalso
          cases ptail with
          | nil => exact hunrel.1 (List.prefix_refl _)
          | cons p2 pt2 => exact hunrel.2 ⟨p2 :: pt2, rfl⟩
        · exact hother v hne hins.symm
      · rw [insertPath_one_some v hk] at hins
        cases hins
    | cons kq2 qt2 =>
      rcases hk : alookup ret kq with _ | w
      · rw [insertPath_cons_none kq2 qt2 v hk] at hins
        cases hrec : insertPath [] (kq2 :: qt2) v with
        | error e => rw [hrec] at hins; cases hins
        | ok sub =>
          rw [hrec] at hins
          injection hins with hins
          by_cases hne : p1 = kq
          · subst hne
            cases ptail with
            | nil =>
              exfalso
              exact hunrel.1 ⟨kq2 :: qt2, rfl⟩
            | cons p2 pt2 =>
              rw [← hins, insOk_cons, alookup_aset_self]
              exact insOk_fresh (kq2 :: qt2) (by simp) (p2 :: pt2) (by simp)
                (pathUnrel_cons.mp hunrel) v sub hrec
          · exact hother _ hne hins.symm
      · cases w with
        | dict sub =>
          rw [insertPath_cons_dict kq2 qt2 v hk] at hins
          cases hrec : insertPath sub (kq2 :: qt2) v with
          | error e => rw [hrec] at hins; cases hins
          | ok sub2 =>
            rw [hrec] at hins
            injection hins with hins
            by_cases hne : p1 = kq
            · subst hne
              cases ptail with
              | nil =>
                exfalso
                exact hunrel.1 ⟨kq2 :: qt2, rfl⟩
              | cons p2 pt2 =>
                rw [← hins, insOk_cons, alookup_aset_self]
                rw [insOk_cons, hk] at hok
                exact ih (by simp) (p2 :: pt2) (by simp)
                  (pathUnrel_cons.mp hunrel) sub sub2 v hrec hok
            · exact hother _ hne hins.symm
        | atom n =>
          rw [insertPath_cons_atom kq2 qt2 v hk] at hins
          cases hins
        | lst l =>
          rw [insertPath_cons_lst kq2 qt2 v hk] at hins
          cases hins

/-- A successful insertion at `q` preserves the value visible at any
unrelated path `p`. -/
theorem lookupPath_preserved (q : List Key) (hq : q ≠ []) :
    ∀ (p : List Key), p ≠ [] → pathUnrel p q →
    ∀ (ret ret' : List (Key × NV)) (v w : NV),
    insertPath ret q v = .ok ret' → lookupPath ret p = some w →
    lookupPath ret' p = some w := by
  induction q with
  | nil => exact absurd rfl hq
  | cons kq qtail ih =>
    intro p hp hunrel ret ret' v w hins hlk
    obtain ⟨p1, ptail, rfl⟩ : ∃ p1 ptail, p = p1 :: ptail := by
      cases p with
      | nil => exact absurd rfl hp
      | cons p1 ptail => exact ⟨p1, ptail, rfl⟩
    have hother : ∀ (X : NV), p1 ≠ kq → ret' = aset ret kq X →
        lookupPath ret' (p1 :: ptail) = some w := by
      rintro X hne rfl
      have hsame : alookup (aset ret kq X) p1 = alookup ret p1 :=
        alookup_aset_ne ret X (fun hc => hne hc.symm)
      cases ptail with
      | nil =>
        rw [lookupPath_one] at hlk ⊢
        rw [hsame]
        exact hlk
      | cons p2 pt2 =>
        rw [lookupPath_cons] at hlk ⊢
        rw [hsame]
        exact hlk
    cases qtail with
    | nil =>
      rcases hk : alookup ret kq with _ | x
      · rw [insertPath_one_none v hk] at hins
        injection hins with hins
        by_cases hne : p1 = kq
        · subst hne
          exfalso
          cases ptail with
          | nil => exact hunrel.1 (List.prefix_refl _)
          | cons p2 pt2 => exact hunrel.2 ⟨p2 :: pt2, rfl⟩
        · exact hother v hne hins.symm
      · rw [insertPath_one_some v hk] at hins
        cases hins
    | cons kq2 qt2 =>
      rcases hk : alookup ret kq with _ | x
      · rw [insertPath_cons_none kq2 qt2 v hk] at hins
        cases hrec : insertPath [] (kq2 :: qt2) v with
        | error e => rw [hrec] at hins; cases hins
        | ok sub =>
          rw [hrec] at hins
          injection hins with hins
          by_cases hne : p1 = kq
          · subst hne
            -- `ret` has nothing at `kq`, so `p` could not be looked up
            exfalso
            cases ptail with
            | nil =>
              rw [lookupPath_one, hk] at hlk
              cases hlk
            | cons p2 pt2 =>
              rw [lookupPath_cons, hk] at hlk
              cases hlk
          · exact hother _ hne hins.symm
      · cases x with
        | dict sub =>
          rw [insertPath_cons_dict kq2 qt2 v hk] at hins
          cases hrec : insertPath sub (kq2 :: qt2) v with
          | error e => rw [hrec] at hins; cases hins
          | ok sub2 =>
            rw [hrec] at hins
            injection hins with hins
            by_cases hne : p1 = kq
            · subst hne
              cases ptail with
              | nil =>
                exfalso
                exact hunrel.1 ⟨kq2 :: qt2, rfl⟩
              | cons p2 pt2 =>
                rw [lookupPath_cons, hk] at hlk
                rw [← hins, lookupPath_cons, alookup_aset_self]
                exact ih (by simp) (p2 :: pt2) (by simp)
                  (pathUnrel_cons.mp hunrel) sub sub2 v w hrec hlk
            · exact hother _ hne hins.symm
        | atom n =>
          rw [insertPath_cons_atom kq2 qt2 v hk] at hins
          cases hins
        | lst l =>
          rw [insertPath_cons_lst kq2 qt2 v hk] at hins
          cases hins

/-- After a successful insertion, the inserted value is visible at its
path. -/
theorem insertPath_lookupPath (p : List Key) (hp : p ≠ []) :
    ∀ (ret ret' : List (Key × NV)) (v : NV),
    insertPath ret p v = .ok ret' → lookupPath ret' p = some v := by
  induction p with
  | nil => exact absurd rfl hp
  | cons k ptail ih =>
    intro ret ret' v hins
    cases ptail with
    | nil =>
      rcases hk : alookup ret k with _ | x
      · rw [insertPath_one_none v hk] at hins
        injection hins with hins
        rw [← hins, lookupPath_one, alookup_aset_self]
      · rw [insertPath_one_some v hk] at hins
        cases hins
    | cons p2 pt2 =>
      rcases hk : alookup ret k with _ | x
      · rw [insertPath_cons_none p2 pt2 v hk] at hins
        cases hrec : insertPath [] (p2 :: pt2) v with
        | error e => rw [hrec] at hins; cases hins
        | ok sub =>
          rw [hrec] at hins
          injection hins with hins
          rw [← hins, lookupPath_cons, alookup_aset_self]
          exact ih (by simp) [] sub v hrec
      · cases x with
        | dict sub =>
          rw [insertPath_cons_dict p2 pt2 v hk] at hins
          cases hrec : insertPath sub (p2 :: pt2) v with
          | error e => rw [hrec] at hins; cases hins
          | ok sub2 =>
            rw [hrec] at hins
            injection hins with hins
            rw [← hins, lookupPath_cons, alookup_aset_self]
            exact ih (by simp) sub sub2 v hrec
        | atom n =>
          rw [insertPath_cons_atom p2 pt2 v hk] at hins
          cases hins
        | lst l =>
          rw [insertPath_cons_lst p2 pt2 v hk] at hins
          cases hins

/-- A path that can already be looked up can no longer be inserted. -/
theorem lookupPath_some_not_insOk (p : List Key) (hp : p ≠ []) :
    ∀ (ret : List (Key × NV)) (w : NV),
    lookupPath ret p = some w → ¬ insOk ret p := by
  induction p with
  | nil => exact absurd rfl hp
  | cons k ptail ih =>
    intro ret w hlk hok
    cases ptail with
    | nil =>
      rw [lookupPath_one] at hlk
      rw [insOk_one, hlk] at hok
      cases hok
    | cons p2 pt2 =>
      rw [lookupPath_cons] at hlk
      rw [insOk_cons] at hok
      rcases hk : alookup ret k with _ | x
      · rw [hk] at hlk
        cases hlk
      · rw [hk] at hlk hok
        cases x with
        | dict sub => exact ih (by simp) sub w hlk hok
        | atom n => cases hlk
        | lst l => cases hlk

/-- If inserting at `p` would succeed while a proper nonempty prefix `q`
of `p` is already occupied, then the value at `q` must be a dict. -/
theorem insOk_prefix_dict (q : List Key) (hq : q ≠ []) :
    ∀ (p : List Key), q <+: p → q ≠ p →
    ∀ (ret : List (Key × NV)) (w : NV),
    insOk ret p → lookupPath ret q = some w → ∃ s, w = NV.dict s := by
  induction q with
  | nil => exact absurd rfl hq
  | cons k qtail ih =>
    intro p hpre hne ret w hok hlk
    obtain ⟨t, rfl⟩ := hpre
    cases qtail with
    | nil =>
      rw [lookupPath_one] at hlk
      obtain ⟨t1, t2, rfl⟩ : ∃ t1 t2, t = t1 :: t2 := by
        cases t with
        | nil => exact absurd (by simp) hne
        | cons t1 t2 => exact ⟨t1, t2, rfl⟩
      rw [show ([k] : List Key) ++ t1 :: t2 = k :: t1 :: t2 from rfl] at hok
      rw [insOk_cons, hlk] at hok
      cases hw : w with
      | dict s => exact ⟨s, rfl⟩
      | atom n => rw [hw] at hok; cases hok
      | lst l => rw [hw] at hok; cases hok
    | cons q2 qt2 =>
      rw [lookupPath_cons] at hlk
      rw [show (k :: q2 :: qt2) ++ t = k :: q2 :: (qt2 ++ t) from rfl,
        insOk_cons] at hok
      rcases hk : alookup ret k with _ | x
      · rw [hk] at hlk
        cases hlk
      · rw [hk] at hlk hok
        cases x with
        | dict sub =>
          have ht : (q2 :: qt2) ++ t = (q2 :: qt2) ++ t := rfl
          refine ih (by simp) ((q2 :: qt2) ++ t) ⟨t, rfl⟩ ?_ sub w hok hlk
          intro hc
          have hlen := congrArg List.length hc
          rw [List.length_append] at hlen
          have ht0 : t = [] := List.eq_nil_of_length_eq_zero (by omega)
          exact hne (by rw [ht0, List.append_nil])
        | atom n => cases hlk
        | lst l => cases hlk

/-- A prefix of a reachable path is reachable. -/
theorem lookupPath_prefix (q : List Key) :
    ∀ (p : List Key), p <+: q → p ≠ [] →
    ∀ (ret : List (Key × NV)) (w : NV),
    lookupPath ret q = some w → ∃ w2, lookupPath ret p = some w2 := by
  induction q with
  | nil =>
    intro p hpre hp
    rw [List.prefix_nil] at hpre
    exact absurd hpre hp
  | cons k qtail ih =>
    intro p hpre hp ret w hlk
    obtain ⟨p1, ptail, rfl⟩ : ∃ p1 ptail, p = p1 :: ptail := by
      cases p with
      | nil => exact absurd rfl hp
      | cons p1 ptail => exact ⟨p1, ptail, rfl⟩
    rw [List.cons_prefix_cons] at hpre
    obtain ⟨rfl, hpre2⟩ := hpre
    cases qtail with
    | nil =>
      rw [List.prefix_nil] at hpre2
      subst hpre2
      exact ⟨w, hlk⟩
    | cons q2 qt2 =>
      rw [lookupPath_cons] at hlk
      rcases hk : alookup ret p1 with _ | x
      · rw [hk] at hlk
        cases hlk
      · rw [hk] at hlk
        cases x with
        | dict sub =>
          cases ptail with
          | nil =>
            rw [lookupPath_one, hk]
            exact ⟨NV.dict sub, rfl⟩
          | cons pp2 ppt2 =>
            rw [lookupPath_cons, hk]
            exact ih (pp2 :: ppt2) hpre2 (by simp) sub w hlk
        | atom n => cases hlk
        | lst l => cases hlk

theorem pathUnrel_symm {p q : List Key} (h : pathUnrel p q) :
    pathUnrel q p := ⟨h.2, h.1⟩

theorem insOk_empty (p : List Key) (hp : p ≠ []) : insOk [] p := by
  cases p with
  | nil => exact absurd rfl hp
  | cons k rest =>
    cases rest with
    | nil => rw [insOk_one, alookup_nil]
    | cons k2 r2 =>
      rw [insOk_cons, alookup_nil]
      trivial

/-- Processing a pairwise-unrelated batch of nonempty paths succeeds,
makes every inserted value visible, and preserves unrelated lookups. -/
theorem insertAll_props (flat : List (List Key × NV))
    (hne : ∀ p ∈ flat, p.1 ≠ [])
    (hpw : List.Pairwise (fun a b => pathUnrel a.1 b.1) flat) :
    ∀ ret, (∀ p ∈ flat, insOk ret p.1) →
    ∃ r, insertAll ret flat = .ok r ∧
      (∀ p ∈ flat, lookupPath r p.1 = some p.2) ∧
      (∀ (c : List Key) (w : NV), c ≠ [] →
        (∀ p ∈ flat, pathUnrel c p.1) →
        lookupPath ret c = some w → lookupPath r c = some w) := by
  induction flat with
  | nil =>
    intro ret _
    exact ⟨ret, rfl, fun p hp => absurd hp (List.not_mem_nil p),
      fun c w _ _ h => h⟩
  | cons p rest ih =>
    intro ret hok
    rw [List.pairwise_cons] at hpw
    have hp1 : p.1 ≠ [] := hne p (List.mem_cons_self _ _)
    obtain ⟨r1, hr1⟩ := (insertPath_ok_iff p.1 hp1 ret p.2).mpr
      (hok p (List.mem_cons_self _ _))
    have hok2 : ∀ q ∈ rest, insOk r1 q.1 := by
      intro q hq
      exact insOk_preserved p.1 hp1 q.1 (hne q (List.mem_cons_of_mem _ hq))
        (pathUnrel_symm (hpw.1 q hq)) ret r1 p.2 hr1
        (hok q (List.mem_cons_of_mem _ hq))
    obtain ⟨r, hall, hlks, hpres⟩ := ih
      (fun q hq => hne q (List.mem_cons_of_mem _ hq)) hpw.2 r1 hok2
    refine ⟨r, ?_, ?_, ?_⟩
    · rw [insertAll_cons, hr1]
      exact hall
    · intro q hq
      rcases List.mem_cons.mp hq with rfl | hq2
      · exact hpres q.1 q.2 hp1 (fun z hz => hpw.1 z hz)
          (insertPath_lookupPath q.1 hp1 ret r1 q.2 hr1)
      · exact hlks q hq2
    · intro c w hc hcall hlk
      refine hpres c w hc (fun z hz => hcall z (List.mem_cons_of_mem _ hz)) ?_
      exact lookupPath_preserved p.1 hp1 c hc
        (hcall p (List.mem_cons_self _ _)) ret r1 p.2 w hr1 hlk

/-- The first element of a list that falsifies `P`, when one exists. -/
theorem exists_first_fail {α : Type} (P : α → Prop) :
    ∀ (xs : List α), (∃ y ∈ xs, ¬ P y) →
    ∃ pre y suf, xs = pre ++ y :: suf ∧ (∀ z ∈ pre, P z) ∧ ¬ P y := by
  intro xs
  induction xs with
  | nil =>
    rintro ⟨y, hy, _⟩
    exact absurd hy (List.not_mem_nil y)
  | cons x xs' ih =>
    rintro ⟨y, hy, hny⟩
    by_cases hx : P x
    · have hyx : y ∈ xs' := by
        rcases List.mem_cons.mp hy with rfl | h
        · exact absurd hx hny
        · exact h
      obtain ⟨pre, y2, suf, heq, hpre, hy2⟩ := ih ⟨y, hyx, hny⟩
      refine ⟨x :: pre, y2, suf, by rw [heq]; rfl, ?_, hy2⟩
      intro z hz
      rcases List.mem_cons.mp hz with rfl | h
      · exact hx
      · exact hpre z h
    · exact ⟨[], x, xs', rfl, fun z hz => absurd hz (List.not_mem_nil z), hx⟩

/-- The first violation of pairwise-ness: a decomposition whose prefix is
still pairwise related while the marked element conflicts with an earlier
one. -/
theorem exists_first_bad {α : Type} (R : α → α → Prop) :
    ∀ (n : Nat) (L : List α), L.length ≤ n → ¬ List.Pairwise R L →
    ∃ pre a suf, L = pre ++ a :: suf ∧ List.Pairwise R pre ∧
      ∃ b ∈ pre, ¬ R b a := by
  intro n
  induction n with
  | zero =>
    intro L hlen hbad
    rw [Nat.le_zero, List.length_eq_zero] at hlen
    subst hlen
    exact absurd List.Pairwise.nil hbad
  | succ n ihn =>
    intro L hlen hbad
    cases L with
    | nil => exact absurd List.Pairwise.nil hbad
    | cons x xs =>
      by_cases hhead : ∀ y ∈ xs, R x y
      · have hbad2 : ¬ List.Pairwise R xs := by
          intro hc
          exact hbad (List.pairwise_cons.mpr ⟨hhead, hc⟩)
        obtain ⟨pre, a, suf, heq, hpre, b, hb, hba⟩ :=
          ihn xs (by simp at hlen; omega) hbad2
        refine ⟨x :: pre, a, suf, by rw [heq]; rfl, ?_, b,
          List.mem_cons_of_mem _ hb, hba⟩
        rw [List.pairwise_cons]
        refine ⟨?_, hpre⟩
        intro z hz
        refine hhead z ?_
        rw [heq]
        exact List.mem_append.mpr (Or.inl hz)
      · push_neg at hhead
        obtain ⟨y, hy, hny⟩ := hhead
        obtain ⟨pre2, y2, suf2, heq2, hpre2, hny2⟩ :=
          exists_first_fail (fun z => R x z) xs ⟨y, hy, hny⟩
        by_cases hPP : List.Pairwise R pre2
        · refine ⟨x :: pre2, y2, suf2, by rw [heq2]; rfl, ?_, x,
            List.mem_cons_self _ _, hny2⟩
          rw [List.pairwise_cons]
          exact ⟨hpre2, hPP⟩
        · have hxpre : ¬ List.Pairwise R (x :: pre2) := by
            intro hc
            exact hPP (List.pairwise_cons.mp hc).2
          have hlen2 : (x :: pre2).length ≤ n := by
            have h1 : pre2.length < xs.length := by
              rw [heq2, List.length_append, List.length_cons]
              omega
            simp only [List.length_cons] at hlen ⊢
            omega
          obtain ⟨pre3, a3, suf3, heq3, hpre3, b3, hb3, hba3⟩ :=
            ihn (x :: pre2) hlen2 hxpre
          refine ⟨pre3, a3, suf3 ++ y2 :: suf2, ?_, hpre3, b3, hb3, hba3⟩
          rw [show x :: xs = (x :: pre2) ++ y2 :: suf2 from by rw [heq2]; rfl]
          rw [heq3]
          simp

/-- On a nonempty path, a failing insertion raises precisely the
conflicting-keys error. -/
theorem insertPath_error_conflict (p : List Key) (hp : p ≠ [])
    (ret : List (Key × NV)) (v : NV) (hnok : ¬ insOk ret p) :
    insertPath ret p v = .error .conflict := by
  cases hres : insertPath ret p v with
  | ok r => exact absurd ((insertPath_ok_iff p hp ret v).mp ⟨r, hres⟩) hnok
  | error e =>
    cases e with
    | conflict => rfl
    | indexError => exact absurd hres (insertPath_no_indexError p hp ret v)

/-- If the path family is not pairwise prefix-unrelated and no value is a
dict, the insertion loop raises the conflicting-keys error. -/
theorem insertAll_error_of_bad (flat : List (List Key × NV))
    (hne : ∀ p ∈ flat, p.1 ≠ [])
    (hvals : ∀ p ∈ flat, ∀ m, p.2 ≠ NV.dict m)
    (hbad : ¬ List.Pairwise (fun a b => pathUnrel a.1 b.1) flat) :
    insertAll [] flat = .error .conflict := by
  obtain ⟨pre, a, suf, heq, hpre, b, hb, hba⟩ :=
    exists_first_bad (fun x y : List Key × NV => pathUnrel x.1 y.1)
      flat.length flat le_rfl hbad
  subst heq
  have hbmem : b ∈ pre ++ a :: suf := List.mem_append.mpr (Or.inl hb)
  have hamem : a ∈ pre ++ a :: suf :=
    List.mem_append.mpr (Or.inr (List.mem_cons_self _ _))
  have ha1 : a.1 ≠ [] := hne a hamem
  have hb1 : b.1 ≠ [] := hne b hbmem
  obtain ⟨r, hok, hlks, _⟩ := insertAll_props pre
    (fun q hq => hne q (List.mem_append.mpr (Or.inl hq))) hpre []
    (fun q hq => insOk_empty q.1 (hne q (List.mem_append.mpr (Or.inl hq))))
  rw [insertAll_append, hok]
  show insertAll r (a :: suf) = .error .conflict
  rw [insertAll_cons]
  have hnok : ¬ insOk r a.1 := by
    rw [pathUnrel, not_and_or, not_not, not_not] at hba
    intro hok2
    rcases hba with hba | hba
    · by_cases heqp : b.1 = a.1
      · have hl := hlks b hb
        rw [heqp] at hl
        exact lookupPath_some_not_insOk a.1 ha1 r b.2 hl hok2
      · obtain ⟨s, hs⟩ :=
          insOk_prefix_dict b.1 hb1 a.1 hba heqp r b.2 hok2 (hlks b hb)
        exact hvals b hbmem s hs
    · obtain ⟨w2, hw2⟩ :=
        lookupPath_prefix b.1 a.1 hba ha1 r b.2 (hlks b hb)
      exact lookupPath_some_not_insOk a.1 ha1 r w2 hw2 hok2
  rw [insertPath_error_conflict a.1 ha1 r a.2 hnok]

/-- `deflatten` with a separator is the insertion loop over the split
keys, whenever the input dict has unique keys. -/
theorem deflattenSep_eq (sep : Key) (maxdepth : Int)
    (fd : List (Key × NV)) (hnd : (keysOf fd).Nodup) :
    deflattenSep sep maxdepth fd =
      insertAll [] (fd.map (fun p => (pySplit sep maxdepth p.1, p.2))) := by
  rw [deflattenSep]
  show insertAll [] _ = _
  congr 1
  rw [show (fd.foldl
      (fun acc p => aset acc (pySplit sep maxdepth p.1) p.2) []) =
    ((fd.map (fun p => (pySplit sep maxdepth p.1, p.2))).foldl
      (fun acc p => aset acc p.1 p.2) []) from by rw [List.foldl_map]]
  rw [show ((fd.map (fun p => (pySplit sep maxdepth p.1, p.2))).foldl
      (fun acc p => aset acc p.1 p.2) []) =
    aupdate [] (fd.map (fun p => (pySplit sep maxdepth p.1, p.2))) from rfl]
  rw [aupdate_eq_append _ _ ?hdisj ?hnd2]
  · rw [List.nil_append]
  case hdisj =>
    intro k _ hc
    rw [keysOf_nil] at hc
    exact (List.not_mem_nil k) hc
  case hnd2 =>
    rw [show keysOf (fd.map (fun p => (pySplit sep maxdepth p.1, p.2))) =
      (keysOf fd).map (pySplit sep maxdepth) from by simp [keysOf]]
    exact List.Nodup.map (fun x y h => pySplit_injective sep maxdepth h) hnd

/-- **C3 (amended)**: for a flat dict with unique keys, `deflatten`
(i) succeeds whenever the split key paths are pairwise prefix-unrelated
(prefix-free), for arbitrary values; and (ii) provided no value of the
flat dict is itself a mapping, it raises the conflicting-keys error
exactly when the split key paths are not prefix-free.  (The original
claim, without the no-mapping-values proviso of (ii), is refuted by the
counterexample: a mapping value absorbs a longer path without error.) -/
theorem claim_C3_deflatten_conflict :
    ∀ (sep : Key) (maxdepth : Int) (fd : List (Key × NV)),
    (keysOf fd).Nodup →
    (List.Pairwise pathUnrel (fd.map (fun p => pySplit sep maxdepth p.1)) →
      ∃ r, deflattenSep sep maxdepth fd = .ok r) ∧
    ((∀ kv ∈ fd, ∀ m, kv.2 ≠ NV.dict m) →
      (deflattenSep sep maxdepth fd = .error DeflErr.conflict ↔
        ¬ List.Pairwise pathUnrel
          (fd.map (fun p => pySplit sep maxdepth p.1)))) := by
  intro sep maxdepth fd hnd
  have hmapne : ∀ p ∈ fd.map (fun p => (pySplit sep maxdepth p.1, p.2)),
      p.1 ≠ [] := by
    intro p hp
    obtain ⟨q, _, rfl⟩ := List.mem_map.mp hp
    exact pySplit_ne_nil sep maxdepth q.1
  have hpweq : List.Pairwise pathUnrel
      (fd.map (fun p => pySplit sep maxdepth p.1)) ↔
      List.Pairwise (fun a b => pathUnrel a.1 b.1)
        (fd.map (fun p => (pySplit sep maxdepth p.1, p.2))) := by
    rw [List.pairwise_map, List.pairwise_map]
  constructor
  · intro hpw
    obtain ⟨r, hok, _, _⟩ := insertAll_props
      (fd.map (fun p => (pySplit sep maxdepth p.1, p.2))) hmapne
      (hpweq.mp hpw) []
      (fun q hq => insOk_empty q.1 (hmapne q hq))
    rw [deflattenSep_eq sep maxdepth fd hnd]
    exact ⟨r, hok⟩
  · intro hvals
    constructor
    · intro herr hpw
      obtain ⟨r, hok, _, _⟩ := insertAll_props
        (fd.map (fun p => (pySplit sep maxdepth p.1, p.2))) hmapne
        (hpweq.mp hpw) []
        (fun q hq => insOk_empty q.1 (hmapne q hq))
      rw [deflattenSep_eq sep maxdepth fd hnd, hok] at herr
      cases herr
    · intro hbad
      rw [deflattenSep_eq sep maxdepth fd hnd]
      refine insertAll_error_of_bad _ hmapne ?_ ?_
      · intro p hp m
        obtain ⟨q, hq, rfl⟩ := List.mem_map.mp hp
        exact hvals q hq m
      · intro hc
        exact hbad (hpweq.mpr hc)

theorem claim_C3_deflatten_conflict_witness :
    ((keysOf [((['a','.','b'] : Key), NV.atom 1), (['a'], NV.atom 2)]).Nodup ∧
      (∀ kv ∈ [((['a','.','b'] : Key), NV.atom 1), (['a'], NV.atom 2)],
        ∀ m, kv.2 ≠ NV.dict m) ∧
      ¬ List.Pairwise pathUnrel
        ([((['a','.','b'] : Key), NV.atom 1), (['a'], NV.atom 2)].map
          (fun p => pySplit ['.'] (-1) p.1)) ∧
      deflattenSep ['.'] (-1)
        [((['a','.','b'] : Key), NV.atom 1), (['a'], NV.atom 2)] =
        .error DeflErr.conflict) ∧
    ((keysOf [((['a'] : Key), NV.atom 1), (['b'], NV.atom 2)]).Nodup ∧
      ∃ r, deflattenSep ['.'] (-1)
        [((['a'] : Key), NV.atom 1), (['b'], NV.atom 2)] = .ok r) := by
  have hs1 : pySplit ['.'] (-1) ['a','.','b'] = [['a'], ['b']] := by
    simp [pySplit, findSub, List.isPrefixOf]
  have hs2 : pySplit ['.'] (-1) ['a'] = [['a']] := by
    simp [pySplit, findSub, List.isPrefixOf]
  have hs3 : pySplit ['.'] (-1) ['b'] = [['b']] := by
    simp [pySplit, findSub, List.isPrefixOf]
  have hnd1 : (keysOf [((['a','.','b'] : Key), NV.atom 1),
      (['a'], NV.atom 2)]).Nodup := by
    simp [keysOf]
  have hvals1 : ∀ kv ∈ [((['a','.','b'] : Key), NV.atom 1),
      (['a'], NV.atom 2)], ∀ m, kv.2 ≠ NV.dict m := by
    intro kv hkv m
    rcases List.mem_cons.mp hkv with rfl | hkv
    · exact fun h => NV.noConfusion h
    · rcases List.mem_cons.mp hkv with rfl | hkv
      · exact fun h => NV.noConfusion h
      · exact absurd hkv (List.not_mem_nil _)
  have hbad1 : ¬ List.Pairwise pathUnrel
      ([((['a','.','b'] : Key), NV.atom 1), (['a'], NV.atom 2)].map
        (fun p => pySplit ['.'] (-1) p.1)) := by
    rw [List.map_cons, List.map_cons, List.map_nil]
    rw [show ((((['a','.','b'] : Key), NV.atom 1) : Key × NV)).1 =
      ['a','.','b'] from rfl]
    rw [show (((['a'] : Key), NV.atom 2) : Key × NV).1 = ['a'] from rfl]
    rw [hs1, hs2]
    intro hc
    rw [List.pairwise_cons] at hc
    have h1 := hc.1 [['a']] (List.mem_cons_self _ _)
    exact h1.2 ⟨[['b']], rfl⟩
  have hnd2 : (keysOf [((['a'] : Key), NV.atom 1),
      (['b'], NV.atom 2)]).Nodup := by
    simp [keysOf]
  have hpw2 : List.Pairwise pathUnrel
      ([((['a'] : Key), NV.atom 1), (['b'], NV.atom 2)].map
        (fun p => pySplit ['.'] (-1) p.1)) := by
    rw [List.map_cons, List.map_cons, List.map_nil]
    rw [show ((((['a'] : Key), NV.atom 1) : Key × NV)).1 = ['a'] from rfl]
    rw [show (((['b'] : Key), NV.atom 2) : Key × NV).1 = ['b'] from rfl]
    rw [hs2, hs3]
    refine List.pairwise_cons.mpr ⟨?_, List.pairwise_singleton _ _⟩
    intro q hq
    rw [List.mem_singleton] at hq
    subst hq
    constructor
    · intro hc
      have := hc.length_le
      rcases hc with ⟨t, ht⟩
      have h0 := congrArg (fun l => l.headI) ht
      simp at h0
    · intro hc
      rcases hc with ⟨t, ht⟩
      have h0 := congrArg (fun l => l.headI) ht
      simp at h0
  refine ⟨⟨hnd1, hvals1, hbad1, ?_⟩, ⟨hnd2, ?_⟩⟩
  · exact ((claim_C3_deflatten_conflict ['.'] (-1) _ hnd1).2 hvals1).mpr hbad1
  · exact (claim_C3_deflatten_conflict ['.'] (-1) _ hnd2).1 hpw2

/-- **C3 (counterexample)**: `deflatten({'a': {'x': 1}, 'a.b': 2})` has the
non-prefix-free split paths `('a',)` and `('a', 'b')`, yet succeeds,
because the mapping value stored at `'a'` absorbs the longer path: the
original claim's "fails exactly when not prefix-free" is false when a
value is itself a mapping. -/
theorem claim_C3_counterexample :
    ¬ pathUnrel (pySplit ['.'] (-1) ['a']) (pySplit ['.'] (-1) ['a','.','b']) ∧
    deflattenSep ['.'] (-1)
        [((['a'] : Key), NV.dict [(['x'], NV.atom 1)]),
         (['a','.','b'], NV.atom 2)] =
      .ok [(['a'], NV.dict [(['x'], NV.atom 1), (['b'], NV.atom 2)])] := by
  have hs1 : pySplit ['.'] (-1) ['a','.','b'] = [['a'], ['b']] := by
    simp [pySplit, findSub, List.isPrefixOf]
  have hs2 : pySplit ['.'] (-1) ['a'] = [['a']] := by
    simp [pySplit, findSub, List.isPrefixOf]
  constructor
  · rw [hs1, hs2, pathUnrel]
    intro hc
    exact hc.1 ⟨[['b']], rfl⟩
  · rw [deflattenSep]
    show deflattenNone
        ((fun acc (p : Key × NV) => aset acc (pySplit ['.'] (-1) p.1) p.2)
          ((fun acc (p : Key × NV) => aset acc (pySplit ['.'] (-1) p.1) p.2)
            [] (['a'], NV.dict [(['x'], NV.atom 1)]))
          (['a','.','b'], NV.atom 2)) = _
    show deflattenNone
        (aset (aset [] (pySplit ['.'] (-1) ['a'])
            (NV.dict [(['x'], NV.atom 1)]))
          (pySplit ['.'] (-1) ['a','.','b']) (NV.atom 2)) = _
    rw [hs1, hs2]
    rfl


/-! ### `nested_merge` (`paderbox/utils/nested.py`, lines 148-244)

`nested_merge(default_dict, *update_dicts, allow_update=True, inplace=False)`
merges any number of nested dicts.  We model the pure (`inplace=False`)
semantics: `nmerge d0 us allow`.  The inner closure `get_value_for_key`
becomes `getValueForKey`, and the final assignment loop
`for k in keys: default_dict[k] = get_value_for_key(k)` becomes `assignKeys`.
The single `Except Unit` error stands for the `AssertionError`s raised by
the two `assert` statements in `get_value_for_key` (and for the unreachable
`IndexError` of `values[-1]` on an empty list).  `NV.lst` models a Python
`list`, which is unhashable, so `set(values)` raises `TypeError` as soon as
one value is a `dict` or a `list`. -/

/-- `isinstance(v, collections.abc.Mapping)`. -/
def NV.isMapping : NV → Bool
  | .dict _ => true
  | _ => false

/-- The entry list of a mapping node (junk `[]` on non-mappings; only
applied to values known to be mappings). -/
def NV.contents : NV → List (Key × NV)
  | .dict l => l
  | _ => []

/-- Whether `hash(v)` succeeds in Python: numbers are hashable, `dict` and
`list` are not. -/
def NV.isHashable : NV → Bool
  | .atom _ => true
  | _ => false

/-- A size function on `NV` used as the termination measure of `nmerge`
(the automatically derived `sizeOf` of a nested inductive has no
executable code). -/
def NV.nsize : NV → Nat
  | .atom _ => 1
  | .dict [] => 1
  | .dict ((_, v) :: rest) => v.nsize + (NV.dict rest).nsize
  | .lst [] => 1
  | .lst (v :: rest) => v.nsize + (NV.lst rest).nsize
termination_by x => sizeOf x
decreasing_by all_goals (simp; try omega)

/-- Size of a dict (sum of the sizes of its values). -/
def dSize (d : List (Key × NV)) : Nat := (d.map (fun kv => kv.2.nsize)).sum

/-- Size of a list of dicts. -/
def dsSize (ds : List (List (Key × NV))) : Nat :=
  (ds.map (fun d => dSize d + 1)).sum

/-- `values = [d[key] for d in dicts if key in d.keys()]`. -/
def collectVals (ds : List (List (Key × NV))) (k : Key) : List NV :=
  ds.filterMap (fun d => alookup d k)

/-- `mapping_values`: the loop `for value in values[::-1]` collects, right to
left, the contiguous trailing run of `Mapping` values, stopping at the first
non-mapping. -/
def trailingRun (vs : List NV) : List NV :=
  (vs.reverse.takeWhile NV.isMapping).reverse

theorem dict_nsize (l : List (Key × NV)) :
    (NV.dict l).nsize = dSize l + 1 := by
  induction l with
  | nil => rw [NV.nsize]; simp [dSize]
  | cons kv rest ih =>
    obtain ⟨k, v⟩ := kv
    rw [NV.nsize, ih]
    simp [dSize]
    omega

theorem alookup_size {d : List (Key × NV)} {k : Key} {v : NV}
    (h : alookup d k = some v) : v.nsize ≤ dSize d := by
  induction d with
  | nil => simp [alookup] at h
  | cons kv rest ih =>
    obtain ⟨k', u⟩ := kv
    rw [alookup] at h
    by_cases hk : k' = k
    · simp [hk] at h
      subst h
      simp [dSize]
    · simp [hk] at h
      have := ih h
      simp [dSize] at *
      omega

theorem collect_size (ds : List (List (Key × NV))) (k : Key) :
    ((collectVals ds k).map NV.nsize).sum + (collectVals ds k).length ≤
      dsSize ds := by
  induction ds with
  | nil => simp [collectVals, dsSize]
  | cons d rest ih =>
    simp only [collectVals, dsSize, List.map_cons, List.sum_cons] at *
    rw [List.filterMap_cons]
    cases h : alookup d k with
    | none => simp only; omega
    | some v =>
      have := alookup_size h
      simp only [List.map_cons, List.sum_cons, List.length_cons]
      omega

theorem sublist_map_sum_le {α : Type} (f : α → Nat) {l1 l2 : List α}
    (h : l1.Sublist l2) : (l1.map f).sum ≤ (l2.map f).sum := by
  induction h with
  | slnil => simp
  | cons a _ ih => simp; omega
  | cons₂ a _ ih => simp; omega

theorem trailingRun_sublist (vs : List NV) : (trailingRun vs).Sublist vs := by
  have h1 : (vs.reverse.takeWhile NV.isMapping).Sublist vs.reverse :=
    List.takeWhile_sublist _
  have h2 := h1.reverse
  rwa [List.reverse_reverse] at h2

theorem trailingRun_mapping {vs : List NV} {v : NV}
    (h : v ∈ trailingRun vs) : v.isMapping = true := by
  rw [trailingRun, List.mem_reverse] at h
  exact List.mem_takeWhile_imp h

theorem contents_size {v : NV} (h : v.isMapping = true) :
    dSize v.contents + 1 ≤ v.nsize := by
  cases v with
  | atom n => simp [NV.isMapping] at h
  | lst l => simp [NV.isMapping] at h
  | dict l => rw [NV.contents, dict_nsize]

theorem map_contents_sum_le {l : List NV}
    (h : ∀ v ∈ l, v.isMapping = true) :
    (l.map (fun v => dSize v.contents + 1)).sum ≤ (l.map NV.nsize).sum := by
  induction l with
  | nil => simp
  | cons a t ih =>
    have ha := contents_size (h a (by simp))
    have ht := ih (fun v hv => h v (by simp [hv]))
    simp only [List.map_cons, List.sum_cons]
    omega

theorem run_size_lt {ds : List (List (Key × NV))} {k : Key} {r0 : NV}
    {rs : List NV} (h : trailingRun (collectVals ds k) = r0 :: rs) :
    dsSize (r0.contents :: rs.map NV.contents) < dsSize ds := by
  have hsub := trailingRun_sublist (collectVals ds k)
  rw [h] at hsub
  have hmap : ∀ v ∈ r0 :: rs, v.isMapping = true := by
    intro v hv
    exact trailingRun_mapping (h ▸ hv)
  have h1 : ((r0 :: rs).map (fun v => dSize v.contents + 1)).sum ≤
      ((r0 :: rs).map NV.nsize).sum := map_contents_sum_le hmap
  have h2 : ((r0 :: rs).map NV.nsize).sum ≤
      ((collectVals ds k).map NV.nsize).sum := sublist_map_sum_le NV.nsize hsub
  have h3 := collect_size ds k
  have hlen : 1 ≤ (collectVals ds k).length := by
    have := hsub.length_le
    simp at this
    omega
  have heq : dsSize (r0.contents :: rs.map NV.contents) =
      ((r0 :: rs).map (fun v => dSize v.contents + 1)).sum := by
    simp only [dsSize, List.map_cons, List.sum_cons, List.map_map,
      Function.comp_def]
  omega

theorem run_size_lt_ne {ds : List (List (Key × NV))} {k : Key}
    (hne : trailingRun (collectVals ds k) ≠ []) :
    dsSize ((trailingRun (collectVals ds k)).headI.contents ::
      (trailingRun (collectVals ds k)).tail.map NV.contents) < dsSize ds := by
  cases h : trailingRun (collectVals ds k) with
  | nil => exact absurd h hne
  | cons r0 rs => simpa using run_size_lt h

mutual

/-- `nested_merge(d0, *us, allow_update=allow, inplace=False)`.  With no
update dicts it returns (a shallow copy of) `d0`; otherwise it assigns
`get_value_for_key(k)` for every key of every input dict, in order, into a
copy of `d0`. -/
def nmerge (d0 : List (Key × NV)) (us : List (List (Key × NV)))
    (allow : Bool) : Except Unit (List (Key × NV)) :=
  match us with
  | [] => .ok d0
  | u :: ut =>
      assignKeys (d0 :: u :: ut) allow ((d0 :: u :: ut).flatMap keysOf) d0
termination_by (dsSize (d0 :: us), 2, 0)

/-- The loop `for k in keys: default_dict[k] = get_value_for_key(k)`,
propagating the first error. -/
def assignKeys (ds : List (List (Key × NV))) (allow : Bool)
    (ks : List Key) (acc : List (Key × NV)) :
    Except Unit (List (Key × NV)) :=
  match ks with
  | [] => .ok acc
  | k :: rest =>
      match getValueForKey ds allow k with
      | .ok v => assignKeys ds allow rest (aset acc k v)
      | .error e => .error e
termination_by (dsSize ds, 1, ks.length)

/-- The closure `get_value_for_key(key)`.  If the rightmost value is a
mapping it recursively merges the contiguous trailing run of mapping values
(first asserting, when `allow = false`, that this run covers all values);
otherwise it returns the rightmost value (first asserting, when
`allow = false`, that there is exactly one value, up to `set` deduplication
when all values are hashable).  The `trailingRun = []` guard is unreachable:
the run contains at least the rightmost value. -/
def getValueForKey (ds : List (List (Key × NV))) (allow : Bool) (k : Key) :
    Except Unit NV :=
  match (collectVals ds k).getLast? with
  | none => .error ()
  | some last =>
      if last.isMapping then
        if allow = false ∧
            (trailingRun (collectVals ds k)).length ≠
              (collectVals ds k).length then .error ()
        else
          if hrn : trailingRun (collectVals ds k) = [] then .error ()
          else
            (nmerge (trailingRun (collectVals ds k)).headI.contents
              ((trailingRun (collectVals ds k)).tail.map NV.contents)
              allow).map NV.dict
      else
        if allow then .ok last
        else
          if ((if (collectVals ds k).all NV.isHashable then
              (collectVals ds k).dedup else collectVals ds k)).length = 1 then
            .ok last
          else .error ()
termination_by (dsSize ds, 0, 0)
decreasing_by
  exact Prod.Lex.left _ _ (run_size_lt_ne hrn)

end

theorem nmerge_nil (d0 : List (Key × NV)) (allow : Bool) :
    nmerge d0 [] allow = .ok d0 := by
  rw [nmerge]

theorem nmerge_cons (d0 u : List (Key × NV)) (ut : List (List (Key × NV)))
    (allow : Bool) :
    nmerge d0 (u :: ut) allow =
      assignKeys (d0 :: u :: ut) allow ((d0 :: u :: ut).flatMap keysOf) d0 := by
  rw [nmerge]

theorem assignKeys_nil (ds : List (List (Key × NV))) (allow : Bool)
    (acc : List (Key × NV)) : assignKeys ds allow [] acc = .ok acc := by
  rw [assignKeys]

theorem assignKeys_cons_ok {ds : List (List (Key × NV))} {allow : Bool}
    {k : Key} {v : NV} (rest : List Key) (acc : List (Key × NV))
    (h : getValueForKey ds allow k = .ok v) :
    assignKeys ds allow (k :: rest) acc =
      assignKeys ds allow rest (aset acc k v) := by
  rw [assignKeys, h]

theorem assignKeys_cons_err {ds : List (List (Key × NV))} {allow : Bool}
    {k : Key} {e : Unit} (rest : List Key) (acc : List (Key × NV))
    (h : getValueForKey ds allow k = .error e) :
    assignKeys ds allow (k :: rest) acc = .error e := by
  rw [assignKeys, h]

theorem gvfk_none {ds : List (List (Key × NV))} {allow : Bool} {k : Key}
    (h : (collectVals ds k).getLast? = none) :
    getValueForKey ds allow k = .error () := by
  rw [getValueForKey, h]

theorem gvfk_map_bad {ds : List (List (Key × NV))} {k : Key} {last : NV}
    (h : (collectVals ds k).getLast? = some last)
    (hm : last.isMapping = true)
    (hb : (trailingRun (collectVals ds k)).length ≠
      (collectVals ds k).length) :
    getValueForKey ds false k = .error () := by
  rw [getValueForKey, h]
  simp [hm, hb]

theorem gvfk_map_ok {ds : List (List (Key × NV))} {allow : Bool} {k : Key}
    {last r0 : NV} {rs : List NV}
    (h : (collectVals ds k).getLast? = some last)
    (hm : last.isMapping = true)
    (hb : ¬ (allow = false ∧
      (trailingRun (collectVals ds k)).length ≠ (collectVals ds k).length))
    (hrun : trailingRun (collectVals ds k) = r0 :: rs) :
    getValueForKey ds allow k =
      (nmerge r0.contents (rs.map NV.contents) allow).map NV.dict := by
  rw [getValueForKey, h]
  simp only [hm, if_true, if_neg hb]
  rw [dif_neg (by rw [hrun]; simp)]
  rw [hrun]
  simp

theorem gvfk_nonmap_allow {ds : List (List (Key × NV))} {k : Key} {last : NV}
    (h : (collectVals ds k).getLast? = some last)
    (hm : last.isMapping = false) :
    getValueForKey ds true k = .ok last := by
  rw [getValueForKey, h]
  simp [hm]

theorem gvfk_nonmap_one {ds : List (List (Key × NV))} {k : Key} {last : NV}
    (h : (collectVals ds k).getLast? = some last)
    (hm : last.isMapping = false)
    (hlen : ((if (collectVals ds k).all NV.isHashable then
        (collectVals ds k).dedup else collectVals ds k)).length = 1) :
    getValueForKey ds false k = .ok last := by
  rw [getValueForKey, h]
  simp only [hm, Bool.false_eq_true, if_false, hlen, if_true]

theorem gvfk_nonmap_err {ds : List (List (Key × NV))} {k : Key} {last : NV}
    (h : (collectVals ds k).getLast? = some last)
    (hm : last.isMapping = false)
    (hlen : ((if (collectVals ds k).all NV.isHashable then
        (collectVals ds k).dedup else collectVals ds k)).length ≠ 1) :
    getValueForKey ds false k = .error () := by
  rw [getValueForKey, h]
  simp only [hm, Bool.false_eq_true, if_false, if_neg hlen]

theorem alookup_mem_keys {K V : Type} [DecidableEq K] {d : List (K × V)}
    {k : K} {v : V} (h : alookup d k = some v) : k ∈ keysOf d := by
  induction d with
  | nil => simp [alookup] at h
  | cons kv rest ih =>
    obtain ⟨k2, u⟩ := kv
    rw [alookup] at h
    by_cases hk : k2 = k
    · rw [keysOf_cons]
      exact List.mem_cons.mpr (Or.inl hk.symm)
    · rw [if_neg hk] at h
      rw [keysOf_cons]
      exact List.mem_cons.mpr (Or.inr (ih h))

theorem collect_last_mem {ds : List (List (Key × NV))} {k : Key} {last : NV}
    (h : (collectVals ds k).getLast? = some last) :
    k ∈ ds.flatMap keysOf := by
  have hne : collectVals ds k ≠ [] := by
    intro hc
    rw [hc] at h
    simp at h
  rw [collectVals, Ne, List.filterMap_eq_nil_iff] at hne
  push_neg at hne
  obtain ⟨d, hd, hv⟩ := hne
  rw [Option.ne_none_iff_exists] at hv
  obtain ⟨v, hv⟩ := hv
  rw [List.mem_flatMap]
  exact ⟨d, hd, alookup_mem_keys hv.symm⟩

/-- After a successful assignment loop, every key of the key list holds the
value computed by `get_value_for_key`, and every other key is unchanged from
the accumulator. -/
theorem assignKeys_spec (ds : List (List (Key × NV))) (allow : Bool) :
    ∀ (ks : List Key) (acc r : List (Key × NV)),
      assignKeys ds allow ks acc = .ok r →
      ∀ k : Key,
        (k ∈ ks → ∃ v, getValueForKey ds allow k = .ok v ∧
          alookup r k = some v) ∧
        (k ∉ ks → alookup r k = alookup acc k) := by
  intro ks
  induction ks with
  | nil =>
    intro acc r h k
    rw [assignKeys_nil] at h
    injection h with h
    subst h
    exact ⟨by simp, fun _ => rfl⟩
  | cons k0 rest ih =>
    intro acc r h k
    rw [assignKeys] at h
    cases hg : getValueForKey ds allow k0 with
    | error e => rw [hg] at h; exact absurd h (by simp)
    | ok v =>
      rw [hg] at h
      simp only at h
      have IH := ih (aset acc k0 v) r h
      constructor
      · intro hk
        rcases List.mem_cons.mp hk with hk0 | hkr
        · subst hk0
          by_cases hkr : k ∈ rest
          · exact (IH k).1 hkr
          · refine ⟨v, hg, ?_⟩
            rw [(IH k).2 hkr, alookup_aset_self]
        · exact (IH k).1 hkr
      · intro hk
        simp only [List.mem_cons, not_or] at hk
        exact ((IH k).2 hk.2).trans
          (alookup_aset_ne acc v (fun hc => hk.1 hc.symm))

/-- The assignment loop succeeds when `get_value_for_key` succeeds on every
key of the key list. -/
theorem assignKeys_total (ds : List (List (Key × NV))) (allow : Bool) :
    ∀ (ks : List Key) (acc : List (Key × NV)),
      (∀ k ∈ ks, ∃ v, getValueForKey ds allow k = .ok v) →
      ∃ r, assignKeys ds allow ks acc = .ok r := by
  intro ks
  induction ks with
  | nil => intro acc _; exact ⟨acc, assignKeys_nil ds allow acc⟩
  | cons k0 rest ih =>
    intro acc hall
    obtain ⟨v, hv⟩ := hall k0 (by simp)
    obtain ⟨r, hr⟩ := ih (aset acc k0 v)
      (fun k hk => hall k (by simp [hk]))
    exact ⟨r, by rw [assignKeys_cons_ok rest acc hv]; exact hr⟩

/-- On a successful lookup with a non-mapping rightmost value,
`get_value_for_key` returns exactly that rightmost value. -/
theorem gvfk_ok_value {ds : List (List (Key × NV))} {allow : Bool} {k : Key}
    {last v : NV}
    (h : (collectVals ds k).getLast? = some last)
    (hm : last.isMapping = false)
    (hok : getValueForKey ds allow k = .ok v) : v = last := by
  cases allow with
  | true =>
    rw [gvfk_nonmap_allow h hm] at hok
    injection hok with hok
    exact hok.symm
  | false =>
    by_cases hlen : ((if (collectVals ds k).all NV.isHashable then
        (collectVals ds k).dedup else collectVals ds k)).length = 1
    · rw [gvfk_nonmap_one h hm hlen] at hok
      injection hok with hok
      exact hok.symm
    · rw [gvfk_nonmap_err h hm hlen] at hok
      exact absurd hok (by simp)

/-- C2: in a successful `nested_merge`, a key whose rightmost
(highest-precedence) collected value is not a mapping maps to exactly that
rightmost value, and a key whose rightmost collected value is a mapping maps
to the recursive merge of exactly the contiguous trailing run of
mapping-typed values for that key (the values collected right-to-left up to
the first non-mapping value); earlier non-mapping values are discarded. -/
theorem claim_C2_merge_value :
    ∀ (allow : Bool) (d0 u : List (Key × NV)) (ut : List (List (Key × NV)))
      (r : List (Key × NV)) (k : Key) (last : NV),
      nmerge d0 (u :: ut) allow = .ok r →
      (collectVals (d0 :: u :: ut) k).getLast? = some last →
      (last.isMapping = false → alookup r k = some last) ∧
      (∀ r0 rs, last.isMapping = true →
        trailingRun (collectVals (d0 :: u :: ut) k) = r0 :: rs →
        ∃ m, nmerge r0.contents (rs.map NV.contents) allow = .ok m ∧
          alookup r k = some (NV.dict m)) := by
  intro allow d0 u ut r k last hok hlast
  rw [nmerge_cons] at hok
  have hmem : k ∈ (d0 :: u :: ut).flatMap keysOf := collect_last_mem hlast
  obtain ⟨v, hv, hrv⟩ :=
    ((assignKeys_spec (d0 :: u :: ut) allow _ d0 r hok) k).1 hmem
  constructor
  · intro hm
    rw [hrv, gvfk_ok_value hlast hm hv]
  · intro r0 rs hm hrun
    by_cases hb : allow = false ∧
        (trailingRun (collectVals (d0 :: u :: ut) k)).length ≠
          (collectVals (d0 :: u :: ut) k).length
    · rw [hb.1] at hv
      rw [gvfk_map_bad hlast hm hb.2] at hv
      exact absurd hv (by simp)
    · rw [gvfk_map_ok hlast hm hb hrun] at hv
      cases hn : nmerge r0.contents (rs.map NV.contents) allow with
      | error e => rw [hn] at hv; exact absurd hv (by simp [Except.map])
      | ok m =>
        rw [hn] at hv
        simp only [Except.map] at hv
        injection hv with hv
        exact ⟨m, rfl, by rw [hrv, ← hv]⟩

theorem claim_C2_merge_value_witness :
    ((NV.dict [(['r'], NV.atom 1)]).isMapping = false →
      alookup [(['f'], NV.dict [(['r'], NV.atom 1)])] ['f'] =
        some (NV.dict [(['r'], NV.atom 1)])) ∧
    (∀ r0 rs, (NV.dict [(['r'], NV.atom 1)]).isMapping = true →
      trailingRun (collectVals
        [[(['f'], NV.dict [(['b'], NV.atom 0)])], [(['f'], NV.atom 1)],
          [(['f'], NV.dict [(['r'], NV.atom 1)])]] ['f']) = r0 :: rs →
      ∃ m, nmerge r0.contents (rs.map NV.contents) true = .ok m ∧
        alookup [(['f'], NV.dict [(['r'], NV.atom 1)])] ['f'] =
          some (NV.dict m)) :=
  claim_C2_merge_value true [(['f'], NV.dict [(['b'], NV.atom 0)])]
    [(['f'], NV.atom 1)] [[(['f'], NV.dict [(['r'], NV.atom 1)])]]
    [(['f'], NV.dict [(['r'], NV.atom 1)])] ['f']
    (NV.dict [(['r'], NV.atom 1)])
    (by simp [nmerge, assignKeys, getValueForKey, collectVals, trailingRun,
      alookup, aset, keysOf, NV.isMapping, NV.contents, Except.map])
    (by simp [collectVals, alookup])

/-- C4 (amended): with `allow_update=False`, the merge succeeds exactly when
`get_value_for_key` succeeds on every key of the inputs; for a key whose
rightmost value is not a mapping, `get_value_for_key` succeeds exactly when
the collected values for that key reduce to length 1 — via `set`
deduplication when all values are hashable, but by raw occurrence count when
any value is unhashable (so two equal unhashable values still fail); for a
key whose rightmost value is a mapping, it fails whenever the contiguous
trailing mapping run does not cover all collected values. -/
theorem claim_C4_no_update :
    (∀ (d0 u : List (Key × NV)) (ut : List (List (Key × NV))),
      (∃ r, nmerge d0 (u :: ut) false = .ok r) ↔
        (∀ k ∈ (d0 :: u :: ut).flatMap keysOf,
          ∃ v, getValueForKey (d0 :: u :: ut) false k = .ok v)) ∧
    (∀ (ds : List (List (Key × NV))) (k : Key) (last : NV),
      (collectVals ds k).getLast? = some last →
      (last.isMapping = false →
        ((if (collectVals ds k).all NV.isHashable then
            (collectVals ds k).dedup
          else collectVals ds k).length = 1 →
          getValueForKey ds false k = .ok last) ∧
        ((if (collectVals ds k).all NV.isHashable then
            (collectVals ds k).dedup
          else collectVals ds k).length ≠ 1 →
          getValueForKey ds false k = .error ())) ∧
      (last.isMapping = true →
        (trailingRun (collectVals ds k)).length ≠ (collectVals ds k).length →
        getValueForKey ds false k = .error ())) := by
  constructor
  · intro d0 u ut
    constructor
    · rintro ⟨r, hr⟩ k hk
      rw [nmerge_cons] at hr
      obtain ⟨v, hv, _⟩ :=
        ((assignKeys_spec (d0 :: u :: ut) false _ d0 r hr) k).1 hk
      exact ⟨v, hv⟩
    · intro hall
      rw [nmerge_cons]
      exact assignKeys_total (d0 :: u :: ut) false _ d0 hall
  · intro ds k last hlast
    refine ⟨fun hm => ⟨fun hlen => gvfk_nonmap_one hlast hm hlen,
      fun hlen => gvfk_nonmap_err hlast hm hlen⟩,
      fun hm hne => gvfk_map_bad hlast hm hne⟩

theorem claim_C4_no_update_witness :
    getValueForKey [[(['f'], NV.dict [(['b'], NV.atom 1)])],
      [(['f'], NV.atom 0)]] false ['f'] = .error () :=
  ((claim_C4_no_update.2 [[(['f'], NV.dict [(['b'], NV.atom 1)])],
      [(['f'], NV.atom 0)]] ['f'] (NV.atom 0)
    (by simp [collectVals, alookup])).1 rfl).2
    (by simp [collectVals, alookup, NV.isHashable])

/-- C4 counterexample to the original claim: `'k'` carries the two values
`[1]` and `[1]` — equal, hence "exactly one distinct value by equality
check" — and the rightmost is not a mapping, yet
`nested_merge({'k': [1]}, {'k': [1]}, allow_update=False)` raises: lists are
unhashable, so `set(values)` raises `TypeError` and the assert sees two
occurrences. -/
theorem claim_C4_counterexample :
    collectVals [[(['k'], NV.lst [NV.atom 1])], [(['k'], NV.lst [NV.atom 1])]]
        ['k'] = [NV.lst [NV.atom 1], NV.lst [NV.atom 1]] ∧
    (NV.lst [NV.atom 1]).isMapping = false ∧
    [NV.lst [NV.atom 1], NV.lst [NV.atom 1]].dedup.length = 1 ∧
    nmerge [(['k'], NV.lst [NV.atom 1])] [[(['k'], NV.lst [NV.atom 1])]]
      false = .error () := by
  refine ⟨by simp [collectVals, alookup], rfl, ?_, ?_⟩
  · rw [List.dedup_cons_of_mem (by simp),
      List.dedup_cons_of_not_mem (by simp), List.dedup_nil]
    rfl
  · simp [nmerge, assignKeys, getValueForKey, collectVals, trailingRun,
      alookup, aset, keysOf, NV.isMapping, NV.isHashable, NV.contents,
      Except.map]

/-! ### `nested_op` (`paderbox/utils/nested.py`, lines 247-396)

`nested_op(func, arg1, *args, broadcast=..., keep_type=True)` co-traverses
`arg1` with the further arguments and applies `func` at the leaves of
`arg1`.  We model it as `nestedOp f b a1 args` with the default
`mapping_type`/`sequence_type` (`NV.dict` is the mapping, `NV.lst` the
sequence) and without the dataclass branch (`handle_dataclass=False`, the
default).  At a mapping node the guard is the pair of `assert all(...)`
statements; each child recursion receives
`arg[key] if isinstance(arg, mapping_type) else arg` (the `arg[key]`
lookup cannot fail under the guard, so the model supplies a junk default);
a sequence node works positionally, modelled by peeling heads, which under
the equal-length guard agrees with `arg[j]`.  The single `Except Unit`
error stands for the `AssertionError` of the structure asserts. -/

/-- `isinstance(v, (tuple, list))`. -/
def NV.isSeq : NV → Bool
  | .lst _ => true
  | _ => false

/-- The element list of a sequence node (junk `[]` otherwise). -/
def NV.elems : NV → List NV
  | .lst l => l
  | _ => []

theorem lst_nsize (l : List NV) :
    (NV.lst l).nsize = (l.map NV.nsize).sum + 1 := by
  induction l with
  | nil => rw [NV.nsize]; simp
  | cons v rest ih =>
    rw [NV.nsize, ih]
    simp
    omega

theorem nsize_pos (v : NV) : 1 ≤ v.nsize := by
  cases v with
  | atom n => rw [NV.nsize]
  | dict l => rw [dict_nsize]; omega
  | lst l => rw [lst_nsize]; omega

/-- Python `arg.keys() == arg1.keys()`: dict key views compare as sets. -/
def keySetEq (a d : List (Key × NV)) : Bool :=
  (keysOf a).all (fun k => decide (k ∈ keysOf d)) &&
    (keysOf d).all (fun k => decide (k ∈ keysOf a))

mutual

def nestedOp (f : NV → List NV → NV) (b : Bool) :
    NV → List NV → Except Unit NV
  | .dict d, args =>
      if (if b then args.all (fun a => !a.isMapping || keySetEq a.contents d)
          else args.all (fun a => a.isMapping && keySetEq a.contents d)) then
        (nestedOpDict f b d args).map NV.dict
      else .error ()
  | .lst l, args =>
      if (if b then
            args.all (fun a => !a.isSeq || a.elems.length == l.length)
          else
            args.all (fun a => a.isSeq && (a.elems.length == l.length))) then
        (nestedOpList f b l args).map NV.lst
      else .error ()
  | .atom n, args => .ok (f (.atom n) args)
termination_by a _ => (a.nsize, 1)

def nestedOpDict (f : NV → List NV → NV) (b : Bool) :
    List (Key × NV) → List NV → Except Unit (List (Key × NV))
  | [], _ => .ok []
  | (k, v) :: rest, args =>
      match nestedOp f b v (args.map (fun a =>
        if a.isMapping then (alookup a.contents k).getD (NV.atom 0)
        else a)) with
      | .error e => .error e
      | .ok w =>
        match nestedOpDict f b rest args with
        | .error e => .error e
        | .ok ws => .ok ((k, w) :: ws)
termination_by d _ => ((NV.dict d).nsize, 0)
decreasing_by
  · exact Prod.Lex.left _ _
      (by rw [NV.nsize]; have := nsize_pos (NV.dict rest); omega)
  · exact Prod.Lex.left _ _
      (by rw [NV.nsize]; have := nsize_pos v; omega)

def nestedOpList (f : NV → List NV → NV) (b : Bool) :
    List NV → List NV → Except Unit (List NV)
  | [], _ => .ok []
  | v :: rest, args =>
      match nestedOp f b v (args.map (fun a =>
        if a.isSeq then a.elems.headI else a)) with
      | .error e => .error e
      | .ok w =>
        match nestedOpList f b rest (args.map (fun a =>
          if a.isSeq then NV.lst a.elems.tail else a)) with
        | .error e => .error e
        | .ok ws => .ok (w :: ws)
termination_by l _ => ((NV.lst l).nsize, 0)
decreasing_by
  · exact Prod.Lex.left _ _
      (by rw [NV.nsize]; have := nsize_pos (NV.lst rest); omega)
  · exact Prod.Lex.left _ _
      (by rw [NV.nsize]; have := nsize_pos v; omega)

end

theorem nestedOp_atom (f : NV → List NV → NV) (b : Bool) (n : Nat)
    (args : List NV) : nestedOp f b (.atom n) args = .ok (f (.atom n) args) := by
  rw [nestedOp]

theorem nestedOp_dict (f : NV → List NV → NV) (b : Bool)
    (d : List (Key × NV)) (args : List NV) :
    nestedOp f b (.dict d) args =
      if (if b then args.all (fun a => !a.isMapping || keySetEq a.contents d)
          else args.all (fun a => a.isMapping && keySetEq a.contents d)) then
        (nestedOpDict f b d args).map NV.dict
      else .error () := by
  rw [nestedOp]

theorem nestedOp_lst (f : NV → List NV → NV) (b : Bool)
    (l : List NV) (args : List NV) :
    nestedOp f b (.lst l) args =
      if (if b then
            args.all (fun a => !a.isSeq || a.elems.length == l.length)
          else
            args.all (fun a => a.isSeq && (a.elems.length == l.length))) then
        (nestedOpList f b l args).map NV.lst
      else .error () := by
  rw [nestedOp]

theorem nestedOpDict_nil (f : NV → List NV → NV) (b : Bool)
    (args : List NV) : nestedOpDict f b [] args = .ok [] := by
  rw [nestedOpDict]

theorem nestedOpDict_cons (f : NV → List NV → NV) (b : Bool) (k : Key)
    (v : NV) (rest : List (Key × NV)) (args : List NV) :
    nestedOpDict f b ((k, v) :: rest) args =
      (match nestedOp f b v (args.map (fun a =>
        if a.isMapping then (alookup a.contents k).getD (NV.atom 0)
        else a)) with
      | .error e => .error e
      | .ok w =>
        match nestedOpDict f b rest args with
        | .error e => .error e
        | .ok ws => .ok ((k, w) :: ws)) := by
  rw [nestedOpDict]

theorem nestedOpList_nil (f : NV → List NV → NV) (b : Bool)
    (args : List NV) : nestedOpList f b [] args = .ok [] := by
  rw [nestedOpList]

theorem nestedOpList_cons (f : NV → List NV → NV) (b : Bool)
    (v : NV) (rest : List NV) (args : List NV) :
    nestedOpList f b (v :: rest) args =
      (match nestedOp f b v (args.map (fun a =>
        if a.isSeq then a.elems.headI else a)) with
      | .error e => .error e
      | .ok w =>
        match nestedOpList f b rest (args.map (fun a =>
          if a.isSeq then NV.lst a.elems.tail else a)) with
        | .error e => .error e
        | .ok ws => .ok (w :: ws)) := by
  rw [nestedOpList]

theorem nestedOpDict_spec (f : NV → List NV → NV) (b : Bool) :
    ∀ (d : List (Key × NV)) (args : List NV) (m : List (Key × NV)),
      nestedOpDict f b d args = .ok m →
      keysOf m = keysOf d ∧
      ∀ k v, alookup d k = some v → ∃ w, alookup m k = some w ∧
        nestedOp f b v (args.map (fun a =>
          if a.isMapping then (alookup a.contents k).getD (NV.atom 0)
          else a)) = .ok w := by
  intro d
  induction d with
  | nil =>
    intro args m h
    rw [nestedOpDict_nil] at h
    injection h with h
    subst h
    exact ⟨rfl, by intro k v hv; rw [alookup] at hv; exact absurd hv (by simp)⟩
  | cons kv rest ih =>
    obtain ⟨k0, v0⟩ := kv
    intro args m h
    rw [nestedOpDict_cons] at h
    cases h1 : nestedOp f b v0 (args.map (fun a =>
        if a.isMapping then (alookup a.contents k0).getD (NV.atom 0)
        else a)) with
    | error e => rw [h1] at h; exact absurd h (by simp)
    | ok w0 =>
      rw [h1] at h
      cases h2 : nestedOpDict f b rest args with
      | error e =>
        rw [h2] at h
        exact absurd h (by simp)
      | ok ws =>
        rw [h2] at h
        simp only [] at h
        injection h with h
        subst h
        obtain ⟨hkeys, hrec⟩ := ih args ws h2
        constructor
        · rw [keysOf, keysOf, List.map_cons, List.map_cons]
          rw [keysOf] at hkeys
          rw [keysOf] at hkeys
          rw [hkeys]
        · intro k v hv
          rw [alookup] at hv
          by_cases hk : k0 = k
          · rw [if_pos hk] at hv
            injection hv with hv
            subst hv
            subst hk
            exact ⟨w0, by rw [alookup, if_pos rfl], h1⟩
          · rw [if_neg hk] at hv
            obtain ⟨w, hw, hrecw⟩ := hrec k v hv
            exact ⟨w, by rw [alookup, if_neg hk]; exact hw, hrecw⟩

theorem headI_getD (l : List NV) : l.headI = l.getD 0 (NV.atom 0) := by
  cases l <;> rfl

theorem tail_getD {α : Type} (l : List α) (j : Nat) (d : α) :
    l.tail.getD j d = l.getD (j + 1) d := by
  cases l <;> simp [List.getD]

theorem nestedOpList_spec (f : NV → List NV → NV) (b : Bool) :
    ∀ (l : List NV) (args : List NV) (ws : List NV),
      nestedOpList f b l args = .ok ws →
      ws.length = l.length ∧
      ∀ j, j < l.length →
        nestedOp f b (l.getD j (NV.atom 0)) (args.map (fun a =>
          if a.isSeq then a.elems.getD j (NV.atom 0) else a)) =
          .ok (ws.getD j (NV.atom 0)) := by
  intro l
  induction l with
  | nil =>
    intro args ws h
    rw [nestedOpList_nil] at h
    injection h with h
    subst h
    exact ⟨rfl, by intro j hj; exact absurd hj (by simp)⟩
  | cons v rest ih =>
    intro args ws h
    rw [nestedOpList_cons] at h
    cases h1 : nestedOp f b v (args.map (fun a =>
        if a.isSeq then a.elems.headI else a)) with
    | error e => rw [h1] at h; exact absurd h (by simp)
    | ok w0 =>
      rw [h1] at h
      cases h2 : nestedOpList f b rest (args.map (fun a =>
          if a.isSeq then NV.lst a.elems.tail else a)) with
      | error e => rw [h2] at h; exact absurd h (by simp)
      | ok ws' =>
        rw [h2] at h
        simp only [] at h
        injection h with h
        subst h
        obtain ⟨hlen, hrec⟩ := ih _ ws' h2
        refine ⟨by simp [hlen], ?_⟩
        intro j hj
        cases j with
        | zero =>
          simp only [List.getD_cons_zero]
          rw [← h1]
          congr 1
          apply List.map_congr_left
          intro a _
          cases a with
          | atom n => simp [NV.isSeq]
          | dict d => simp [NV.isSeq]
          | lst l =>
            cases l with
            | nil =>
              simp [NV.isSeq, NV.elems, List.getD]
              try rfl
            | cons x xs =>
              simp [NV.isSeq, NV.elems, List.getD]
              try rfl
        | succ j' =>
          simp only [List.getD_cons_succ]
          have := hrec j' (by simpa using hj)
          rw [← this]
          congr 1
          rw [List.map_map]
          apply List.map_congr_left
          intro a _
          simp only [Function.comp]
          cases a with
          | atom n => simp [NV.isSeq]
          | dict d => simp [NV.isSeq]
          | lst l =>
            cases l with
            | nil =>
              simp [NV.isSeq, NV.elems, List.getD]
              try rfl
            | cons x xs =>
              simp [NV.isSeq, NV.elems, List.getD]
              try rfl

/-- C5 (amended): `nested_op` applies `func` at each leaf of `arg1`; with
`broadcast=False` it fails at a mapping (resp. sequence) node of `arg1` as
soon as some other argument is not a mapping with the same key set (resp.
not a sequence of the same length); with `broadcast=True` it still fails
when another argument is a container of the same kind but different shape,
while any argument that is not a container of the same kind as the node —
including a container of the other kind — is passed whole and unchanged
into the recursive call for every child. -/
theorem claim_C5_nested_op :
    (∀ (f : NV → List NV → NV) (b : Bool) (n : Nat) (args : List NV),
      nestedOp f b (.atom n) args = .ok (f (.atom n) args)) ∧
    (∀ (f : NV → List NV → NV) (d : List (Key × NV)) (args : List NV),
      (¬ ∀ a ∈ args, a.isMapping = true ∧ keySetEq a.contents d = true) →
      nestedOp f false (.dict d) args = .error ()) ∧
    (∀ (f : NV → List NV → NV) (l : List NV) (args : List NV),
      (¬ ∀ a ∈ args, a.isSeq = true ∧ a.elems.length = l.length) →
      nestedOp f false (.lst l) args = .error ()) ∧
    (∀ (f : NV → List NV → NV) (d : List (Key × NV)) (args : List NV),
      (∃ a ∈ args, a.isMapping = true ∧ keySetEq a.contents d = false) →
      nestedOp f true (.dict d) args = .error ()) ∧
    (∀ (f : NV → List NV → NV) (l : List NV) (args : List NV),
      (∃ a ∈ args, a.isSeq = true ∧ a.elems.length ≠ l.length) →
      nestedOp f true (.lst l) args = .error ()) ∧
    (∀ (f : NV → List NV → NV) (b : Bool) (d : List (Key × NV))
      (args : List NV) (r : NV),
      nestedOp f b (.dict d) args = .ok r →
      (∀ a ∈ args, a.isMapping = true → keySetEq a.contents d = true) ∧
      (b = false → ∀ a ∈ args, a.isMapping = true) ∧
      ∃ m, r = NV.dict m ∧ keysOf m = keysOf d ∧
        ∀ k v, alookup d k = some v → ∃ w, alookup m k = some w ∧
          nestedOp f b v (args.map (fun a =>
            if a.isMapping then (alookup a.contents k).getD (NV.atom 0)
            else a)) = .ok w) ∧
    (∀ (f : NV → List NV → NV) (b : Bool) (l : List NV)
      (args : List NV) (r : NV),
      nestedOp f b (.lst l) args = .ok r →
      (∀ a ∈ args, a.isSeq = true → a.elems.length = l.length) ∧
      (b = false → ∀ a ∈ args, a.isSeq = true) ∧
      ∃ ws, r = NV.lst ws ∧ ws.length = l.length ∧
        ∀ j, j < l.length →
          nestedOp f b (l.getD j (NV.atom 0)) (args.map (fun a =>
            if a.isSeq then a.elems.getD j (NV.atom 0) else a)) =
            .ok (ws.getD j (NV.atom 0))) := by
  refine ⟨nestedOp_atom, ?_, ?_, ?_, ?_, ?_, ?_⟩
  · intro f d args hbad
    rw [nestedOp_dict, if_neg Bool.false_ne_true]
    have hcond : ¬ ((args.all
        (fun a => a.isMapping && keySetEq a.contents d)) = true) := by
      simp only [List.all_eq_true, Bool.and_eq_true]
      exact fun hc => hbad fun a ha => hc a ha
    rw [if_neg hcond]
  · intro f l args hbad
    rw [nestedOp_lst, if_neg Bool.false_ne_true]
    have hcond : ¬ ((args.all
        (fun a => a.isSeq && (a.elems.length == l.length))) = true) := by
      simp only [List.all_eq_true, Bool.and_eq_true, beq_iff_eq]
      exact fun hc => hbad fun a ha => hc a ha
    rw [if_neg hcond]
  · intro f d args hbad
    obtain ⟨a, ha, ham, hak⟩ := hbad
    rw [nestedOp_dict, if_pos rfl]
    have hcond : ¬ ((args.all
        (fun a => !a.isMapping || keySetEq a.contents d)) = true) := by
      simp only [List.all_eq_true, Bool.or_eq_true, Bool.not_eq_true']
      intro hc
      rcases hc a ha with h | h
      · rw [ham] at h; exact absurd h (by simp)
      · rw [hak] at h; exact absurd h (by simp)
    rw [if_neg hcond]
  · intro f l args hbad
    obtain ⟨a, ha, has, hal⟩ := hbad
    rw [nestedOp_lst, if_pos rfl]
    have hcond : ¬ ((args.all
        (fun a => !a.isSeq || a.elems.length == l.length)) = true) := by
      simp only [List.all_eq_true, Bool.or_eq_true, Bool.not_eq_true',
        beq_iff_eq]
      intro hc
      rcases hc a ha with h | h
      · rw [has] at h; exact absurd h (by simp)
      · exact hal h
    rw [if_neg hcond]
  · intro f b d args r h
    rw [nestedOp_dict] at h
    by_cases hg : (if b then
        args.all (fun a => !a.isMapping || keySetEq a.contents d)
        else args.all (fun a => a.isMapping && keySetEq a.contents d)) = true
    · rw [if_pos hg] at h
      have hconds : (∀ a ∈ args, a.isMapping = true →
          keySetEq a.contents d = true) ∧
          (b = false → ∀ a ∈ args, a.isMapping = true) := by
        cases b with
        | true =>
          rw [if_pos rfl] at hg
          simp only [List.all_eq_true, Bool.or_eq_true,
            Bool.not_eq_true'] at hg
          refine ⟨fun a ha ham => ?_, by simp⟩
          rcases hg a ha with hx | hx
          · rw [ham] at hx; exact absurd hx (by simp)
          · exact hx
        | false =>
          rw [if_neg Bool.false_ne_true] at hg
          simp only [List.all_eq_true, Bool.and_eq_true] at hg
          exact ⟨fun a ha _ => (hg a ha).2, fun _ a ha => (hg a ha).1⟩
      refine ⟨hconds.1, hconds.2, ?_⟩
      cases hm : nestedOpDict f b d args with
      | error e => rw [hm] at h; exact absurd h (by simp [Except.map])
      | ok m =>
        rw [hm] at h
        simp only [Except.map] at h
        injection h with h
        obtain ⟨hkeys, hrec⟩ := nestedOpDict_spec f b d args m hm
        exact ⟨m, h.symm, hkeys, hrec⟩
    · rw [if_neg hg] at h
      exact absurd h (by simp)
  · intro f b l args r h
    rw [nestedOp_lst] at h
    by_cases hg : (if b then
        args.all (fun a => !a.isSeq || a.elems.length == l.length)
        else args.all (fun a => a.isSeq && (a.elems.length == l.length))) =
        true
    · rw [if_pos hg] at h
      have hconds : (∀ a ∈ args, a.isSeq = true →
          a.elems.length = l.length) ∧
          (b = false → ∀ a ∈ args, a.isSeq = true) := by
        cases b with
        | true =>
          rw [if_pos rfl] at hg
          simp only [List.all_eq_true, Bool.or_eq_true,
            Bool.not_eq_true', beq_iff_eq] at hg
          refine ⟨fun a ha has => ?_, by simp⟩
          rcases hg a ha with hx | hx
          · rw [has] at hx; exact absurd hx (by simp)
          · exact hx
        | false =>
          rw [if_neg Bool.false_ne_true] at hg
          simp only [List.all_eq_true, Bool.and_eq_true,
            beq_iff_eq] at hg
          exact ⟨fun a ha _ => (hg a ha).2, fun _ a ha => (hg a ha).1⟩
      refine ⟨hconds.1, hconds.2, ?_⟩
      cases hm : nestedOpList f b l args with
      | error e => rw [hm] at h; exact absurd h (by simp [Except.map])
      | ok ws =>
        rw [hm] at h
        simp only [Except.map] at h
        injection h with h
        obtain ⟨hlen, hrec⟩ := nestedOpList_spec f b l args ws hm
        exact ⟨ws, h.symm, hlen, hrec⟩
    · rw [if_neg hg] at h
      exact absurd h (by simp)

theorem claim_C5_nested_op_witness :
    nestedOp (fun a args => NV.lst (a :: args)) false
      (NV.dict [(['a'], NV.atom 1)]) [NV.lst [NV.atom 1]] = .error () :=
  claim_C5_nested_op.2.1 (fun a args => NV.lst (a :: args))
    [(['a'], NV.atom 1)] [NV.lst [NV.atom 1]]
    (by simp [NV.isMapping])

/-- C5 counterexample to the original claim: at a mapping node with
`broadcast=True`, a *sequence* argument — a container, of different kind
and shape — does not cause failure: it is broadcast whole.
`nested_op(f, {'a': 1}, [1, 2], broadcast=True)` succeeds, with the list
`[1, 2]` handed unchanged to `f` at the leaf. -/
theorem claim_C5_counterexample :
    (NV.lst [NV.atom 1, NV.atom 2]).isSeq = true ∧
    (NV.lst [NV.atom 1, NV.atom 2]).isMapping = false ∧
    (NV.lst [NV.atom 1, NV.atom 2]).elems.length ≠
      (keysOf [((['a'] : Key), NV.atom 1)]).length ∧
    nestedOp (fun a args => NV.lst (a :: args)) true
      (NV.dict [(['a'], NV.atom 1)]) [NV.lst [NV.atom 1, NV.atom 2]] =
      .ok (NV.dict [(['a'],
        NV.lst [NV.atom 1, NV.lst [NV.atom 1, NV.atom 2]])]) := by
  refine ⟨rfl, rfl, by simp [NV.elems, keysOf], ?_⟩
  simp [nestedOp, nestedOpDict, keySetEq, keysOf, NV.isMapping, NV.isSeq,
    NV.contents, NV.elems, alookup, Except.map]


/-! ### `get_by_path` (`paderbox/utils/nested.py`, lines 418-489)

`_get_by_path(d, path, allow_partial_path)` walks `d` component by
component; `get_by_path(d, path, allow_partial_path=..., sep=...,
default=...)` dispatches on the path argument (`None`, dotted string, or
tuple) and turns `KeyError`/`IndexError` into the default when one is
supplied.  `pyIndex` models one Python indexing step `d[k]`:  a missing
dict key raises `KeyError` (also for an integer key on a string-keyed
dict), sequence indexing supports negative indices and raises `IndexError`
out of range, indexing a sequence with a string or indexing a leaf raises
`TypeError`. -/

/-- A path component of a tuple path: a string key or an integer index. -/
inductive PKey where
  | str : Key → PKey
  | idx : Int → PKey

/-- The exceptions an indexing step can raise. -/
inductive PyErr where
  | keyError : PyErr
  | indexError : PyErr
  | typeError : PyErr
deriving DecidableEq, Repr

/-- One Python indexing step `d[k]`. -/
def pyIndex : NV → PKey → Except PyErr NV
  | .dict m, .str s =>
      match alookup m s with
      | some v => .ok v
      | none => .error .keyError
  | .dict _, .idx _ => .error .keyError
  | .lst l, .idx i =>
      let j : Int := if i < 0 then i + l.length else i
      if 0 ≤ j ∧ j < l.length then .ok (l.getD j.toNat (NV.atom 0))
      else .error .indexError
  | .lst _, .str _ => .error .typeError
  | .atom _, _ => .error .typeError

/-- `_get_by_path`: `for k in path: try: d = d[k] except Exception:
if allow_partial_path and not isinstance(d, Mapping): return d; raise`. -/
def getByPathAux (d : NV) (path : List PKey) (ap : Bool) :
    Except PyErr NV :=
  match path with
  | [] => .ok d
  | k :: rest =>
      match pyIndex d k with
      | .ok v => getByPathAux v rest ap
      | .error e =>
          if ap = true ∧ d.isMapping = false then .ok d else .error e

/-- The `path` argument of `get_by_path`: `None`, a dotted string, or a
tuple of keys. -/
inductive PathArg where
  | none : PathArg
  | str : Key → PathArg
  | tup : List PKey → PathArg

/-- The `try: return _get_by_path(...) except (KeyError, IndexError)` body
of `get_by_path`: only those two exception kinds are replaced by the
default; `TypeError` always propagates. -/
def getByPathRun (d : NV) (p : List PKey) (ap : Bool)
    (default : Option NV) : Except PyErr NV :=
  match getByPathAux d p ap with
  | .ok v => .ok v
  | .error e =>
      match e, default with
      | .keyError, some dv => .ok dv
      | .indexError, some dv => .ok dv
      | _, _ => .error e

/-- `get_by_path`: `None` returns `d` unchanged; a string path is split on
`sep`; a tuple path is used as is. -/
def getByPath (d : NV) (path : PathArg) (ap : Bool) (sep : Key)
    (default : Option NV) : Except PyErr NV :=
  match path with
  | .none => .ok d
  | .str s => getByPathRun d ((pySplit sep (-1) s).map PKey.str) ap default
  | .tup p => getByPathRun d p ap default

/-- C6 (amended): indexing proceeds component by component; on an indexing
failure, if `allow_partial_path` is true and the value at the point of
failure is not a mapping, the value reached so far is returned; otherwise
the exception propagates to the wrapper, where a supplied default is
returned only for `KeyError` and `IndexError` — a `TypeError` (e.g.
indexing a list with a string key, or indexing a leaf) propagates even
when a default is supplied. -/
theorem claim_C6_get_by_path :
    (∀ (d : NV) (k : PKey) (rest : List PKey) (ap : Bool) (v : NV),
      pyIndex d k = .ok v →
      getByPathAux d (k :: rest) ap = getByPathAux v rest ap) ∧
    (∀ (d : NV) (k : PKey) (rest : List PKey) (e : PyErr),
      pyIndex d k = .error e → d.isMapping = false →
      getByPathAux d (k :: rest) true = .ok d) ∧
    (∀ (d : NV) (k : PKey) (rest : List PKey) (ap : Bool) (e : PyErr),
      pyIndex d k = .error e → ¬ (ap = true ∧ d.isMapping = false) →
      getByPathAux d (k :: rest) ap = .error e) ∧
    (∀ (d : NV) (p : List PKey) (ap : Bool) (v : NV),
      getByPathAux d p ap = .ok v →
      ∀ default, getByPathRun d p ap default = .ok v) ∧
    (∀ (d : NV) (p : List PKey) (ap : Bool) (e : PyErr) (dv : NV),
      getByPathAux d p ap = .error e → e ≠ .typeError →
      getByPathRun d p ap (some dv) = .ok dv) ∧
    (∀ (d : NV) (p : List PKey) (ap : Bool) (dflt : Option NV),
      getByPathAux d p ap = .error .typeError →
      getByPathRun d p ap dflt = .error .typeError) ∧
    (∀ (d : NV) (p : List PKey) (ap : Bool) (e : PyErr),
      getByPathAux d p ap = .error e →
      getByPathRun d p ap none = .error e) := by
  refine ⟨?_, ?_, ?_, ?_, ?_, ?_, ?_⟩
  · intro d k rest ap v h
    rw [getByPathAux, h]
  · intro d k rest e h hm
    rw [getByPathAux, h]
    exact if_pos ⟨rfl, hm⟩
  · intro d k rest ap e h hn
    rw [getByPathAux, h]
    exact if_neg hn
  · intro d p ap v h default
    rw [getByPathRun, h]
  · intro d p ap e dv h ht
    rw [getByPathRun, h]
    cases e with
    | keyError => rfl
    | indexError => rfl
    | typeError => exact absurd rfl ht
  · intro d p ap dflt h
    rw [getByPathRun, h]
  · intro d p ap e h
    rw [getByPathRun, h]
    cases e <;> rfl

theorem claim_C6_get_by_path_witness :
    getByPathRun (NV.dict [(['c'], NV.dict [(['d'], NV.atom 1)])])
      [PKey.str ['c'], PKey.str ['x']] false (some (NV.atom 42)) =
      .ok (NV.atom 42) :=
  claim_C6_get_by_path.2.2.2.2.1
    (NV.dict [(['c'], NV.dict [(['d'], NV.atom 1)])])
    [PKey.str ['c'], PKey.str ['x']] false PyErr.keyError (NV.atom 42)
    rfl (by decide)

/-- C6 counterexample to the original claim: the claim says that on an
indexing failure without broadcast, a supplied default is returned.  But
`get_by_path({'a': [1]}, 'a.b', default=42)` raises `TypeError` (list
indices must be integers), which the wrapper's
`except (KeyError, IndexError)` does not catch, so the default is ignored
and the call fails. -/
theorem claim_C6_counterexample :
    getByPath (NV.dict [(['a'], NV.lst [NV.atom 1])])
      (PathArg.str ['a', '.', 'b']) false ['.']
      (some (NV.atom 42)) = .error .typeError := by
  rw [getByPath]
  have hs : pySplit ['.'] (-1) ['a', '.', 'b'] = [['a'], ['b']] := by
    simp [pySplit, findSub, List.isPrefixOf]
  rw [hs]
  rfl

/-- C10: `get_by_path(d, None)` returns `d` itself without attempting any
indexing, regardless of `allow_partial_path`, `sep`, and `default`. -/
theorem claim_C10_path_none :
    ∀ (d : NV) (ap : Bool) (sep : Key) (default : Option NV),
      getByPath d PathArg.none ap sep default = .ok d := by
  intro d ap sep default
  rw [getByPath]

/-! ### `nested_any` / `nested_all` (`paderbox/utils/nested.py`, lines 530-603)

`nested_any(x, fn)` runs `nested_op(_local, x)` with a `_local` that raises
a private `StopException` at the first leaf where `fn` holds, returning
`True` iff the exception was raised; `nested_all(x, fn)` is
`not nested_any(x, fn=lambda v: not fn(v))`.  With a single structure and
no further arguments, `nested_op`'s structure asserts are `all([])` and
always pass, so the traversal is a plain depth-first walk of the leaves.
`anyRun fn x` models this walk in `Except Nat Nat`: `.error c` means the
stop-exception was raised after evaluating `fn` on `c` leaves, `.ok c`
means the walk completed with `c` evaluations — the count makes the
short-circuit observable. -/

/-- The leaves of a nested structure, in traversal order (values that are
neither mappings nor sequences). -/
def leaves : NV → List NV
  | .atom n => [.atom n]
  | .dict [] => []
  | .dict ((_, v) :: rest) => leaves v ++ leaves (.dict rest)
  | .lst [] => []
  | .lst (v :: rest) => leaves v ++ leaves (.lst rest)
termination_by x => sizeOf x
decreasing_by all_goals (simp; try omega)

/-- Sequencing of two traversal legs: a raised `StopException` in the
first leg skips the second; otherwise the evaluation counts add up. -/
def exCombine : Except Nat Nat → Except Nat Nat → Except Nat Nat
  | .error c, _ => .error c
  | .ok c, .error c2 => .error (c + c2)
  | .ok c, .ok c2 => .ok (c + c2)

/-- The `nested_op(_local, x)` traversal of `nested_any`. -/
def anyRun (fn : NV → Bool) : NV → Except Nat Nat
  | .atom n => if fn (.atom n) then .error 1 else .ok 1
  | .dict [] => .ok 0
  | .dict ((_, v) :: rest) => exCombine (anyRun fn v) (anyRun fn (.dict rest))
  | .lst [] => .ok 0
  | .lst (v :: rest) => exCombine (anyRun fn v) (anyRun fn (.lst rest))
termination_by x => sizeOf x
decreasing_by all_goals (simp; try omega)

/-- `nested_any(x, fn)`: true iff the traversal raised. -/
def nestedAny (x : NV) (fn : NV → Bool) : Bool :=
  match anyRun fn x with
  | .error _ => true
  | .ok _ => false

/-- `nested_all(x, fn) = not nested_any(x, fn=lambda v: not fn(v))`. -/
def nestedAll (x : NV) (fn : NV → Bool) : Bool :=
  !(nestedAny x (fun v => !(fn v)))

theorem takeWhile_append_all {α : Type} (p : α → Bool) {A : List α}
    (B : List α) (h : ∀ a ∈ A, p a = true) :
    (A ++ B).takeWhile p = A ++ B.takeWhile p := by
  induction A with
  | nil => simp
  | cons a t ih =>
    rw [List.cons_append, List.takeWhile_cons, if_pos (h a (by simp)),
      ih (fun a ha => h a (by simp [ha]))]
    rfl

theorem takeWhile_append_stop {α : Type} (p : α → Bool) {A : List α}
    (B : List α) (h : ¬ ∀ a ∈ A, p a = true) :
    (A ++ B).takeWhile p = A.takeWhile p := by
  induction A with
  | nil => exact absurd (by simp) h
  | cons a t ih =>
    rw [List.cons_append, List.takeWhile_cons, List.takeWhile_cons]
    by_cases hp : p a = true
    · have hne : ¬ ∀ a ∈ t, p a = true := by
        intro hc
        apply h
        intro b hb
        rcases List.mem_cons.mp hb with h1 | h1
        · rw [h1]; exact hp
        · exact hc b h1
      rw [if_pos hp, if_pos hp, ih hne]
    · rw [if_neg hp, if_neg hp]

theorem anyRun_spec (fn : NV → Bool) : ∀ x : NV,
    ((∀ v ∈ leaves x, fn v = false) ∧
      anyRun fn x = .ok (leaves x).length) ∨
    ((∃ v ∈ leaves x, fn v = true) ∧
      anyRun fn x = .error
        (((leaves x).takeWhile (fun v => !(fn v))).length + 1)) := by
  have hcons : ∀ (A B : List NV) (ra rb : Except Nat Nat),
      (((∀ v ∈ A, fn v = false) ∧ ra = .ok A.length) ∨
        ((∃ v ∈ A, fn v = true) ∧
          ra = .error ((A.takeWhile (fun v => !(fn v))).length + 1))) →
      (((∀ v ∈ B, fn v = false) ∧ rb = .ok B.length) ∨
        ((∃ v ∈ B, fn v = true) ∧
          rb = .error ((B.takeWhile (fun v => !(fn v))).length + 1))) →
      (((∀ v ∈ A ++ B, fn v = false) ∧
          exCombine ra rb = .ok (A ++ B).length) ∨
        ((∃ v ∈ A ++ B, fn v = true) ∧
          exCombine ra rb = .error
            (((A ++ B).takeWhile (fun v => !(fn v))).length + 1))) := by
    intro A B ra rb h1 h2
    rcases h1 with ⟨hall1, hra⟩ | ⟨hex1, hra⟩
    · rcases h2 with ⟨hall2, hrb⟩ | ⟨hex2, hrb⟩
      · left
        subst hra
        subst hrb
        refine ⟨?_, by rw [exCombine]; simp⟩
        intro w hw
        rcases List.mem_append.mp hw with h1 | h1
        exacts [hall1 w h1, hall2 w h1]
      · right
        subst hra
        subst hrb
        refine ⟨?_, ?_⟩
        · obtain ⟨w, hw, hfw⟩ := hex2
          exact ⟨w, List.mem_append.mpr (Or.inr hw), hfw⟩
        · rw [exCombine]
          rw [takeWhile_append_all _ _ (by intro a ha; simp [hall1 a ha])]
          simp only [List.length_append]
          congr 1
          try omega
    · right
      subst hra
      refine ⟨?_, ?_⟩
      · obtain ⟨w, hw, hfw⟩ := hex1
        exact ⟨w, List.mem_append.mpr (Or.inl hw), hfw⟩
      · have hne : ¬ ∀ a ∈ A, (fun v => !(fn v)) a = true := by
          intro hc
          obtain ⟨w, hw, hfw⟩ := hex1
          have h3 := hc w hw
          simp only [Bool.not_eq_true'] at h3
          rw [hfw] at h3
          exact absurd h3 (by simp)
        rw [takeWhile_append_stop _ _ hne]
        cases rb with
        | error c2 => rw [exCombine]
        | ok c2 => rw [exCombine]
  intro x
  induction x using anyRun.induct fn with
  | case1 n h =>
    right
    refine ⟨⟨.atom n, by rw [leaves]; simp, h⟩, ?_⟩
    rw [anyRun, if_pos h, leaves, List.takeWhile_cons]
    simp [h]
  | case2 n h =>
    left
    refine ⟨?_, ?_⟩
    · intro v hv
      rw [leaves] at hv
      simp at hv
      rw [hv]
      simpa using h
    · rw [anyRun, if_neg h, leaves]
      rfl
  | case3 =>
    left
    refine ⟨by rw [leaves]; simp, by rw [anyRun, leaves]; rfl⟩
  | case4 k v rest ih1 ih2 =>
    rw [anyRun, leaves]
    exact hcons _ _ _ _ ih1 ih2
  | case5 =>
    left
    refine ⟨by rw [leaves]; simp, by rw [anyRun, leaves]; rfl⟩
  | case6 v rest ih1 ih2 =>
    rw [anyRun, leaves]
    exact hcons _ _ _ _ ih1 ih2

/-- C8: `nested_any(x, fn)` is true iff `fn` holds on some leaf of `x`;
`nested_all` is the negation of `nested_any` of the pointwise negation, and
holds iff `fn` holds on every leaf; the traversal stops at the first leaf
on which the predicate succeeds: it evaluates `fn` exactly on the leaves up
to and including the first success (or on all leaves when there is none). -/
theorem claim_C8_any_all :
    (∀ (x : NV) (fn : NV → Bool),
      nestedAny x fn = true ↔ ∃ v ∈ leaves x, fn v = true) ∧
    (∀ (x : NV) (fn : NV → Bool),
      nestedAll x fn = !(nestedAny x (fun v => !(fn v)))) ∧
    (∀ (x : NV) (fn : NV → Bool),
      nestedAll x fn = true ↔ ∀ v ∈ leaves x, fn v = true) ∧
    (∀ (x : NV) (fn : NV → Bool), (∃ v ∈ leaves x, fn v = true) →
      anyRun fn x = .error
        (((leaves x).takeWhile (fun v => !(fn v))).length + 1)) ∧
    (∀ (x : NV) (fn : NV → Bool), (∀ v ∈ leaves x, fn v = false) →
      anyRun fn x = .ok (leaves x).length) := by
  have hany : ∀ (x : NV) (fn : NV → Bool),
      nestedAny x fn = true ↔ ∃ v ∈ leaves x, fn v = true := by
    intro x fn
    rcases anyRun_spec fn x with ⟨hall, hrun⟩ | ⟨hex, hrun⟩
    · rw [nestedAny, hrun]
      refine iff_of_false (by simp) ?_
      rintro ⟨v, hv, hfv⟩
      rw [hall v hv] at hfv
      exact absurd hfv (by simp)
    · rw [nestedAny, hrun]
      exact ⟨fun _ => hex, fun _ => rfl⟩
  refine ⟨hany, fun x fn => rfl, ?_, ?_, ?_⟩
  · intro x fn
    rw [nestedAll]
    constructor
    · intro h v hv
      by_contra hc
      have : nestedAny x (fun v => !(fn v)) = true :=
        (hany x _).mpr ⟨v, hv, by simp [hc]⟩
      rw [this] at h
      exact absurd h (by simp)
    · intro h
      have : ¬ nestedAny x (fun v => !(fn v)) = true := by
        rw [hany x _]
        rintro ⟨v, hv, hfv⟩
        rw [h v hv] at hfv
        exact absurd hfv (by simp)
      simp only [Bool.not_eq_true] at this
      rw [this]
      rfl
  · intro x fn hex
    rcases anyRun_spec fn x with ⟨hall, _⟩ | ⟨_, hrun⟩
    · obtain ⟨v, hv, hfv⟩ := hex
      rw [hall v hv] at hfv
      exact absurd hfv (by simp)
    · exact hrun
  · intro x fn hall
    rcases anyRun_spec fn x with ⟨_, hrun⟩ | ⟨hex, _⟩
    · exact hrun
    · obtain ⟨v, hv, hfv⟩ := hex
      rw [hall v hv] at hfv
      exact absurd hfv (by simp)

theorem claim_C8_any_all_witness :
    anyRun NV.isMapping (NV.lst [NV.atom 1, NV.atom 2]) =
      .ok (leaves (NV.lst [NV.atom 1, NV.atom 2])).length :=
  claim_C8_any_all.2.2.2.2 (NV.lst [NV.atom 1, NV.atom 2]) NV.isMapping
    (by simp [leaves, NV.isMapping])


/-! ### `get_filterbanks` (`paderbox/transform/module_fbank.py`, lines
151-193, and `nt/transform/fbank.py`, lines 59-93)

The paderbox version executes
`raise AssertionError('This function is wrong. Use e.g. librosa. ...')`
as its first statement, before the `highfreq` defaulting and the Nyquist
assert, so every call raises regardless of the arguments.  The nt version
performs `highfreq = highfreq or sample_rate/2` (Python `or`: `0`/`None`
are falsy and give the Nyquist default) and then
`assert highfreq <= sample_rate/2`; on success it fills a
`number_of_filters x (nfft/2+1)` zero matrix with the two triangular
ramps of each filter.  Frequencies are modelled as `ℚ`; the two
transcendental conversions `hz2mel`/`mel2hz` enter as function parameters
(their values do not affect the error behaviour or the shape). -/

/-- The paderbox `get_filterbanks`: the body raises before looking at any
argument. -/
def getFilterbanksPB (_nfilt _nfft : Nat) (_sr _lowfreq _highfreq : ℚ) :
    Except Unit (List (List ℚ)) :=
  .error ()

/-- `numpy.linspace(lo, hi, n+1)` evaluated at sample `t` (0-based,
`n` intervals). -/
def linspacePt (lo hi : ℚ) (n : Nat) (t : Nat) : ℚ :=
  lo + (hi - lo) * t / n

/-- Entry `(j, i)` of the nt filterbank matrix: the second loop writes the
falling ramp on `[bin (j+1), bin (j+2))`, the first the rising ramp on
`[bin j, bin (j+1))` (the two ranges are disjoint), everything else stays
at the `numpy.zeros` initial value. -/
def fbEntry (bin : Nat → Int) (j i : Nat) : ℚ :=
  if bin (j + 1) ≤ (i : Int) ∧ (i : Int) < bin (j + 2) then
    ((bin (j + 2) : ℚ) - i) / ((bin (j + 2) : ℚ) - (bin (j + 1) : ℚ))
  else if bin j ≤ (i : Int) ∧ (i : Int) < bin (j + 1) then
    ((i : ℚ) - (bin j : ℚ)) / ((bin (j + 1) : ℚ) - (bin j : ℚ))
  else 0

/-- The nt `get_filterbanks` (`highfreq or sample_rate/2` written out at
its two use sites). -/
def getFilterbanksNT (hz2mel mel2hz : ℚ → ℚ) (nfilt nfft : Nat)
    (sr lowfreq highfreq : ℚ) : Except Unit (List (List ℚ)) :=
  if (if highfreq = 0 then sr / 2 else highfreq) ≤ sr / 2 then
    .ok ((List.range nfilt).map (fun j =>
      (List.range (nfft / 2 + 1)).map (fun i => fbEntry (fun t =>
        Int.floor ((nfft + 1 : ℚ) *
          mel2hz (linspacePt (hz2mel lowfreq)
            (hz2mel (if highfreq = 0 then sr / 2 else highfreq))
            (nfilt + 1) t) / sr)) j i)))
  else .error ()

/-- C9 (amended): the paderbox `get_filterbanks` raises unconditionally —
even when `highfreq` is at most the Nyquist frequency — because an
unconditional `raise AssertionError('This function is wrong. ...')`
precedes all checks.  The claimed behaviour holds only for the nt version:
it raises exactly when the effective `highfreq` (defaulting to
`sample_rate/2` when falsy) exceeds `sample_rate/2`, and otherwise returns
the filterbank matrix of shape `number_of_filters x (nfft/2+1)` without
raising. -/
theorem claim_C9_filterbanks :
    (∀ (nfilt nfft : Nat) (sr lowfreq highfreq : ℚ),
      getFilterbanksPB nfilt nfft sr lowfreq highfreq = .error ()) ∧
    (∀ (hz2mel mel2hz : ℚ → ℚ) (nfilt nfft : Nat)
      (sr lowfreq highfreq : ℚ),
      (¬ (if highfreq = 0 then sr / 2 else highfreq) ≤ sr / 2 →
        getFilterbanksNT hz2mel mel2hz nfilt nfft sr lowfreq highfreq =
          .error ()) ∧
      ((if highfreq = 0 then sr / 2 else highfreq) ≤ sr / 2 →
        ∃ m, getFilterbanksNT hz2mel mel2hz nfilt nfft sr lowfreq highfreq =
            .ok m ∧ m.length = nfilt ∧
            ∀ row ∈ m, row.length = nfft / 2 + 1)) := by
  constructor
  · intro nfilt nfft sr lowfreq highfreq
    rfl
  · intro hz2mel mel2hz nfilt nfft sr lowfreq highfreq
    constructor
    · intro hgt
      rw [getFilterbanksNT]
      exact if_neg hgt
    · intro hle
      rw [getFilterbanksNT, if_pos hle]
      refine ⟨_, rfl, by simp, ?_⟩
      intro row hrow
      simp only [List.mem_map] at hrow
      obtain ⟨j, _, hj⟩ := hrow
      rw [← hj]
      simp

theorem claim_C9_filterbanks_witness :
    ∃ m, getFilterbanksNT id id 20 512 16000 50 0 = .ok m ∧
      m.length = 20 ∧ ∀ row ∈ m, row.length = 512 / 2 + 1 :=
  (claim_C9_filterbanks.2 id id 20 512 16000 50 0).2 (by simp)

/-- C9 counterexample to the original claim: a call to the paderbox
`get_filterbanks` with `highfreq = 8000` at most the Nyquist frequency
`16000/2` still raises. -/
theorem claim_C9_counterexample :
    (8000 : ℚ) ≤ 16000 / 2 ∧
    getFilterbanksPB 20 1024 16000 0 8000 = .error () :=
  ⟨by norm_num, rfl⟩

/-! ### `nested_merge` and `inplace` (`paderbox/utils/nested.py`, lines
196-200 and 238-244)

The pure model `nmerge` above cannot express the claim about mutation, so
here the same function is embedded against an explicit heap: dict objects
live at `Nat` addresses, `copy.copy(default_dict)` allocates a fresh
address holding the same entry list (a shallow copy), and
`default_dict[k] = ...` writes through the target address.  With
`inplace=True` the target is `default_dict` itself and the recursive
merges also mutate in place; the recursion is fueled (`hgetv` consumes one
unit per recursive merge), which changes nothing about a run that
returns `.ok`. -/

inductive HV where
  | atom : Nat → HV
  | ref : Nat → HV
deriving DecidableEq, Repr

abbrev HDict := List (Key × HV)

abbrev Heap := List (Nat × HDict)

def lookupH (h : Heap) (a : Nat) : HDict := (alookup h a).getD []

def HV.isRef : HV → Bool
  | .ref _ => true
  | _ => false

def HV.addrOf : HV → Nat
  | .ref a => a
  | _ => 0

def freshA (h : Heap) : Nat := (h.map Prod.fst).foldr max 0 + 1

theorem le_foldr_max (l : List Nat) : ∀ x ∈ l, x ≤ l.foldr max 0 := by
  induction l with
  | nil => simp
  | cons a t ih =>
    intro x hx
    rcases List.mem_cons.mp hx with h1 | h1
    · subst h1
      exact le_max_iff.mpr (Or.inl le_rfl)
    · exact le_trans (ih x h1) (le_max_iff.mpr (Or.inr le_rfl))

theorem alookup_freshA (h : Heap) : alookup h (freshA h) = none := by
  rw [alookup_eq_none]
  intro hmem
  have := le_foldr_max (h.map Prod.fst) (freshA h) hmem
  rw [freshA] at this
  omega

def hCollect (h : Heap) (ds : List Nat) (k : Key) : List HV :=
  (ds.map (fun d => lookupH h d)).filterMap (fun d => alookup d k)

def hTrailingRun (vs : List HV) : List HV :=
  (vs.reverse.takeWhile HV.isRef).reverse

def HV.isAtom : HV → Bool
  | .atom _ => true
  | _ => false

mutual

def hnmerge (fuel : Nat) (d0 : Nat) (us : List Nat) (allow inplace : Bool)
    (h : Heap) : Except Unit (Nat × Heap) :=
  match us with
  | [] =>
      if inplace then .ok (d0, h)
      else .ok (freshA h, aset h (freshA h) (lookupH h d0))
  | u :: ut =>
      if inplace then
        hassign fuel (d0 :: u :: ut) allow inplace
          ((d0 :: u :: ut).flatMap (fun d => keysOf (lookupH h d))) d0 h
      else
        hassign fuel (d0 :: u :: ut) allow inplace
          ((d0 :: u :: ut).flatMap (fun d => keysOf (lookupH h d)))
          (freshA h) (aset h (freshA h) (lookupH h d0))
termination_by (fuel, 2, 0)

def hassign (fuel : Nat) (ds : List Nat) (allow inplace : Bool)
    (ks : List Key) (tgt : Nat) (h : Heap) : Except Unit (Nat × Heap) :=
  match ks with
  | [] => .ok (tgt, h)
  | k :: rest =>
      match hgetv fuel ds allow inplace k h with
      | .error e => .error e
      | .ok (v, h2) =>
          hassign fuel ds allow inplace rest tgt
            (aset h2 tgt (aset (lookupH h2 tgt) k v))
termination_by (fuel, 1, ks.length)

def hgetv (fuel : Nat) (ds : List Nat) (allow inplace : Bool) (k : Key)
    (h : Heap) : Except Unit (HV × Heap) :=
  match (hCollect h ds k).getLast? with
  | none => .error ()
  | some last =>
      if last.isRef then
        if allow = false ∧
            (hTrailingRun (hCollect h ds k)).length ≠
              (hCollect h ds k).length then .error ()
        else
          match fuel with
          | 0 => .error ()
          | fuel' + 1 =>
              match hTrailingRun (hCollect h ds k) with
              | [] => .error ()
              | r0 :: rs =>
                  match hnmerge fuel' r0.addrOf (rs.map HV.addrOf) allow
                      inplace h with
                  | .error e => .error e
                  | .ok (a, h2) => .ok (HV.ref a, h2)
      else
        if allow then .ok (last, h)
        else
          if ((if (hCollect h ds k).all HV.isAtom then
              (hCollect h ds k).dedup else hCollect h ds k)).length = 1 then
            .ok (last, h)
          else .error ()
termination_by (fuel, 0, 0)

end

theorem hassign_addr :
    ∀ (ks : List Key) (fuel : Nat) (ds : List Nat) (allow inplace : Bool)
      (tgt : Nat) (h : Heap) (r : Nat) (h' : Heap),
      hassign fuel ds allow inplace ks tgt h = .ok (r, h') → r = tgt := by
  intro ks
  induction ks with
  | nil =>
    intro fuel ds allow inplace tgt h r h' hok
    rw [hassign] at hok
    injection hok with hok
    injection hok with e1 e2
    exact e1.symm
  | cons k rest ih =>
    intro fuel ds allow inplace tgt h r h' hok
    rw [hassign] at hok
    cases hg : hgetv fuel ds allow inplace k h with
    | error e => rw [hg] at hok; exact absurd hok (by simp)
    | ok p =>
      obtain ⟨v, h2⟩ := p
      rw [hg] at hok
      exact ih fuel ds allow inplace tgt _ r h' hok

def HmP (n : Nat) : Prop :=
  ∀ (d0 : Nat) (us : List Nat) (allow : Bool) (h : Heap) (a : Nat)
    (h' : Heap),
    hnmerge n d0 us allow false h = .ok (a, h') →
    (∀ b, (alookup h b).isSome → alookup h' b = alookup h b) ∧
    alookup h a = none

def HgP (n : Nat) : Prop :=
  ∀ (ds : List Nat) (allow : Bool) (k : Key) (h : Heap) (v : HV)
    (h2 : Heap),
    hgetv n ds allow false k h = .ok (v, h2) →
    ∀ b, (alookup h b).isSome → alookup h2 b = alookup h b

def HaP (n : Nat) : Prop :=
  ∀ (ks : List Key) (ds : List Nat) (allow : Bool) (tgt : Nat) (h : Heap)
    (r : Nat) (h' : Heap),
    hassign n ds allow false ks tgt h = .ok (r, h') →
    ∀ b, b ≠ tgt → (alookup h b).isSome → alookup h' b = alookup h b

theorem hgetv_zero_frame : HgP 0 := by
  intro ds allow k h v h2 hok b hb
  rw [hgetv] at hok
  cases hlast : (hCollect h ds k).getLast? with
  | none => rw [hlast] at hok; exact absurd hok (by simp)
  | some last =>
    rw [hlast] at hok
    simp only [] at hok
    by_cases hr : last.isRef = true
    · rw [if_pos hr] at hok
      by_cases hbad : allow = false ∧
          (hTrailingRun (hCollect h ds k)).length ≠ (hCollect h ds k).length
      · rw [if_pos hbad] at hok
        exact absurd hok (by simp)
      · rw [if_neg hbad] at hok
        exact absurd hok (by simp)
    · rw [if_neg hr] at hok
      by_cases hal : allow = true
      · rw [hal, if_pos rfl] at hok
        injection hok with hok
        injection hok with e1 e2
        rw [← e2]
      · rw [Bool.not_eq_true] at hal
        rw [hal, if_neg (by simp)] at hok
        by_cases hlen : ((if (hCollect h ds k).all HV.isAtom then
            (hCollect h ds k).dedup else hCollect h ds k)).length = 1
        · rw [if_pos hlen] at hok
          injection hok with hok
          injection hok with e1 e2
          rw [← e2]
        · rw [if_neg hlen] at hok
          exact absurd hok (by simp)

theorem hgetv_succ_frame (n : Nat) (hm : HmP n) : HgP (n + 1) := by
  intro ds allow k h v h2 hok b hb
  rw [hgetv] at hok
  cases hlast : (hCollect h ds k).getLast? with
  | none => rw [hlast] at hok; exact absurd hok (by simp)
  | some last =>
    rw [hlast] at hok
    simp only [] at hok
    by_cases hr : last.isRef = true
    · rw [if_pos hr] at hok
      by_cases hbad : allow = false ∧
          (hTrailingRun (hCollect h ds k)).length ≠ (hCollect h ds k).length
      · rw [if_pos hbad] at hok
        exact absurd hok (by simp)
      · rw [if_neg hbad] at hok
        cases hrun : hTrailingRun (hCollect h ds k) with
        | nil => rw [hrun] at hok; exact absurd hok (by simp)
        | cons r0 rs =>
          rw [hrun] at hok
          simp only [] at hok
          cases hm2 : hnmerge n r0.addrOf (rs.map HV.addrOf) allow false h
              with
          | error e => rw [hm2] at hok; exact absurd hok (by simp)
          | ok p =>
            obtain ⟨a2, h3⟩ := p
            rw [hm2] at hok
            injection hok with hok
            injection hok with e1 e2
            rw [← e2]
            exact (hm r0.addrOf (rs.map HV.addrOf) allow h a2 h3 hm2).1 b hb
    · rw [if_neg hr] at hok
      by_cases hal : allow = true
      · rw [hal, if_pos rfl] at hok
        injection hok with hok
        injection hok with e1 e2
        rw [← e2]
      · rw [Bool.not_eq_true] at hal
        rw [hal, if_neg (by simp)] at hok
        by_cases hlen : ((if (hCollect h ds k).all HV.isAtom then
            (hCollect h ds k).dedup else hCollect h ds k)).length = 1
        · rw [if_pos hlen] at hok
          injection hok with hok
          injection hok with e1 e2
          rw [← e2]
        · rw [if_neg hlen] at hok
          exact absurd hok (by simp)

theorem hassign_frame (n : Nat) (hg : HgP n) : HaP n := by
  intro ks
  induction ks with
  | nil =>
    intro ds allow tgt h r h' hok b hne hb
    rw [hassign] at hok
    injection hok with hok
    injection hok with e1 e2
    rw [← e2]
  | cons k rest ih =>
    intro ds allow tgt h r h' hok b hne hb
    rw [hassign] at hok
    cases hgv : hgetv n ds allow false k h with
    | error e => rw [hgv] at hok; exact absurd hok (by simp)
    | ok p =>
      obtain ⟨v, h2⟩ := p
      rw [hgv] at hok
      have hfr1 : alookup h2 b = alookup h b := hg ds allow k h v h2 hgv b hb
      have hb2 : (alookup h2 b).isSome := by rw [hfr1]; exact hb
      have hb3 : (alookup (aset h2 tgt (aset (lookupH h2 tgt) k v)) b).isSome
          := by
        rw [alookup_aset_ne _ _ (fun hc => hne hc.symm)]
        exact hb2
      have := ih ds allow tgt _ r h' hok b hne hb3
      rw [this, alookup_aset_ne _ _ (fun hc => hne hc.symm), hfr1]

theorem hnmerge_frame (n : Nat) (ha : HaP n) : HmP n := by
  intro d0 us allow h a h' hok
  cases us with
  | nil =>
    rw [hnmerge] at hok
    rw [if_neg (by simp)] at hok
    injection hok with hok
    injection hok with e1 e2
    subst e1
    constructor
    · intro b hb
      rw [← e2, alookup_aset_ne]
      intro hc
      rw [← hc] at hb
      rw [alookup_freshA h] at hb
      exact absurd hb (by simp)
    · exact alookup_freshA h
  | cons u ut =>
    rw [hnmerge] at hok
    rw [if_neg (by simp)] at hok
    have haddr := hassign_addr _ _ _ _ _ _ _ _ _ hok
    subst haddr
    constructor
    · intro b hb
      have hne : b ≠ freshA h := by
        intro hc
        rw [hc, alookup_freshA h] at hb
        exact absurd hb (by simp)
      have hb1 : (alookup (aset h (freshA h) (lookupH h d0)) b).isSome := by
        rw [alookup_aset_ne _ _ (fun hc => hne hc.symm)]
        exact hb
      have := ha _ _ _ _ _ _ _ hok b hne hb1
      rw [this, alookup_aset_ne _ _ (fun hc => hne hc.symm)]
    · exact alookup_freshA h

theorem frame_all : ∀ n, HmP n ∧ HgP n ∧ HaP n := by
  intro n
  induction n with
  | zero =>
    have hg0 : HgP 0 := hgetv_zero_frame
    have ha0 : HaP 0 := hassign_frame 0 hg0
    exact ⟨hnmerge_frame 0 ha0, hg0, ha0⟩
  | succ n ih =>
    have hg : HgP (n + 1) := hgetv_succ_frame n ih.1
    have ha : HaP (n + 1) := hassign_frame (n + 1) hg
    exact ⟨hnmerge_frame (n + 1) ha, hg, ha⟩

theorem hnmerge_inplace_addr :
    ∀ (fuel d0 : Nat) (us : List Nat) (allow : Bool) (h : Heap) (a : Nat)
      (h' : Heap),
      hnmerge fuel d0 us allow true h = .ok (a, h') → a = d0 := by
  intro fuel d0 us allow h a h' hok
  cases us with
  | nil =>
    rw [hnmerge] at hok
    rw [if_pos rfl] at hok
    injection hok with hok
    injection hok with e1 e2
    exact e1.symm
  | cons u ut =>
    rw [hnmerge] at hok
    rw [if_pos rfl] at hok
    exact hassign_addr _ _ _ _ _ _ _ _ _ hok

/-- C7: when `nested_merge` is called with `inplace=False` and returns, no
address that existed in the pre-call heap has changed content — in
particular the base mapping and every structure reachable from it are left
unchanged — and the returned dict is a fresh object (its address was not in
the pre-call heap: the mutation target is the shallow copy of base); with
`inplace=True` the returned address is the base address itself: base is the
mutation target and the returned object. -/
theorem claim_C7_inplace :
    (∀ (fuel d0 : Nat) (us : List Nat) (allow : Bool) (h : Heap) (a : Nat)
      (h' : Heap),
      hnmerge fuel d0 us allow false h = .ok (a, h') →
      (∀ b, (alookup h b).isSome → alookup h' b = alookup h b) ∧
      alookup h a = none) ∧
    (∀ (fuel d0 : Nat) (us : List Nat) (allow : Bool) (h : Heap) (a : Nat)
      (h' : Heap),
      hnmerge fuel d0 us allow true h = .ok (a, h') → a = d0) :=
  ⟨fun fuel => (frame_all fuel).1, hnmerge_inplace_addr⟩


theorem claim_C7_inplace_witness :
    (∀ b, (alookup [(1, [(['k'], HV.atom 5)]),
        (2, [(['k'], HV.atom 7)])] b).isSome →
      alookup [(1, [(['k'], HV.atom 5)]), (2, [(['k'], HV.atom 7)]),
        (3, [(['k'], HV.atom 7)])] b =
      alookup [(1, [(['k'], HV.atom 5)]), (2, [(['k'], HV.atom 7)])] b) ∧
    alookup [(1, [(['k'], HV.atom 5)]), (2, [(['k'], HV.atom 7)])] 3 =
      none :=
  claim_C7_inplace.1 1 1 [2] true
    [(1, [(['k'], HV.atom 5)]), (2, [(['k'], HV.atom 7)])] 3
    [(1, [(['k'], HV.atom 5)]), (2, [(['k'], HV.atom 7)]),
      (3, [(['k'], HV.atom 7)])]
    (by simp [hnmerge, hassign, hgetv, hCollect, hTrailingRun, lookupH,
      alookup, aset, keysOf, freshA, HV.isRef, HV.isAtom, HV.addrOf,
      List.foldr])

end Paderbox
